import Mathlib

/-!
The ctpv configuration lexer (`src/lexer.c`)

A shallow embedding of the tokenizer of ctpv's configuration language, and
theorems about it.

Modelling conventions.

* A C `char` is a signed 8-bit integer (the x86 ABI the program targets); its
  value is an `Int` in `[-128, 127]`.  `to_char` is the conversion applied
  wherever the source stores an `int` or a stream byte into a `char`.
* `unsigned int` fields (`pos`, `len`, `line`, `col`, queue indices) are `Nat`
  with an explicit `% U32` where the source increments or adds.
* The stream `FILE *f` is the list of bytes not yet read plus the sticky
  end-of-file indicator; `fread` never fails otherwise (a finite regular file).
* Loops whose trip count depends on the input (`read_while`, `read_end`, the
  body loop of `read_block`) take a fuel argument and return `none` when it runs
  out; every other function is total.
* `PARSEERROR` appends a record to `err_sink`, the model of the error stream.
-/

namespace Ctpv

/-! ## Machine integers and characters -/

/-- Modulus of `unsigned int`. -/
def U32 : Nat := 4294967296

/-- Conversion of an integer to a (signed, 8-bit) `char`. -/
def to_char (x : Int) : Int := (x + 128) % 256 - 128

/-- The `char` that storing a stream byte into the buffer yields. -/
def byte_to_char (b : Nat) : Int := to_char (b : Int)

/-- Conversion `(unsigned char)c`. -/
def to_uchar (x : Int) : Int := x % 256

/-- Conversion of a `long` to `int` (two's complement truncation). -/
def to_int (x : Int) : Int := (x + 2147483648) % 4294967296 - 2147483648

/-- Sentinel `EOF_CHAR`. -/
def EOF_CHAR : Int := -1

/-- Capacity `LEN(b->buf)` of the input buffer. -/
def BUF_LEN : Nat := 1024

/-- Capacity `LEN(ctx->tok_queue.toks)` of the token queue. -/
def QUEUE_LEN : Nat := 16

/-! ## `<ctype.h>` in the "C" locale -/

/-- Library `isalpha`. -/
def isalpha (c : Int) : Bool := decide ((65 ≤ c ∧ c ≤ 90) ∨ (97 ≤ c ∧ c ≤ 122))

/-- Library `isdigit`. -/
def isdigit (c : Int) : Bool := decide (48 ≤ c ∧ c ≤ 57)

/-- Library `isalnum`. -/
def isalnum (c : Int) : Bool := isalpha c || isdigit c

/-- Library `isblank`: space and horizontal tab. -/
def isblank (c : Int) : Bool := decide (c = 32 ∨ c = 9)

/-- Library `isspace`: space, and `\t \n \v \f \r`. -/
def isspace (c : Int) : Bool := decide (c = 32 ∨ (9 ≤ c ∧ c ≤ 13))

/-! ## Tokens (`lexer.h`) -/

/-- Modelled from the spec: `enum TokenType` of the absent `lexer.h`, with the
kinds of the spec's data model, named and ordered as in the `switch` of
`lexer_token_type_str`. -/
inductive TokenType where
  | TOK_NULL
  | TOK_EOF
  | TOK_ERR
  | TOK_END
  | TOK_BLK_OPEN
  | TOK_BLK_CLS
  | TOK_SLASH
  | TOK_STAR
  | TOK_DOT
  | TOK_INT
  | TOK_STR
  deriving DecidableEq, Repr

/-- Modelled from the spec: `Token` of the absent `lexer.h`, a kind and the
payload union `val` with members `i` (Integer value) and `sp` (arena offset of a
String).  A member that the source does not set is `0`. -/
structure Token where
  type : TokenType
  i : Int
  sp : Nat
  deriving DecidableEq, Repr

/-- Compound literal `TOK_TYPE(t)`. -/
def TOK_TYPE (t : TokenType) : Token := { type := t, i := 0, sp := 0 }

/-- Literal `NULL_TOK`. -/
def NULL_TOK : Token := TOK_TYPE TokenType.TOK_NULL

/-- Literal `EOF_TOK`. -/
def EOF_TOK : Token := TOK_TYPE TokenType.TOK_EOF

/-- Literal `END_TOK`. -/
def END_TOK : Token := TOK_TYPE TokenType.TOK_END

/-- Literal `ERR_TOK`. -/
def ERR_TOK : Token := TOK_TYPE TokenType.TOK_ERR

/-! ## The stream -/

/-- Stream `FILE`: the bytes not yet read and the end-of-file indicator. -/
structure FILE where
  rest : List Nat
  eof_ind : Bool
  deriving DecidableEq, Repr

/-- Library `fread(ptr, 1, count, f)`: the bytes delivered and the stream
afterwards.  A short count sets the end-of-file indicator. -/
def fread (f : FILE) (count : Nat) : List Nat × FILE :=
  (f.rest.take count,
   { rest := f.rest.drop count, eof_ind := f.eof_ind || decide (f.rest.length < count) })

/-- Library `feof`. -/
def feof (f : FILE) : Bool := f.eof_ind

/-! ## Lexer state -/

/-- Struct `InputBuffer`. -/
structure InputBuffer where
  pos : Nat
  len : Nat
  eof : Bool
  f : FILE
  buf : List Int
  deriving DecidableEq, Repr

/-- Struct `TokenQueue`. -/
structure TokenQueue where
  back : Nat
  front : Nat
  toks : List Token
  deriving DecidableEq, Repr

/-- Description of a `PARSEERROR` message. -/
inductive ErrMsg where
  | unclosed_block
  | cannot_handle (c : Int)
  deriving DecidableEq, Repr

/-- One `config parse error:<line>:<col> <description>` record. -/
structure ParseError where
  line : Nat
  col : Nat
  msg : ErrMsg
  deriving DecidableEq, Repr

/-- Struct `Lexer`.  `text_buf` is the content of the text arena (its logical
length is the length of the list); `err_sink` collects what `PARSEERROR`
printed, oldest first. -/
structure Lexer where
  line : Nat
  col : Nat
  input_buf : InputBuffer
  tok_queue : TokenQueue
  text_buf : List Int
  err_sink : List ParseError
  deriving DecidableEq, Repr

/-- Macro `PARSEERROR(*ctx, ...)`: report at the current line and column. -/
def PARSEERROR (ctx : Lexer) (msg : ErrMsg) : Lexer :=
  { ctx with err_sink := ctx.err_sink ++ [{ line := ctx.line, col := ctx.col, msg := msg }] }

/-! ## Token queue -/

/-- Function `add_token_queue`. -/
def add_token_queue (ctx : Lexer) (tok : Token) : Lexer :=
  { ctx with tok_queue :=
      { ctx.tok_queue with
        toks := ctx.tok_queue.toks.set ctx.tok_queue.back tok
        back := (ctx.tok_queue.back + 1) % QUEUE_LEN } }

/-- Function `remove_token_queue`. -/
def remove_token_queue (ctx : Lexer) : Token × Lexer :=
  (ctx.tok_queue.toks.getD ctx.tok_queue.front NULL_TOK,
   { ctx with tok_queue :=
      { ctx.tok_queue with front := (ctx.tok_queue.front + 1) % QUEUE_LEN } })

/-- Function `is_empty_token_queue`. -/
def is_empty_token_queue (ctx : Lexer) : Bool :=
  decide (ctx.tok_queue.back = ctx.tok_queue.front)

/-! ## Input buffer -/

/-- Store `src` into `buf` from index `off` on (`memmove` / the write done by
`fread`). -/
def buf_write (buf : List Int) (off : Nat) (src : List Int) : List Int :=
  buf.take off ++ src ++ buf.drop (off + src.length)

/-- Function `init_input_buf`.  The array `buf` is not initialised by the
source; it is never read before it is written, and starts as zeros here. -/
def init_input_buf (f : FILE) : InputBuffer :=
  { pos := 0, len := 0, eof := false, f := f, buf := List.replicate BUF_LEN 0 }

/-- Function `peekn_char`.  The `assert(i < LEN(b->buf))` holds at every call
in the source, where `i ≤ 3`. -/
def peekn_char (ctx : Lexer) (i : Nat) : Int × Lexer :=
  let b := ctx.input_buf
  if (b.pos + i) % U32 < b.len then
    (b.buf.getD ((b.pos + i) % U32) 0, ctx)
  else if b.eof = true ∨ (0 < i ∧ b.len ≤ i) then
    (EOF_CHAR, ctx)
  else
    let buf1 := if 0 < i then buf_write b.buf 0 ((b.buf.drop (b.len - i)).take i) else b.buf
    let r := fread b.f (BUF_LEN - i)
    let buf2 := buf_write buf1 i (r.1.map byte_to_char)
    let len1 := r.1.length
    let eof1 := if len1 ≠ BUF_LEN ∧ feof r.2 = true then true else b.eof
    let ctx1 : Lexer :=
      { ctx with input_buf := { pos := 0, len := len1, eof := eof1, f := r.2, buf := buf2 } }
    if len1 ≠ BUF_LEN ∧ len1 = 0 then (EOF_CHAR, ctx1)
    else (buf2.getD (i % U32) 0, ctx1)

/-- Function `peek_char`; the result is narrowed to `char`. -/
def peek_char (ctx : Lexer) : Int × Lexer :=
  let r := peekn_char ctx 0
  (to_char r.1, r.2)

/-- Function `nextn_char`. -/
def nextn_char (ctx : Lexer) (i : Nat) : Int × Lexer :=
  let r := peekn_char ctx i
  let c := to_char r.1
  let ctx1 := r.2
  let col1 := (ctx1.col + 1) % U32
  let ctx2 : Lexer :=
    if c = 10 then { ctx1 with col := 1, line := (ctx1.line + 1) % U32 }
    else { ctx1 with col := col1 }
  (c, { ctx2 with input_buf := { ctx2.input_buf with pos := (ctx2.input_buf.pos + 1) % U32 } })

/-- Function `next_char`. -/
def next_char (ctx : Lexer) : Int × Lexer := nextn_char ctx 0

/-- Function `skipn_char`. -/
def skipn_char : Lexer → Nat → Lexer
  | ctx, 0 => ctx
  | ctx, n + 1 => skipn_char (next_char ctx).2 n

/-! ## Text arena -/

/-- Modelled from the spec: `vectorChar_append` of the absent `vector.h`;
append one byte to the arena. -/
def vectorChar_append (v : List Int) (c : Int) : List Int := v ++ [c]

/-- Modelled from the spec: `vectorChar_resize` of the absent `vector.h`, used
by the lexer to truncate; everything past `len` is discarded. -/
def vectorChar_resize (v : List Int) (len : Nat) : List Int := v.take len

/-- Modelled from the spec: `vector_get` of the absent `vector.h`; the view of
the arena that starts at offset `i`. -/
def vector_get (v : List Int) (i : Nat) : List Int := v.drop i

/-- Function `add_text_buf`. -/
def add_text_buf (ctx : Lexer) (c : Int) : Lexer :=
  { ctx with text_buf := vectorChar_append ctx.text_buf c }

/-- Function `get_text_buf_at`. -/
def get_text_buf_at (ctx : Lexer) (i : Nat) : List Int := vector_get ctx.text_buf i

/-- Function `get_text_buf_len`. -/
def get_text_buf_len (ctx : Lexer) : Nat := ctx.text_buf.length

/-- Function `set_text_buf_len`. -/
def set_text_buf_len (ctx : Lexer) (len : Nat) : Lexer :=
  { ctx with text_buf := vectorChar_resize ctx.text_buf len }

/-- The NUL-terminated string that a `char *` view points at. -/
def c_str (p : List Int) : List Int := p.takeWhile (fun c => decide (c ≠ 0))

/-- Decimal accumulation of a digit string, most significant digit first. -/
def digits_value (acc : Int) : List Int → Int
  | [] => acc
  | c :: cs => digits_value (10 * acc + (c - 48)) cs

/-- Library `atoi`, as `(int) strtol(p, NULL, 10)`: optional white space, an
optional sign, the longest run of digits; `strtol` saturates at the range of a
64-bit `long`. -/
def atoi (p : List Int) : Int :=
  let s := (c_str p).dropWhile isspace
  let neg := decide (s.head? = some 45)
  let s1 := if s.head? = some 45 ∨ s.head? = some 43 then s.tail else s
  let v := digits_value 0 (s1.takeWhile isdigit)
  let w := if neg then max (-v) (-9223372036854775808) else min v 9223372036854775807
  to_int w

/-! ## Lexer -/

/-- Function `lexer_init`: a lexer on a stream holding `input`. -/
def lexer_init (input : List Nat) : Lexer :=
  { line := 1
    col := 1
    input_buf := init_input_buf { rest := input, eof_ind := false }
    tok_queue := { back := 0, front := 0, toks := List.replicate QUEUE_LEN NULL_TOK }
    text_buf := []
    err_sink := [] }

/-- The loop of `cmp_nextn`, from index `i` on; `s` is what remains of the
string, `[]` standing for a pointer at its terminating NUL.  Returns the value
`cmp_nextn` returns. -/
def cmp_nextn_loop (n : Nat) : List Int → Nat → Lexer → Int × Lexer
  | [], i, ctx =>
    let r := peekn_char ctx i
    (if i = n then 0 else to_uchar (to_char r.1) - to_uchar 0, r.2)
  | sc :: s, i, ctx =>
    let r := peekn_char ctx i
    let c := to_char r.1
    if n ≤ i ∨ sc = 0 ∨ c ≠ sc then
      (if i = n then 0 else to_uchar c - to_uchar sc, r.2)
    else
      cmp_nextn_loop n s (i + 1) r.2

/-- Function `cmp_nextn`. -/
def cmp_nextn (ctx : Lexer) (n : Nat) (s : List Int) : Int × Lexer :=
  cmp_nextn_loop n s 0 ctx

/-- The loop of `read_while`. -/
def read_while_loop (p : Int → Bool) (add : Bool) : Nat → Lexer → Option Lexer
  | 0, _ => none
  | fuel + 1, ctx =>
    let r := peek_char ctx
    if r.1 < 0 ∨ p r.1 = false then some r.2
    else
      let ctx1 := if add = true then add_text_buf r.2 r.1 else r.2
      read_while_loop p add fuel (next_char ctx1).2

/-- Function `read_while`. -/
def read_while (fuel : Nat) (ctx : Lexer) (p : Int → Bool) (add : Bool) : Option Lexer :=
  (read_while_loop p add fuel ctx).map
    (fun ctx1 => if add = true then add_text_buf ctx1 0 else ctx1)

/-- The loop of `read_end`; `tok` is the local of that name. -/
def read_end_loop : Nat → Token → Lexer → Option (Token × Lexer)
  | 0, _, _ => none
  | fuel + 1, tok, ctx =>
    let r := peek_char ctx
    if r.1 = 10 then
      let r1 := peek_char r.2
      if r1.1 ≠ 10 then some (tok, r1.2)
      else read_end_loop fuel END_TOK (next_char r1.2).2
    else some (tok, r.2)

/-- Function `read_end`. -/
def read_end (fuel : Nat) (ctx : Lexer) : Option (Token × Lexer) :=
  read_end_loop fuel NULL_TOK ctx

/-- Function `read_symbol`. -/
def read_symbol (fuel : Nat) (ctx : Lexer) : Option (Token × Lexer) :=
  let r := peek_char ctx
  if isalpha r.1 = false then some (NULL_TOK, r.2)
  else
    let p := get_text_buf_len r.2
    (read_while fuel r.2 isalnum true).map
      (fun ctx1 => ({ type := TokenType.TOK_STR, i := 0, sp := p }, ctx1))

/-- Function `read_digit`. -/
def read_digit (fuel : Nat) (ctx : Lexer) : Option (Token × Lexer) :=
  let r := peek_char ctx
  if isdigit r.1 = false then some (NULL_TOK, r.2)
  else
    let len := get_text_buf_len r.2
    (read_while fuel r.2 isdigit true).map
      (fun ctx1 =>
        let i := atoi (get_text_buf_at ctx1 len)
        ({ type := TokenType.TOK_INT, i := i, sp := 0 }, set_text_buf_len ctx1 len))

/-- Function `read_punct`. -/
def read_punct (ctx : Lexer) (type : TokenType) (s : List Int) (n : Nat) : Token × Lexer :=
  let r := peek_char ctx
  if r.1 = EOF_CHAR then (EOF_TOK, r.2)
  else
    let ret := cmp_nextn r.2 n s
    if ret.1 = 0 then ({ type := type, i := 0, sp := 0 }, skipn_char ret.2 n)
    else (NULL_TOK, ret.2)

/-- String `block_open`. -/
def block_open : List Int := [123, 123, 123]

/-- String `block_close`. -/
def block_close : List Int := [125, 125, 125]

/-- Function `read_block_open`. -/
def read_block_open (ctx : Lexer) : Token × Lexer :=
  read_punct ctx TokenType.TOK_BLK_OPEN block_open 3

/-- Function `read_block_close`. -/
def read_block_close (ctx : Lexer) : Token × Lexer :=
  read_punct ctx TokenType.TOK_BLK_CLS block_close 3

/-- What `read_block` does after its loop has been left by `break`. -/
def read_block_finish (open_tok body_tok close_tok : Token) (ctx : Lexer) : Token × Lexer :=
  let ctx1 := add_text_buf ctx 0
  let ctx2 := add_token_queue ctx1 body_tok
  let ctx3 := if close_tok.type ≠ TokenType.TOK_NULL then add_token_queue ctx2 close_tok else ctx2
  (open_tok, ctx3)

/-- The loop of `read_block` together with the code that follows it. -/
def read_block_loop (open_tok body_tok : Token) : Nat → Lexer → Option (Token × Lexer)
  | 0, _ => none
  | fuel + 1, ctx =>
    let r := read_block_close ctx
    if r.1.type = TokenType.TOK_EOF then
      some (ERR_TOK, PARSEERROR r.2 ErrMsg.unclosed_block)
    else if r.1.type ≠ TokenType.TOK_NULL then
      some (read_block_finish open_tok body_tok r.1 r.2)
    else
      let r1 := next_char r.2
      read_block_loop open_tok body_tok fuel (add_text_buf r1.2 r1.1)

/-- Function `read_block`. -/
def read_block (fuel : Nat) (ctx : Lexer) : Option (Token × Lexer) :=
  let r := read_block_open ctx
  if r.1.type = TokenType.TOK_NULL then some (NULL_TOK, r.2)
  else
    let body_tok : Token := { type := TokenType.TOK_STR, i := 0, sp := get_text_buf_len r.2 }
    read_block_loop r.1 body_tok fuel r.2

/-- Macro `ATTEMPT_READ_CHAR(ctx, ch, type)`; `k` is the code after it. -/
def ATTEMPT_READ_CHAR (ctx : Lexer) (ch : Int) (type : Token)
    (k : Lexer → Option (Token × Lexer)) : Option (Token × Lexer) :=
  let r := peek_char ctx
  if r.1 = ch then some (type, (next_char r.2).2) else k r.2

/-- Macro `ATTEMPT_READ(ctx, func)`, given the result of `func(ctx)`; `k` is the
code after it. -/
def ATTEMPT_READ (res : Option (Token × Lexer))
    (k : Lexer → Option (Token × Lexer)) : Option (Token × Lexer) :=
  match res with
  | none => none
  | some t => if t.1.type ≠ TokenType.TOK_NULL then some t else k t.2

/-- Function `lexer_get_token`. -/
def lexer_get_token (fuel : Nat) (ctx : Lexer) : Option (Token × Lexer) :=
  if is_empty_token_queue ctx = false then some (remove_token_queue ctx)
  else
    match read_while fuel ctx isblank false with
    | none => none
    | some c0 =>
      ATTEMPT_READ_CHAR c0 EOF_CHAR EOF_TOK fun c1 =>
      ATTEMPT_READ_CHAR c1 47 (TOK_TYPE TokenType.TOK_SLASH) fun c2 =>
      ATTEMPT_READ_CHAR c2 42 (TOK_TYPE TokenType.TOK_STAR) fun c3 =>
      ATTEMPT_READ_CHAR c3 46 (TOK_TYPE TokenType.TOK_DOT) fun c4 =>
      ATTEMPT_READ (read_end fuel c4) fun c5 =>
      ATTEMPT_READ (read_symbol fuel c5) fun c6 =>
      ATTEMPT_READ (read_digit fuel c6) fun c7 =>
      ATTEMPT_READ (read_block fuel c7) fun c8 =>
      let r := peek_char c8
      some (ERR_TOK, PARSEERROR r.2 (ErrMsg.cannot_handle r.1))

/-- Function `lexer_get_string`: the view of the arena at the token's offset,
`none` for the `NULL` returned for a token that is not a String. -/
def lexer_get_string (ctx : Lexer) (tok : Token) : Option (List Int) :=
  if tok.type ≠ TokenType.TOK_STR then none
  else some (get_text_buf_at ctx tok.sp)

/-- Repeated `lexer_get_token`: the tokens of `k` successive calls and the
state after the last. -/
def lex_tokens (fuel : Nat) : Nat → Lexer → Option (List Token × Lexer)
  | 0, ctx => some ([], ctx)
  | k + 1, ctx =>
    match lexer_get_token fuel ctx with
    | none => none
    | some r =>
      match lex_tokens fuel k r.2 with
      | none => none
      | some rs => some (r.1 :: rs.1, rs.2)

/-- ASCII codes of a string literal, as stream bytes. -/
def bytes (s : String) : List Nat := s.toList.map Char.toNat

/-- ASCII codes of a string literal, as `char` values. -/
def chars (s : String) : List Int := s.toList.map (fun c => (c.toNat : Int))

/-! ## The character vector of `src/utils.c`

`size_t` is 64 bits wide.  A heap block is the list of its cells, `none` for a
cell whose value is indeterminate; a store outside the block is a fault.  The
allocator is a parameter: `ok n` tells whether a request for `n` bytes is
granted, and a request that is not granted makes the program `abort()`. -/

/-- Number of values of `size_t`. -/
def SIZE_T : Nat := 2 ^ 64

/-- How a run can stop short: `abort()` after a failed allocation, or a store
outside the allocated block. -/
inductive Fault where
  | abort
  | out_of_bounds
  deriving DecidableEq, Repr

/-- Struct `CharVec` (declared in the absent `utils.h`): the block `buf`
(`none` for `NULL`), the length `len`, which counts the terminator, and the
capacity `cap`. -/
structure CharVec where
  buf : Option (List (Option Int))
  len : Nat
  cap : Nat

/-- Library `malloc`. -/
def malloc (ok : Nat → Bool) (n : Nat) : Option (List (Option Int)) :=
  if ok n = true then some (List.replicate n none) else none

/-- Library `realloc` of a block: the old cells are kept, as far as they fit. -/
def realloc (ok : Nat → Bool) (b : List (Option Int)) (n : Nat) :
    Option (List (Option Int)) :=
  if ok n = true then some (b.take n ++ List.replicate (n - b.length) none) else none

/-- The assignment `buf[i] = c`. -/
def store (b : List (Option Int)) (i : Nat) (c : Int) : Except Fault (List (Option Int)) :=
  if i < b.length then Except.ok (b.set i (some c)) else Except.error Fault.out_of_bounds

/-- Function `char_v_new`. -/
def char_v_new (cap : Nat) : CharVec := { buf := none, len := 0, cap := cap }

/-- The first `if` of `char_v_append`: allocate the block on first use, store
the terminator and count it. -/
def char_v_append_init (ok : Nat → Bool) (v : CharVec) : Except Fault CharVec :=
  match v.buf with
  | some _ => Except.ok v
  | none =>
    match malloc ok (v.cap % SIZE_T) with
    | none => Except.error Fault.abort
    | some b =>
      match store b 0 0 with
      | Except.error f => Except.error f
      | Except.ok b1 => Except.ok { v with buf := some b1, len := (v.len + 1) % SIZE_T }

/-- The second `if` of `char_v_append`: double the capacity when
`len + 1 >= cap`.  (`realloc` of `NULL` is `malloc`.) -/
def char_v_append_grow (ok : Nat → Bool) (v : CharVec) : Except Fault CharVec :=
  if v.cap ≤ (v.len + 1) % SIZE_T then
    match (match v.buf with
        | none => malloc ok ((v.cap * 2) % SIZE_T)
        | some b => realloc ok b ((v.cap * 2) % SIZE_T)) with
    | none => Except.error Fault.abort
    | some b2 => Except.ok { v with cap := (v.cap * 2) % SIZE_T, buf := some b2 }
  else Except.ok v

/-- The last three statements of `char_v_append`: store the character over the
terminator, store the terminator after it, count the character. -/
def char_v_append_store (v : CharVec) (c : Int) : Except Fault CharVec :=
  match v.buf with
  | none => Except.error Fault.out_of_bounds
  | some b =>
    match store b ((v.len + SIZE_T - 1) % SIZE_T) c with
    | Except.error f => Except.error f
    | Except.ok b1 =>
      match store b1 v.len 0 with
      | Except.error f => Except.error f
      | Except.ok b2 => Except.ok { v with buf := some b2, len := (v.len + 1) % SIZE_T }

/-- Function `char_v_append`. -/
def char_v_append (ok : Nat → Bool) (v : CharVec) (c : Int) : Except Fault CharVec :=
  match char_v_append_init ok v with
  | Except.error f => Except.error f
  | Except.ok v1 =>
    match char_v_append_grow ok v1 with
    | Except.error f => Except.error f
    | Except.ok v2 => char_v_append_store v2 c

/-- Successive `char_v_append` calls, one for each character of the list. -/
def char_v_appends (ok : Nat → Bool) : CharVec → List Int → Except Fault CharVec
  | v, [] => Except.ok v
  | v, c :: cs =>
    match char_v_append ok v c with
    | Except.error f => Except.error f
    | Except.ok v1 => char_v_appends ok v1 cs

/-! ## Observations used by the statements -/

/-- Text of a token: the C string `lexer_get_string` points at. -/
def token_text (ctx : Lexer) (tok : Token) : Option (List Int) :=
  (lexer_get_string ctx tok).map c_str

/-- Repeated `lexer_get_token`: for each of `k` successive calls the kind of the
token returned and its text, read right after the call that returned it. -/
def lex_views (fuel : Nat) : Nat → Lexer → Option (List (TokenType × Option (List Int)))
  | 0, _ => some []
  | k + 1, ctx =>
    match lexer_get_token fuel ctx with
    | none => none
    | some r =>
      match lex_views fuel k r.2 with
      | none => none
      | some vs => some ((r.1.type, token_text r.2 r.1) :: vs)

/-- The characters the lexer has not consumed yet, as it would see them with a
correct buffer: those buffered from `pos` to `len`, then the rest of the
stream. -/
def unread (ctx : Lexer) : List Int :=
  ((ctx.input_buf.buf.drop ctx.input_buf.pos).take
      (ctx.input_buf.len - ctx.input_buf.pos)).map to_char ++
    ctx.input_buf.f.rest.map byte_to_char

/-- A consistent input buffer: the cursor is inside the buffered bytes, the
buffered bytes fit the array, and the end-of-stream flag is set only when the
stream is exhausted. -/
structure Good (ctx : Lexer) : Prop where
  pos_le : ctx.input_buf.pos ≤ ctx.input_buf.len
  len_le : ctx.input_buf.len ≤ BUF_LEN
  buf_len : ctx.input_buf.buf.length = BUF_LEN
  eof_rest : ctx.input_buf.eof = true → ctx.input_buf.f.rest = []

/-- A buffer on which `peekn_char(ctx, 0)` answers without reading the stream. -/
def Peeked (ctx : Lexer) : Prop :=
  ctx.input_buf.pos < ctx.input_buf.len ∨ ctx.input_buf.eof = true

/-- Line and column after the characters of a list have been consumed. -/
def advance : Nat × Nat → List Int → Nat × Nat
  | lc, [] => lc
  | lc, c :: cs =>
    advance (if c = 10 then ((lc.1 + 1) % U32, 1) else (lc.1, (lc.2 + 1) % U32)) cs

/-- A byte string matching `[A-Za-z][A-Za-z0-9]*`. -/
def is_identifier : List Nat → Bool
  | [] => false
  | a :: t => isalpha (a : Int) && t.all (fun (b : Nat) => isalnum (b : Int))

/-- A byte string matching `[0-9]+`. -/
def is_digit_run (d : List Nat) : Bool :=
  decide (d ≠ []) && d.all (fun (b : Nat) => decide (48 ≤ b ∧ b ≤ 57))

/-- Standard decimal interpretation of a string of ASCII digits. -/
def decimal_value (d : List Nat) : Nat :=
  Nat.ofDigits 10 (d.reverse.map (fun (b : Nat) => b - 48))

/-- The first three unread characters are `a`, `b`, `c`. -/
def starts3 (U : List Int) (a b c : Int) : Prop :=
  U.getD 0 EOF_CHAR = a ∧ U.getD 1 EOF_CHAR = b ∧ U.getD 2 EOF_CHAR = c

/-- A lexer that has seen the end of the stream, has consumed everything it
buffered, and has nothing queued. -/
def Done (ctx : Lexer) : Prop :=
  ctx.input_buf.eof = true ∧ ctx.input_buf.len ≤ ctx.input_buf.pos ∧
    is_empty_token_queue ctx = true

/-- A buffer whose next peek sees the end of the stream: the flag is already
set, or nothing is buffered and the stream holds less than a full buffer. -/
def Small (ctx : Lexer) : Prop :=
  ctx.input_buf.eof = true ∨
    (ctx.input_buf.len ≤ ctx.input_buf.pos ∧ ctx.input_buf.pos < U32 ∧
      ctx.input_buf.f.rest.length < BUF_LEN)

/-- Number of bytes after the last newline of `p` (all of `p` if it has none). -/
def tail_len (p : List Nat) : Nat :=
  (p.reverse.takeWhile (fun (b : Nat) => decide (b ≠ 10))).length

/-- Line of the position that follows the bytes `p` of the input: one more than
the number of newline bytes in `p`. -/
def line_of (p : List Nat) : Nat := 1 + p.count 10

/-- Column of the position that follows the bytes `p` of the input: one more
than the number of bytes of `p` after its last newline. -/
def col_of (p : List Nat) : Nat := 1 + tail_len p

/-- The state in which the characters `w`, all buffered, have been consumed by
the body loop of `read_block`. -/
def scan_state (ctx : Lexer) (w : List Int) : Lexer :=
  { ctx with
    line := (advance (ctx.line, ctx.col) w).1
    col := (advance (ctx.line, ctx.col) w).2
    input_buf := { ctx.input_buf with pos := ctx.input_buf.pos + w.length }
    text_buf := ctx.text_buf ++ w }

/-- The 1026-byte input `{{{`, 1020 times `a`, `}}}`: its close marker starts at
the last byte of the first buffer-load. -/
def split_marker_input : List Nat :=
  [123, 123, 123] ++ List.replicate 1020 97 ++ [125, 125, 125]

/-- Number of bytes the lexer can still deliver: those left in the stream and
those buffered past the cursor. -/
def avail (ctx : Lexer) : Nat :=
  ctx.input_buf.f.rest.length + (ctx.input_buf.len - ctx.input_buf.pos)

/-- Number of bytes left in the stream or held in the buffer. -/
def stock (ctx : Lexer) : Nat :=
  ctx.input_buf.f.rest.length + ctx.input_buf.len

/-- Number of tokens in the queue. -/
def queued (ctx : Lexer) : Nat :=
  (ctx.tok_queue.back + QUEUE_LEN - ctx.tok_queue.front) % QUEUE_LEN

/-- States reachable from `lexer_init input` by `lexer_get_token` calls. -/
inductive Reachable (input : List Nat) : Lexer → Prop where
  | init : Reachable input (lexer_init input)
  | step {fuel : Nat} {ctx : Lexer} {r : Token × Lexer} :
      Reachable input ctx → lexer_get_token fuel ctx = some r → Reachable input r.2

/-- Buffer indices in range: what every state of the lexer satisfies. -/
def WFt (ctx : Lexer) : Prop :=
  ctx.input_buf.len ≤ BUF_LEN ∧ ctx.input_buf.pos < U32

/-- State `s` of the lookahead of `cmp_nextn` started at `ctx`, after the peeks
at offsets below `j` have all returned a byte: either nothing was read and `j`
bytes are buffered past the cursor, or the buffer was refilled, and the bytes
that the refill dropped from the count are accounted for. -/
def PeekRun (ctx s : Lexer) (j : Nat) : Prop :=
  s.input_buf.len ≤ BUF_LEN ∧ stock s ≤ stock ctx ∧
    ((s = ctx ∧ ctx.input_buf.pos + j ≤ ctx.input_buf.len) ∨
     (s.input_buf.pos = 0 ∧ avail s + j ≤ avail ctx + min j s.input_buf.len ∧
       avail s + 1 ≤ avail ctx))

/-- What is known of the state `s` in which `cmp_nextn`, started at `ctx`,
stops. -/
def PeekEnd (ctx s : Lexer) : Prop :=
  s.input_buf.len ≤ BUF_LEN ∧ s.input_buf.pos ≤ BUF_LEN ∧ stock s ≤ stock ctx ∧
    avail s ≤ avail ctx ∧
    (s.input_buf.pos < s.input_buf.len ∨ (s.input_buf.pos = 0 ∧ avail s + 1 ≤ avail ctx))

/-- The token queue is in order: indices in range, at most two tokens queued,
none of them the `TOK_NULL` sentinel. -/
def QInv (ctx : Lexer) : Prop :=
  ctx.tok_queue.front < QUEUE_LEN ∧ ctx.tok_queue.back < QUEUE_LEN ∧
    ctx.tok_queue.toks.length = QUEUE_LEN ∧ queued ctx ≤ 2 ∧
    ∀ j, j < queued ctx →
      (ctx.tok_queue.toks.getD ((ctx.tok_queue.front + j) % QUEUE_LEN) NULL_TOK).type ≠
        TokenType.TOK_NULL

/-- What the lexer did between two states: it consumed a list `w` of the unread
characters, and moved line and column over them. -/
def Consumed (ctx ctx' : Lexer) : Prop :=
  ∃ w, unread ctx = w ++ unread ctx' ∧ (ctx'.line, ctx'.col) = advance (ctx.line, ctx.col) w

/-! ## Inputs at the buffer boundary -/

/-- The 1027-byte input made of one space and `split_marker_input`: the first
buffer-load ends with the last byte of the body, the close marker is the whole
of the second. -/
def blank_split_input : List Nat := [32] ++ split_marker_input

/-- The 1024-byte input made of 1023 spaces and `{`: exactly one buffer-load,
whose last byte is the `{`. -/
def blanks_brace_input : List Nat := List.replicate 1023 32 ++ [123]

/-! ## The queue as a list -/

/-- The tokens waiting in the queue, oldest first: the slots from `front` up to
`back`, modulo the capacity. -/
def queue_contents (ctx : Lexer) : List Token :=
  (List.range (queued ctx)).map
    (fun j => ctx.tok_queue.toks.getD ((ctx.tok_queue.front + j) % QUEUE_LEN) NULL_TOK)

/-- Queue indices in range, and the array of the declared size. -/
def QWF (ctx : Lexer) : Prop :=
  ctx.tok_queue.front < QUEUE_LEN ∧ ctx.tok_queue.back < QUEUE_LEN ∧
    ctx.tok_queue.toks.length = QUEUE_LEN

/-! ## The byte source on its own -/

/-- The characters returned by `n` successive `next_char` calls. -/
def next_chars : Nat → Lexer → List Int
  | 0, _ => []
  | n + 1, ctx => (next_char ctx).1 :: next_chars n (next_char ctx).2

/-- States of the byte source reached from `lexer_init input` by peeks at
offset 0, by peeks at an offset whose byte is already buffered or that are made
once the end-of-stream flag is set, and by `next_char` calls that consume an
unread byte. -/
inductive PeekReach (input : List Nat) : Lexer → Prop where
  | init : PeekReach input (lexer_init input)
  | peek {c : Lexer} : PeekReach input c → PeekReach input (peekn_char c 0).2
  | peek_at {c : Lexer} (i : Nat) : PeekReach input c → i < BUF_LEN →
      (c.input_buf.pos + i < c.input_buf.len ∨ c.input_buf.eof = true) →
      PeekReach input (peekn_char c i).2
  | next {c : Lexer} : PeekReach input c → unread c ≠ [] → PeekReach input (next_char c).2

/-- The state in which the characters `w`, all buffered, have been consumed
without being recorded (`read_while` with `add = 0`). -/
def skip_state (ctx : Lexer) (w : List Int) : Lexer :=
  { scan_state ctx w with text_buf := ctx.text_buf }

/-! ## The text arena -/

/-- Between two states the arena only grew, and the queue is the same. -/
def Grew (ctx r : Lexer) : Prop :=
  (∃ e, r.text_buf = ctx.text_buf ++ e) ∧ r.tok_queue = ctx.tok_queue

/-- A NUL at or after offset `sp` of the arena: the view at `sp` is a
terminated string. -/
def Terminated (tb : List Int) (sp : Nat) : Prop := (0 : Int) ∈ tb.drop sp

/-- Every String token waiting in the queue points at a terminated string. -/
def TextInv (ctx : Lexer) : Prop :=
  ∀ t ∈ queue_contents ctx, t.type = TokenType.TOK_STR → Terminated ctx.text_buf t.sp

/-- What a call that found the queue empty did to arena and queue: the arena
grew, a String token returned points at a terminated string, and the queue is
as before or holds a String token that points at a terminated string and the
BlockClose token. -/
def TextStep (ctx : Lexer) (r : Token × Lexer) : Prop :=
  (∃ e, r.2.text_buf = ctx.text_buf ++ e) ∧
  (r.1.type = TokenType.TOK_STR → Terminated r.2.text_buf r.1.sp) ∧
  (r.2.tok_queue = ctx.tok_queue ∨
    ∃ sp, Terminated r.2.text_buf sp ∧
      r.2.tok_queue =
        (add_token_queue (add_token_queue ctx { type := TokenType.TOK_STR, i := 0, sp := sp })
          { type := TokenType.TOK_BLK_CLS, i := 0, sp := 0 }).tok_queue)

/-! ## The character vector -/

/-- The vector after the characters `acc` have been appended to a vector
created with capacity `cap0`: the block has `cap` cells, `len` counts the
characters and the terminator and fits, the block starts with the characters
followed by NUL, and the capacity is `cap0` doubled some number of times. -/
def VecInv (cap0 : Nat) (v : CharVec) (acc : List Int) : Prop :=
  ∃ b, v.buf = some b ∧ b.length = v.cap ∧ v.len = acc.length + 1 ∧ v.len ≤ v.cap ∧
    b.take acc.length = acc.map some ∧ b[acc.length]? = some (some 0) ∧
    (∃ j, v.cap = cap0 * 2 ^ j) ∧ v.cap ≤ max cap0 (2 * (acc.length + 1)) ∧
    v.cap < 2 ^ 63

/-! ## Fuel: a result, once produced, is stable under more fuel -/


theorem read_while_loop_mono (p : Int → Bool) (add : Bool) :
    ∀ (fuel fuel' : Nat) (ctx r : Lexer), fuel ≤ fuel' →
      read_while_loop p add fuel ctx = some r → read_while_loop p add fuel' ctx = some r := by
  intro fuel
  induction fuel with
  | zero => intro fuel' ctx r _ h; simp [read_while_loop] at h
  | succ n ih =>
    intro fuel' ctx r hle h
    obtain ⟨m, rfl⟩ : ∃ m, fuel' = m + 1 := ⟨fuel' - 1, by omega⟩
    simp only [read_while_loop] at h ⊢
    split
    · rename_i hc; simpa [hc] using h
    · rename_i hc
      rw [if_neg hc] at h
      exact ih m _ r (by omega) h

theorem read_while_mono {fuel fuel' : Nat} {ctx r : Lexer} {p : Int → Bool} {add : Bool}
    (hle : fuel ≤ fuel') (h : read_while fuel ctx p add = some r) :
    read_while fuel' ctx p add = some r := by
  unfold read_while at h ⊢
  cases hl : read_while_loop p add fuel ctx with
  | none => simp [hl] at h
  | some x =>
    rw [read_while_loop_mono p add fuel fuel' ctx x hle hl]
    simpa [hl] using h

theorem read_end_loop_mono :
    ∀ (fuel fuel' : Nat) (tok : Token) (ctx : Lexer) (r : Token × Lexer), fuel ≤ fuel' →
      read_end_loop fuel tok ctx = some r → read_end_loop fuel' tok ctx = some r := by
  intro fuel
  induction fuel with
  | zero => intro fuel' tok ctx r _ h; simp [read_end_loop] at h
  | succ n ih =>
    intro fuel' tok ctx r hle h
    obtain ⟨m, rfl⟩ : ∃ m, fuel' = m + 1 := ⟨fuel' - 1, by omega⟩
    simp only [read_end_loop] at h ⊢
    split
    · rename_i hc
      rw [if_pos hc] at h
      split
      · rename_i hc1; simpa [hc1] using h
      · rename_i hc1
        rw [if_neg hc1] at h
        exact ih m _ _ r (by omega) h
    · rename_i hc; simpa [hc] using h

theorem read_block_loop_mono (o b : Token) :
    ∀ (fuel fuel' : Nat) (ctx : Lexer) (r : Token × Lexer), fuel ≤ fuel' →
      read_block_loop o b fuel ctx = some r → read_block_loop o b fuel' ctx = some r := by
  intro fuel
  induction fuel with
  | zero => intro fuel' ctx r _ h; simp [read_block_loop] at h
  | succ n ih =>
    intro fuel' ctx r hle h
    obtain ⟨m, rfl⟩ : ∃ m, fuel' = m + 1 := ⟨fuel' - 1, by omega⟩
    simp only [read_block_loop] at h ⊢
    split
    · rename_i hc; simpa [hc] using h
    · rename_i hc
      rw [if_neg hc] at h
      split
      · rename_i hc1; simpa [hc1] using h
      · rename_i hc1
        rw [if_neg hc1] at h
        exact ih m _ r (by omega) h

theorem read_end_mono {fuel fuel' : Nat} {ctx : Lexer} {r : Token × Lexer}
    (hle : fuel ≤ fuel') (h : read_end fuel ctx = some r) : read_end fuel' ctx = some r :=
  read_end_loop_mono fuel fuel' _ ctx r hle h

theorem read_symbol_mono {fuel fuel' : Nat} {ctx : Lexer} {r : Token × Lexer}
    (hle : fuel ≤ fuel') (h : read_symbol fuel ctx = some r) : read_symbol fuel' ctx = some r := by
  unfold read_symbol at h ⊢
  simp only at h ⊢
  split
  · rename_i hc; simpa [hc] using h
  · rename_i hc
    simp only [if_neg hc] at h
    cases hl : read_while fuel (peek_char ctx).2 isalnum true with
    | none => simp [hl] at h
    | some x => rw [read_while_mono hle hl]; simpa [hl] using h

theorem read_digit_mono {fuel fuel' : Nat} {ctx : Lexer} {r : Token × Lexer}
    (hle : fuel ≤ fuel') (h : read_digit fuel ctx = some r) : read_digit fuel' ctx = some r := by
  unfold read_digit at h ⊢
  simp only at h ⊢
  split
  · rename_i hc; simpa [hc] using h
  · rename_i hc
    simp only [if_neg hc] at h
    cases hl : read_while fuel (peek_char ctx).2 isdigit true with
    | none => simp [hl] at h
    | some x => rw [read_while_mono hle hl]; simpa [hl] using h

theorem read_block_mono {fuel fuel' : Nat} {ctx : Lexer} {r : Token × Lexer}
    (hle : fuel ≤ fuel') (h : read_block fuel ctx = some r) : read_block fuel' ctx = some r := by
  unfold read_block at h ⊢
  simp only at h ⊢
  split
  · rename_i hc; simpa [hc] using h
  · rename_i hc
    simp only [if_neg hc] at h
    exact read_block_loop_mono _ _ fuel fuel' _ r hle h

theorem ATTEMPT_READ_mono {res res' : Option (Token × Lexer)}
    {k k' : Lexer → Option (Token × Lexer)} {r : Token × Lexer}
    (hres : ∀ x, res = some x → res' = some x)
    (hk : ∀ c x, k c = some x → k' c = some x)
    (h : ATTEMPT_READ res k = some r) : ATTEMPT_READ res' k' = some r := by
  unfold ATTEMPT_READ at h ⊢
  cases hr : res with
  | none => simp [hr] at h
  | some t =>
    rw [hres t hr]
    simp only [hr] at h
    simp only
    split
    · rename_i hc; simpa [hc] using h
    · rename_i hc
      rw [if_neg hc] at h
      exact hk _ _ h

theorem ATTEMPT_READ_CHAR_mono {ctx : Lexer} {ch : Int} {type : Token}
    {k k' : Lexer → Option (Token × Lexer)} {r : Token × Lexer}
    (hk : ∀ c x, k c = some x → k' c = some x)
    (h : ATTEMPT_READ_CHAR ctx ch type k = some r) :
    ATTEMPT_READ_CHAR ctx ch type k' = some r := by
  unfold ATTEMPT_READ_CHAR at h ⊢
  simp only at h ⊢
  split
  · rename_i hc; simpa [hc] using h
  · rename_i hc
    rw [if_neg hc] at h
    exact hk _ _ h

theorem lexer_get_token_mono {fuel fuel' : Nat} {ctx : Lexer} {r : Token × Lexer}
    (hle : fuel ≤ fuel') (h : lexer_get_token fuel ctx = some r) :
    lexer_get_token fuel' ctx = some r := by
  unfold lexer_get_token at h ⊢
  split
  · rename_i hc; simpa [hc] using h
  · rename_i hc
    rw [if_neg hc] at h
    cases hl : read_while fuel ctx isblank false with
    | none => simp [hl] at h
    | some c0 =>
      rw [read_while_mono hle hl]
      simp only [hl] at h
      simp only
      refine ATTEMPT_READ_CHAR_mono (fun c1 x h1 => ?_) h
      refine ATTEMPT_READ_CHAR_mono (fun c2 x h2 => ?_) h1
      refine ATTEMPT_READ_CHAR_mono (fun c3 x h3 => ?_) h2
      refine ATTEMPT_READ_CHAR_mono (fun c4 x h4 => ?_) h3
      refine ATTEMPT_READ_mono (fun y hy => read_end_mono hle hy) (fun c5 x h5 => ?_) h4
      refine ATTEMPT_READ_mono (fun y hy => read_symbol_mono hle hy) (fun c6 x h6 => ?_) h5
      refine ATTEMPT_READ_mono (fun y hy => read_digit_mono hle hy) (fun c7 x h7 => ?_) h6
      exact ATTEMPT_READ_mono (fun y hy => read_block_mono hle hy) (fun c8 x h8 => h8) h7

theorem lex_tokens_mono {fuel fuel' : Nat} (hle : fuel ≤ fuel') :
    ∀ (k : Nat) (ctx : Lexer) (r : List Token × Lexer),
      lex_tokens fuel k ctx = some r → lex_tokens fuel' k ctx = some r := by
  intro k
  induction k with
  | zero => intro ctx r h; simpa [lex_tokens] using h
  | succ n ih =>
    intro ctx r h
    simp only [lex_tokens] at h ⊢
    cases h1 : lexer_get_token fuel ctx with
    | none => simp [h1] at h
    | some t =>
      rw [lexer_get_token_mono hle h1]
      simp only [h1] at h
      simp only
      cases h2 : lex_tokens fuel n t.2 with
      | none => simp [h2] at h
      | some rs =>
        rw [ih _ _ h2]
        simpa [h2] using h


theorem lex_views_mono {fuel fuel' : Nat} (hle : fuel ≤ fuel') :
    ∀ (k : Nat) (ctx : Lexer) (r : List (TokenType × Option (List Int))),
      lex_views fuel k ctx = some r → lex_views fuel' k ctx = some r := by
  intro k
  induction k with
  | zero => intro ctx r h; simpa [lex_views] using h
  | succ n ih =>
    intro ctx r h
    simp only [lex_views] at h ⊢
    cases h1 : lexer_get_token fuel ctx with
    | none => simp [h1] at h
    | some t =>
      rw [lexer_get_token_mono hle h1]
      simp only [h1] at h
      simp only
      cases h2 : lex_views fuel n t.2 with
      | none => simp [h2] at h
      | some rs =>
        rw [ih _ _ h2]
        simpa [h2] using h

/-! ## Characters and the input buffer -/


theorem to_char_idem (x : Int) : to_char (to_char x) = to_char x := by
  unfold to_char; omega

theorem to_char_eof : to_char EOF_CHAR = EOF_CHAR := by decide

theorem to_char_range (x : Int) : -128 ≤ to_char x ∧ to_char x ≤ 127 := by
  unfold to_char; omega

theorem to_char_of_range {x : Int} (h1 : -128 ≤ x) (h2 : x ≤ 127) : to_char x = x := by
  unfold to_char; omega

@[simp] theorem peekn_char_line (ctx : Lexer) (i : Nat) : (peekn_char ctx i).2.line = ctx.line := by
  unfold peekn_char; simp only; split_ifs <;> rfl

@[simp] theorem peekn_char_col (ctx : Lexer) (i : Nat) : (peekn_char ctx i).2.col = ctx.col := by
  unfold peekn_char; simp only; split_ifs <;> rfl

@[simp] theorem peekn_char_tok_queue (ctx : Lexer) (i : Nat) :
    (peekn_char ctx i).2.tok_queue = ctx.tok_queue := by
  unfold peekn_char; simp only; split_ifs <;> rfl

@[simp] theorem peekn_char_text_buf (ctx : Lexer) (i : Nat) :
    (peekn_char ctx i).2.text_buf = ctx.text_buf := by
  unfold peekn_char; simp only; split_ifs <;> rfl

@[simp] theorem peekn_char_err_sink (ctx : Lexer) (i : Nat) :
    (peekn_char ctx i).2.err_sink = ctx.err_sink := by
  unfold peekn_char; simp only; split_ifs <;> rfl

theorem unread_of_lt {ctx : Lexer} (h : Good ctx)
    (hlt : ctx.input_buf.pos < ctx.input_buf.len) :
    unread ctx = to_char (ctx.input_buf.buf.getD ctx.input_buf.pos 0) ::
      unread { ctx with input_buf := { ctx.input_buf with pos := ctx.input_buf.pos + 1 } } := by
  have hb := h.buf_len
  have hl := h.len_le
  have hp : ctx.input_buf.pos < ctx.input_buf.buf.length := by omega
  unfold unread
  simp only
  rw [List.drop_eq_getElem_cons hp]
  obtain ⟨k, hk⟩ : ∃ k, ctx.input_buf.len - ctx.input_buf.pos = k + 1 :=
    ⟨ctx.input_buf.len - ctx.input_buf.pos - 1, by omega⟩
  have hk' : ctx.input_buf.len - (ctx.input_buf.pos + 1) = k := by omega
  rw [hk, hk', List.take_succ_cons, List.map_cons, List.cons_append,
    List.getD_eq_getElem _ _ hp]

theorem unread_of_ge {ctx : Lexer} (hge : ctx.input_buf.len ≤ ctx.input_buf.pos) :
    unread ctx = ctx.input_buf.f.rest.map byte_to_char := by
  unfold unread
  have : ctx.input_buf.len - ctx.input_buf.pos = 0 := by omega
  rw [this]; simp


theorem to_char_byte (b : Nat) : to_char (byte_to_char b) = byte_to_char b :=
  to_char_idem _

theorem map_to_char_bytes (l : List Nat) :
    (l.map byte_to_char).map to_char = l.map byte_to_char := by
  rw [List.map_map]
  exact List.map_congr_left (fun b _ => to_char_byte b)

theorem peekn_zero_of_lt {ctx : Lexer} (hlt : ctx.input_buf.pos < ctx.input_buf.len)
    (hU : ctx.input_buf.pos < U32) :
    peekn_char ctx 0 = (ctx.input_buf.buf.getD ctx.input_buf.pos 0, ctx) := by
  unfold peekn_char
  simp only [Nat.add_zero, Nat.mod_eq_of_lt hU, if_pos hlt]

theorem peekn_zero_of_eof {ctx : Lexer} (hge : ctx.input_buf.len ≤ ctx.input_buf.pos)
    (hU : ctx.input_buf.pos < U32) (he : ctx.input_buf.eof = true) :
    peekn_char ctx 0 = (EOF_CHAR, ctx) := by
  unfold peekn_char
  simp only [Nat.add_zero, Nat.mod_eq_of_lt hU, if_neg (Nat.not_lt.mpr hge), he, true_or, if_true]

/-- The state after the refill that `peekn_char(ctx, 0)` performs. -/
theorem peekn_zero_refill {ctx : Lexer} (hge : ctx.input_buf.len ≤ ctx.input_buf.pos)
    (hU : ctx.input_buf.pos < U32) (he : ctx.input_buf.eof = false) :
    peekn_char ctx 0 =
      (if ctx.input_buf.f.rest = [] then EOF_CHAR
       else ((ctx.input_buf.f.rest.take BUF_LEN).map byte_to_char).getD 0 0,
       { ctx with input_buf :=
          { pos := 0
            len := (ctx.input_buf.f.rest.take BUF_LEN).length
            eof := decide (ctx.input_buf.f.rest.length < BUF_LEN)
            f := { rest := ctx.input_buf.f.rest.drop BUF_LEN,
                   eof_ind := ctx.input_buf.f.eof_ind ||
                     decide (ctx.input_buf.f.rest.length < BUF_LEN) }
            buf := (ctx.input_buf.f.rest.take BUF_LEN).map byte_to_char ++
                ctx.input_buf.buf.drop (ctx.input_buf.f.rest.take BUF_LEN).length } }) := by
  unfold peekn_char
  simp only [Nat.add_zero, Nat.mod_eq_of_lt hU, if_neg (Nat.not_lt.mpr hge), he, Nat.lt_irrefl,
    false_and, or_self, if_false, Nat.sub_zero, fread, feof, buf_write, List.take_zero,
    List.nil_append, Nat.zero_add, List.length_map, Bool.false_eq_true]
  generalize ctx.input_buf.f.rest = rest
  rcases rest with _ | ⟨a, rest⟩
  · simp [BUF_LEN]
  · by_cases hfull : (a :: rest).length < BUF_LEN
    · have : ((a :: rest).take BUF_LEN).length ≠ BUF_LEN := by
        rw [List.length_take]; omega
      have h1 : rest.length < 1023 := by
        simp only [List.length_cons, BUF_LEN] at hfull; omega
      have h2 : rest.length + 1 < 1024 := by omega
      simp [this, hfull, BUF_LEN, U32, h1, h2]
    · have : ((a :: rest).take BUF_LEN).length = BUF_LEN := by
        rw [List.length_take]; omega
      have h1 : ¬ rest.length < 1023 := by
        simp only [List.length_cons, BUF_LEN] at hfull; omega
      have h2 : ¬ rest.length + 1 < 1024 := by omega
      simp [this, hfull, BUF_LEN, U32, h1, h2]

theorem good_pos_lt_U32 {ctx : Lexer} (h : Good ctx) : ctx.input_buf.pos < U32 := by
  have h1 := h.pos_le
  have h2 := h.len_le
  simp only [U32, BUF_LEN] at *
  omega

/-- A peek at offset 0 in a consistent state returns the first unread character
(or the sentinel), and leaves a consistent state with the same unread
characters in which a further peek needs no stream read. -/
theorem peekn_zero_good {ctx : Lexer} (h : Good ctx) :
    to_char (peekn_char ctx 0).1 = (unread ctx).headD EOF_CHAR ∧
    Good (peekn_char ctx 0).2 ∧ Peeked (peekn_char ctx 0).2 ∧
    unread (peekn_char ctx 0).2 = unread ctx := by
  have hU := good_pos_lt_U32 h
  by_cases hlt : ctx.input_buf.pos < ctx.input_buf.len
  · rw [peekn_zero_of_lt hlt hU]
    refine ⟨?_, h, Or.inl hlt, rfl⟩
    rw [unread_of_lt h hlt]; rfl
  · have hge : ctx.input_buf.len ≤ ctx.input_buf.pos := Nat.not_lt.mp hlt
    by_cases he : ctx.input_buf.eof = true
    · rw [peekn_zero_of_eof hge hU he]
      refine ⟨?_, h, Or.inr he, rfl⟩
      rw [unread_of_ge hge, h.eof_rest he]; rfl
    · have he' : ctx.input_buf.eof = false := by simpa using he
      have hbl := h.buf_len
      rw [unread_of_ge hge, peekn_zero_refill hge hU he']
      generalize ctx.input_buf.f.rest = rest
      refine ⟨?_, ⟨?_, ?_, ?_, ?_⟩, ?_, ?_⟩
      · rcases rest with _ | ⟨a, rest⟩
        · simp [to_char_eof]
        · simp [BUF_LEN, to_char_byte]
      · simp
      · simp [List.length_take]
      · simp only [List.length_append, List.length_map, List.length_drop, List.length_take, hbl]
        omega
      · simp only [decide_eq_true_eq]
        intro hlt'
        exact List.drop_eq_nil_of_le (Nat.le_of_lt hlt')
      · unfold Peeked
        simp only [List.length_take, decide_eq_true_eq]
        simp only [BUF_LEN]
        omega
      · unfold unread
        simp only [List.drop_zero, Nat.sub_zero]
        rw [List.take_left' (by simp), map_to_char_bytes, ← List.map_append,
          List.take_append_drop]


theorem good_congr {ctx ctx' : Lexer} (he : ctx'.input_buf = ctx.input_buf) (h : Good ctx) :
    Good ctx' :=
  ⟨by rw [he]; exact h.pos_le, by rw [he]; exact h.len_le, by rw [he]; exact h.buf_len,
   by rw [he]; exact h.eof_rest⟩

theorem peeked_congr {ctx ctx' : Lexer} (he : ctx'.input_buf = ctx.input_buf) (h : Peeked ctx) :
    Peeked ctx' := by
  unfold Peeked at *; rw [he]; exact h

theorem unread_congr {ctx ctx' : Lexer} (he : ctx'.input_buf = ctx.input_buf) :
    unread ctx' = unread ctx := by
  unfold unread; rw [he]

@[simp] theorem add_text_buf_input_buf (ctx : Lexer) (c : Int) :
    (add_text_buf ctx c).input_buf = ctx.input_buf := rfl

@[simp] theorem add_text_buf_line (ctx : Lexer) (c : Int) : (add_text_buf ctx c).line = ctx.line :=
  rfl

@[simp] theorem add_text_buf_col (ctx : Lexer) (c : Int) : (add_text_buf ctx c).col = ctx.col :=
  rfl

@[simp] theorem add_text_buf_tok_queue (ctx : Lexer) (c : Int) :
    (add_text_buf ctx c).tok_queue = ctx.tok_queue := rfl

@[simp] theorem add_text_buf_err_sink (ctx : Lexer) (c : Int) :
    (add_text_buf ctx c).err_sink = ctx.err_sink := rfl

@[simp] theorem add_text_buf_text_buf (ctx : Lexer) (c : Int) :
    (add_text_buf ctx c).text_buf = ctx.text_buf ++ [c] := rfl

@[simp] theorem peek_char_fst (ctx : Lexer) : (peek_char ctx).1 = to_char (peekn_char ctx 0).1 := rfl

@[simp] theorem peek_char_snd (ctx : Lexer) : (peek_char ctx).2 = (peekn_char ctx 0).2 := rfl

@[simp] theorem next_char_text_buf (ctx : Lexer) : (next_char ctx).2.text_buf = ctx.text_buf := by
  unfold next_char nextn_char; simp only; split_ifs <;> simp

@[simp] theorem next_char_tok_queue (ctx : Lexer) :
    (next_char ctx).2.tok_queue = ctx.tok_queue := by
  unfold next_char nextn_char; simp only; split_ifs <;> simp

@[simp] theorem next_char_err_sink (ctx : Lexer) : (next_char ctx).2.err_sink = ctx.err_sink := by
  unfold next_char nextn_char; simp only; split_ifs <;> simp

theorem next_char_fst (ctx : Lexer) : (next_char ctx).1 = to_char (peekn_char ctx 0).1 := rfl

theorem next_char_input_buf (ctx : Lexer) :
    (next_char ctx).2.input_buf =
      { (peekn_char ctx 0).2.input_buf with
        pos := ((peekn_char ctx 0).2.input_buf.pos + 1) % U32 } := by
  unfold next_char nextn_char; simp only; split_ifs <;> rfl

theorem next_char_line_col (ctx : Lexer) :
    ((next_char ctx).2.line, (next_char ctx).2.col) =
      advance (ctx.line, ctx.col) [to_char (peekn_char ctx 0).1] := by
  unfold next_char nextn_char advance advance; simp only; split_ifs <;> simp

/-- In a consistent state a peek that needs no stream read changes nothing. -/
theorem peekn_zero_peeked {ctx : Lexer} (h : Good ctx) (hp : Peeked ctx) :
    (peekn_char ctx 0).2 = ctx := by
  have hU := good_pos_lt_U32 h
  by_cases hlt : ctx.input_buf.pos < ctx.input_buf.len
  · rw [peekn_zero_of_lt hlt hU]
  · rcases hp with hp | hp
    · exact absurd hp hlt
    · rw [peekn_zero_of_eof (Nat.not_lt.mp hlt) hU hp]

/-- In a consistent state with no unread character, the state after a peek has
the end-of-stream flag set and nothing buffered past the cursor. -/
theorem peeked_nil {ctx : Lexer} (h : Good ctx) (hp : Peeked ctx) (hu : unread ctx = []) :
    ctx.input_buf.eof = true ∧ ctx.input_buf.len = ctx.input_buf.pos := by
  by_cases hlt : ctx.input_buf.pos < ctx.input_buf.len
  · rw [unread_of_lt h hlt] at hu; exact absurd hu (List.cons_ne_nil _ _)
  · rcases hp with hp | hp
    · exact absurd hp hlt
    · exact ⟨hp, by have := h.pos_le; omega⟩

theorem peeked_cons {ctx : Lexer} (h : Good ctx) (hp : Peeked ctx) {c : Int} {R : List Int}
    (hu : unread ctx = c :: R) : ctx.input_buf.pos < ctx.input_buf.len := by
  by_contra hlt
  rcases hp with hp | hp
  · exact hlt hp
  · rw [unread_of_ge (Nat.not_lt.mp hlt), h.eof_rest hp] at hu
    exact absurd hu (by simp)

/-- Consuming a character in a consistent state: `next_char` returns the first
unread character and leaves the rest unread. -/
theorem next_char_good {ctx : Lexer} (h : Good ctx) {c : Int} {R : List Int}
    (hu : unread ctx = c :: R) :
    (next_char ctx).1 = c ∧ Good (next_char ctx).2 ∧ unread (next_char ctx).2 = R ∧
    ((next_char ctx).2.line, (next_char ctx).2.col) = advance (ctx.line, ctx.col) [c] := by
  obtain ⟨h1, h2, h3, h4⟩ := peekn_zero_good h
  rw [hu] at h1 h4
  have hlt := peeked_cons h2 h3 h4
  have hc : to_char (peekn_char ctx 0).1 = c := by simpa using h1
  have hlen := h2.len_le
  have hmod : ((peekn_char ctx 0).2.input_buf.pos + 1) % U32 =
      (peekn_char ctx 0).2.input_buf.pos + 1 := by
    apply Nat.mod_eq_of_lt
    simp only [U32, BUF_LEN] at *
    omega
  have hun := unread_of_lt h2 hlt
  rw [h4] at hun
  injection hun with hun1 hun2
  refine ⟨by rw [next_char_fst, hc], ?_, ?_, by rw [next_char_line_col, hc]⟩
  · refine ⟨?_, ?_, ?_, ?_⟩
    · rw [next_char_input_buf, hmod]; exact hlt
    · rw [next_char_input_buf]; exact h2.len_le
    · rw [next_char_input_buf]; exact h2.buf_len
    · rw [next_char_input_buf]; exact h2.eof_rest
  · rw [hun2]
    apply unread_congr
    rw [next_char_input_buf, hmod]


/-! ## The recognizers on a consistent buffer -/


theorem advance_cons (lc : Nat × Nat) (c : Int) (cs : List Int) :
    advance lc (c :: cs) = advance (advance lc [c]) cs := by
  simp [advance]

theorem advance_append (lc : Nat × Nat) (u v : List Int) :
    advance lc (u ++ v) = advance (advance lc u) v := by
  induction u generalizing lc with
  | nil => simp [advance]
  | cons c u ih => simp only [List.cons_append, advance]; exact ih _

/-- The loop of `read_while` on a consistent state: it consumes exactly the
longest prefix `w` of non-negative characters satisfying `p`, appends it to the
arena when `add` is set, and stops at the first other character or the end. -/
theorem read_while_loop_good (p : Int → Bool) (add : Bool) :
    ∀ (w : List Int) (fuel : Nat) (ctx : Lexer) (R : List Int), Good ctx →
      unread ctx = w ++ R → (∀ c ∈ w, 0 ≤ c ∧ p c = true) →
      (R.headD EOF_CHAR < 0 ∨ p (R.headD EOF_CHAR) = false) → w.length < fuel →
      ∃ ctx', read_while_loop p add fuel ctx = some ctx' ∧ Good ctx' ∧ Peeked ctx' ∧
        unread ctx' = R ∧
        ctx'.text_buf = ctx.text_buf ++ (if add = true then w else []) ∧
        (ctx'.line, ctx'.col) = advance (ctx.line, ctx.col) w ∧
        ctx'.tok_queue = ctx.tok_queue ∧ ctx'.err_sink = ctx.err_sink := by
  intro w
  induction w with
  | nil =>
    intro fuel ctx R hg hu _ hstop hfuel
    obtain ⟨f, rfl⟩ : ∃ f, fuel = f + 1 := ⟨fuel - 1, by simp at hfuel; omega⟩
    obtain ⟨h1, h2, h3, h4⟩ := peekn_zero_good hg
    simp only [List.nil_append] at hu
    rw [hu] at h1
    refine ⟨(peekn_char ctx 0).2, ?_, h2, h3, by rw [h4, hu], by simp, by simp [advance],
      by simp, by simp⟩
    simp only [read_while_loop, peek_char_fst, peek_char_snd, h1]
    rw [if_pos hstop]
  | cons c w ih =>
    intro fuel ctx R hg hu hw hstop hfuel
    obtain ⟨f, rfl⟩ : ∃ f, fuel = f + 1 := ⟨fuel - 1, by simp at hfuel; omega⟩
    obtain ⟨h1, h2, h3, h4⟩ := peekn_zero_good hg
    simp only [List.cons_append] at hu
    rw [hu] at h1 h4
    have h1' : to_char (peekn_char ctx 0).1 = c := by simpa using h1
    have hc := hw c (List.mem_cons_self _ _)
    have hcont : ¬ (c < 0 ∨ p c = false) := by
      rintro (h | h)
      · omega
      · rw [hc.2] at h; exact absurd h (by simp)
    -- the state in which `next_char` is called
    have hg1 : Good (if add = true then add_text_buf (peekn_char ctx 0).2 c
        else (peekn_char ctx 0).2) := by
      split_ifs
      · exact good_congr (by simp) h2
      · exact h2
    have hu1 : unread (if add = true then add_text_buf (peekn_char ctx 0).2 c
        else (peekn_char ctx 0).2) = c :: (w ++ R) := by
      split_ifs
      · rw [unread_congr (add_text_buf_input_buf _ _), h4]
      · exact h4
    obtain ⟨_, n2, n3, n4⟩ := next_char_good hg1 hu1
    obtain ⟨ctx', e1, e2, e3, e4, e5, e6, e7, e8⟩ :=
      ih f _ R n2 n3 (fun x hx => hw x (List.mem_cons_of_mem _ hx)) hstop
        (by simp at hfuel; omega)
    refine ⟨ctx', ?_, e2, e3, e4, ?_, ?_, ?_, ?_⟩
    · simp only [read_while_loop, peek_char_fst, peek_char_snd, h1']
      rw [if_neg hcont]
      exact e1
    · rw [e5, next_char_text_buf]
      split_ifs <;> simp
    · rw [e6, n4, advance_cons (ctx.line, ctx.col) c w]
      congr 1
      split_ifs <;> simp
    · rw [e7, next_char_tok_queue]; split_ifs <;> simp
    · rw [e8, next_char_err_sink]; split_ifs <;> simp


theorem read_while_good (p : Int → Bool) (add : Bool)
    (w : List Int) (fuel : Nat) (ctx : Lexer) (R : List Int) (hg : Good ctx)
    (hu : unread ctx = w ++ R) (hw : ∀ c ∈ w, 0 ≤ c ∧ p c = true)
    (hstop : R.headD EOF_CHAR < 0 ∨ p (R.headD EOF_CHAR) = false) (hfuel : w.length < fuel) :
    ∃ ctx', read_while fuel ctx p add = some ctx' ∧ Good ctx' ∧ Peeked ctx' ∧
      unread ctx' = R ∧
      ctx'.text_buf = ctx.text_buf ++ (if add = true then w ++ [0] else []) ∧
      (ctx'.line, ctx'.col) = advance (ctx.line, ctx.col) w ∧
      ctx'.tok_queue = ctx.tok_queue ∧ ctx'.err_sink = ctx.err_sink := by
  obtain ⟨c1, e1, e2, e3, e4, e5, e6, e7, e8⟩ :=
    read_while_loop_good p add w fuel ctx R hg hu hw hstop hfuel
  unfold read_while
  rw [e1]
  cases add with
  | false => exact ⟨c1, by simp, e2, e3, e4, by simpa using e5, e6, e7, e8⟩
  | true =>
    refine ⟨add_text_buf c1 0, by simp, good_congr (by simp) e2, peeked_congr (by simp) e3,
      by rw [unread_congr (add_text_buf_input_buf _ _), e4], ?_, by simpa using e6,
      by simpa using e7, by simpa using e8⟩
    simp only [add_text_buf_text_buf, e5, if_true, List.append_assoc]

/-- The loop of `read_end` on a consistent state whose unread characters start
with `k` newlines followed by something else: all `k` are consumed. -/
theorem read_end_loop_good :
    ∀ (k : Nat) (fuel : Nat) (tok : Token) (ctx : Lexer) (R : List Int), Good ctx →
      unread ctx = List.replicate k 10 ++ R → R.headD EOF_CHAR ≠ 10 → k < fuel →
      ∃ ctx', read_end_loop fuel tok ctx = some (if k = 0 then tok else END_TOK, ctx') ∧
        Good ctx' ∧ Peeked ctx' ∧ unread ctx' = R ∧ ctx'.text_buf = ctx.text_buf ∧
        (ctx'.line, ctx'.col) = advance (ctx.line, ctx.col) (List.replicate k 10) ∧
        ctx'.tok_queue = ctx.tok_queue ∧ ctx'.err_sink = ctx.err_sink := by
  intro k
  induction k with
  | zero =>
    intro fuel tok ctx R hg hu hstop hfuel
    obtain ⟨f, rfl⟩ : ∃ f, fuel = f + 1 := ⟨fuel - 1, by omega⟩
    obtain ⟨h1, h2, h3, h4⟩ := peekn_zero_good hg
    simp only [List.replicate_zero, List.nil_append] at hu
    rw [hu] at h1
    refine ⟨(peekn_char ctx 0).2, ?_, h2, h3, by rw [h4, hu], by simp, by simp [advance],
      by simp, by simp⟩
    simp only [read_end_loop, peek_char_fst, peek_char_snd, h1]
    rw [if_neg hstop]; rfl
  | succ k ih =>
    intro fuel tok ctx R hg hu hstop hfuel
    obtain ⟨f, rfl⟩ : ∃ f, fuel = f + 1 := ⟨fuel - 1, by omega⟩
    obtain ⟨h1, h2, h3, h4⟩ := peekn_zero_good hg
    simp only [List.replicate_succ, List.cons_append] at hu
    rw [hu] at h1 h4
    have h1' : to_char (peekn_char ctx 0).1 = 10 := by simpa using h1
    have hs := peekn_zero_peeked h2 h3
    have h1s : to_char (peekn_char (peekn_char ctx 0).2 0).1 = 10 := by
      have := (peekn_zero_good h2).1
      rw [h4] at this
      simpa using this
    obtain ⟨_, n2, n3, n4⟩ := next_char_good h2 h4
    obtain ⟨ctx', e1, e2, e3, e4, e5, e6, e7, e8⟩ := ih f END_TOK _ R n2 n3 hstop (by omega)
    refine ⟨ctx', ?_, e2, e3, e4, ?_, ?_, ?_, ?_⟩
    · simp only [read_end_loop, peek_char_fst, peek_char_snd, h1', h1s, hs, if_true, ne_eq,
        not_true_eq_false, if_false]
      rw [e1]
      simp
    · rw [e5, next_char_text_buf]; simp
    · rw [e6, n4, List.replicate_succ, advance_cons (ctx.line, ctx.col) 10]; simp
    · rw [e7, next_char_tok_queue]; simp
    · rw [e8, next_char_err_sink]; simp


theorem good_init (input : List Nat) : Good (lexer_init input) :=
  ⟨Nat.le_refl _, Nat.zero_le _, by simp [lexer_init, init_input_buf], by
    intro h; simp [lexer_init, init_input_buf] at h⟩

theorem unread_init (input : List Nat) : unread (lexer_init input) = input.map byte_to_char := by
  simp [unread, lexer_init, init_input_buf]

theorem queue_init (input : List Nat) : is_empty_token_queue (lexer_init input) = true := by
  simp [is_empty_token_queue, lexer_init]

theorem attempt_char_good {c0 : Lexer} (hg : Good c0) (hp : Peeked c0) (ch : Int) (type : Token)
    (k : Lexer → Option (Token × Lexer)) :
    ATTEMPT_READ_CHAR c0 ch type k =
      if (unread c0).headD EOF_CHAR = ch then some (type, (next_char c0).2) else k c0 := by
  unfold ATTEMPT_READ_CHAR
  simp only [peek_char_fst, peek_char_snd, peekn_zero_peeked hg hp, (peekn_zero_good hg).1]

/-- With an empty queue, `lexer_get_token` is the dispatch on the first unread
character of the state that skipping blanks leaves. -/
theorem lexer_get_token_dispatch {fuel : Nat} {ctx c0 : Lexer}
    (hq : is_empty_token_queue ctx = true)
    (hw : read_while fuel ctx isblank false = some c0) (hg : Good c0) (hp : Peeked c0) :
    lexer_get_token fuel ctx =
      if (unread c0).headD EOF_CHAR = EOF_CHAR then some (EOF_TOK, (next_char c0).2)
      else if (unread c0).headD EOF_CHAR = 47 then
        some (TOK_TYPE TokenType.TOK_SLASH, (next_char c0).2)
      else if (unread c0).headD EOF_CHAR = 42 then
        some (TOK_TYPE TokenType.TOK_STAR, (next_char c0).2)
      else if (unread c0).headD EOF_CHAR = 46 then
        some (TOK_TYPE TokenType.TOK_DOT, (next_char c0).2)
      else
        ATTEMPT_READ (read_end fuel c0) fun c5 =>
        ATTEMPT_READ (read_symbol fuel c5) fun c6 =>
        ATTEMPT_READ (read_digit fuel c6) fun c7 =>
        ATTEMPT_READ (read_block fuel c7) fun c8 =>
        some (ERR_TOK, PARSEERROR (peek_char c8).2 (ErrMsg.cannot_handle (peek_char c8).1)) := by
  unfold lexer_get_token
  rw [hq, hw]
  simp only [Bool.true_eq_false, if_false, attempt_char_good hg hp]

/-- Skipping blanks at the start of a call, on a consistent state whose unread
characters are `w ++ R` with `w` blanks and `R` not starting with a blank. -/
theorem skip_blanks_good (w : List Int) (fuel : Nat) (ctx : Lexer) (R : List Int)
    (hg : Good ctx) (hu : unread ctx = w ++ R) (hw : ∀ c ∈ w, c = 32 ∨ c = 9)
    (hstop : isblank (R.headD EOF_CHAR) = false) (hfuel : w.length < fuel) :
    ∃ c0, read_while fuel ctx isblank false = some c0 ∧ Good c0 ∧ Peeked c0 ∧
      unread c0 = R ∧ c0.text_buf = ctx.text_buf ∧
      (c0.line, c0.col) = advance (ctx.line, ctx.col) w ∧
      c0.tok_queue = ctx.tok_queue ∧ c0.err_sink = ctx.err_sink := by
  obtain ⟨c0, e1, e2, e3, e4, e5, e6, e7, e8⟩ :=
    read_while_good isblank false w fuel ctx R hg hu
      (fun c hc => by
        rcases hw c hc with h | h <;> subst h <;> decide)
      (Or.inr hstop) hfuel
  exact ⟨c0, e1, e2, e3, e4, by simpa using e5, e6, e7, e8⟩

/-- The call that finds nothing unread returns EndOfInput. -/
theorem lexer_get_token_at_end {fuel : Nat} {ctx : Lexer} (hfuel : 0 < fuel)
    (hq : is_empty_token_queue ctx = true) (hg : Good ctx) (hu : unread ctx = []) :
    ∃ ctx', lexer_get_token fuel ctx = some (EOF_TOK, ctx') := by
  obtain ⟨c0, e1, e2, e3, e4, -⟩ :=
    skip_blanks_good [] fuel ctx [] hg (by simpa using hu) (by simp) (by decide) (by simpa)
  refine ⟨(next_char c0).2, ?_⟩
  rw [lexer_get_token_dispatch hq e1 e2 e3, e4]
  simp


/-- Not at a newline, `read_end` does not apply and changes nothing. -/
theorem read_end_null {fuel : Nat} {c0 : Lexer} (hfuel : 0 < fuel) (hg : Good c0)
    (hp : Peeked c0) (hc : (unread c0).headD EOF_CHAR ≠ 10) :
    read_end fuel c0 = some (NULL_TOK, c0) := by
  obtain ⟨f, rfl⟩ : ∃ f, fuel = f + 1 := ⟨fuel - 1, by omega⟩
  simp only [read_end, read_end_loop, peek_char_fst, peek_char_snd, (peekn_zero_good hg).1,
    peekn_zero_peeked hg hp]
  rw [if_neg hc]

/-- Not at a letter, `read_symbol` does not apply and changes nothing. -/
theorem read_symbol_null {fuel : Nat} {c0 : Lexer} (hg : Good c0)
    (hp : Peeked c0) (hc : isalpha ((unread c0).headD EOF_CHAR) = false) :
    read_symbol fuel c0 = some (NULL_TOK, c0) := by
  simp only [read_symbol, peek_char_fst, peek_char_snd, (peekn_zero_good hg).1,
    peekn_zero_peeked hg hp]
  rw [if_pos hc]

/-- Not at a digit, `read_digit` does not apply and changes nothing. -/
theorem read_digit_null {fuel : Nat} {c0 : Lexer} (hg : Good c0)
    (hp : Peeked c0) (hc : isdigit ((unread c0).headD EOF_CHAR) = false) :
    read_digit fuel c0 = some (NULL_TOK, c0) := by
  simp only [read_digit, peek_char_fst, peek_char_snd, (peekn_zero_good hg).1,
    peekn_zero_peeked hg hp]
  rw [if_pos hc]

theorem isalnum_nonneg {c : Int} (h : isalnum c = true) : 0 ≤ c := by
  simp only [isalnum, isalpha, isdigit, Bool.or_eq_true, decide_eq_true_eq] at h
  omega

theorem isdigit_nonneg {c : Int} (h : isdigit c = true) : 0 ≤ c := by
  simp only [isdigit, decide_eq_true_eq] at h
  omega

/-- At a letter, `read_symbol` stores the longest alphanumeric run and its NUL
in the arena and returns a String token at the former end of the arena. -/
theorem read_symbol_good {fuel : Nat} {c0 : Lexer} (a : Int) (t R : List Int) (hg : Good c0)
    (hu : unread c0 = (a :: t) ++ R) (ha : isalpha a = true)
    (ht : ∀ c ∈ t, isalnum c = true)
    (hstop : R.headD EOF_CHAR < 0 ∨ isalnum (R.headD EOF_CHAR) = false)
    (hfuel : (a :: t).length < fuel) :
    ∃ c1, read_symbol fuel c0 =
        some ({ type := TokenType.TOK_STR, i := 0, sp := c0.text_buf.length }, c1) ∧
      Good c1 ∧ Peeked c1 ∧ unread c1 = R ∧
      c1.text_buf = c0.text_buf ++ ((a :: t) ++ [0]) ∧
      (c1.line, c1.col) = advance (c0.line, c0.col) (a :: t) ∧
      c1.tok_queue = c0.tok_queue ∧ c1.err_sink = c0.err_sink := by
  obtain ⟨h1, h2, h3, h4⟩ := peekn_zero_good hg
  rw [hu] at h1
  have h1' : to_char (peekn_char c0 0).1 = a := by simpa using h1
  have hall : ∀ c ∈ a :: t, 0 ≤ c ∧ isalnum c = true := by
    intro c hc
    rcases List.mem_cons.mp hc with rfl | hc
    · have : isalnum c = true := by simp [isalnum, ha]
      exact ⟨isalnum_nonneg this, this⟩
    · exact ⟨isalnum_nonneg (ht c hc), ht c hc⟩
  obtain ⟨c1, e1, e2, e3, e4, e5, e6, e7, e8⟩ :=
    read_while_good isalnum true (a :: t) fuel _ R h2 (by rw [h4, hu]) hall hstop hfuel
  refine ⟨c1, ?_, e2, e3, e4, by simpa using e5, by simpa using e6, by simpa using e7,
    by simpa using e8⟩
  simp only [read_symbol, peek_char_fst, peek_char_snd, h1', ha, e1, get_text_buf_len,
    peekn_char_text_buf]
  simp

/-- At a digit, `read_digit` consumes the longest run of digits, returns the
Integer token for `atoi` of that run, and restores the arena. -/
theorem read_digit_good {fuel : Nat} {c0 : Lexer} (a : Int) (t R : List Int) (hg : Good c0)
    (hu : unread c0 = (a :: t) ++ R) (hd : ∀ c ∈ a :: t, isdigit c = true)
    (hstop : R.headD EOF_CHAR < 0 ∨ isdigit (R.headD EOF_CHAR) = false)
    (hfuel : (a :: t).length < fuel) :
    ∃ c1, read_digit fuel c0 =
        some ({ type := TokenType.TOK_INT, i := atoi ((a :: t) ++ [0]), sp := 0 }, c1) ∧
      Good c1 ∧ Peeked c1 ∧ unread c1 = R ∧
      c1.text_buf = c0.text_buf ∧
      (c1.line, c1.col) = advance (c0.line, c0.col) (a :: t) ∧
      c1.tok_queue = c0.tok_queue ∧ c1.err_sink = c0.err_sink := by
  obtain ⟨h1, h2, h3, h4⟩ := peekn_zero_good hg
  rw [hu] at h1
  have h1' : to_char (peekn_char c0 0).1 = a := by simpa using h1
  have ha : isdigit a = true := hd a (List.mem_cons_self _ _)
  obtain ⟨c1, e1, e2, e3, e4, e5, e6, e7, e8⟩ :=
    read_while_good isdigit true (a :: t) fuel _ R h2 (by rw [h4, hu])
      (fun c hc => ⟨isdigit_nonneg (hd c hc), hd c hc⟩) hstop hfuel
  simp only [peekn_char_text_buf, if_true] at e5
  have hib : (set_text_buf_len c1 c0.text_buf.length).input_buf = c1.input_buf := rfl
  refine ⟨set_text_buf_len c1 c0.text_buf.length, ?_, good_congr hib e2, peeked_congr hib e3,
    by rw [unread_congr hib, e4], ?_, by simpa [set_text_buf_len] using e6,
    by simpa [set_text_buf_len] using e7, by simpa [set_text_buf_len] using e8⟩
  · simp only [read_digit, peek_char_fst, peek_char_snd, h1', ha, e1, get_text_buf_len,
      peekn_char_text_buf, get_text_buf_at, vector_get]
    simp [e5]
  · simp [set_text_buf_len, vectorChar_resize, e5]



theorem byte_to_char_small {b : Nat} (h : b < 128) : byte_to_char b = (b : Int) := by
  unfold byte_to_char to_char; omega

theorem map_byte_to_char_small {l : List Nat} (h : ∀ b ∈ l, b < 128) :
    l.map byte_to_char = l.map Int.ofNat :=
  List.map_congr_left (fun b hb => byte_to_char_small (h b hb))

theorem attempt_read_null {c0 : Lexer} (k : Lexer → Option (Token × Lexer)) :
    ATTEMPT_READ (some (NULL_TOK, c0)) k = k c0 := by
  simp [ATTEMPT_READ, NULL_TOK, TOK_TYPE]

theorem attempt_read_some {t : Token × Lexer} (k : Lexer → Option (Token × Lexer))
    (h : t.1.type ≠ TokenType.TOK_NULL) : ATTEMPT_READ (some t) k = some t := by
  simp [ATTEMPT_READ, h]

theorem is_identifier_cases {s : List Nat} (h : is_identifier s = true) :
    ∃ a t, s = a :: t ∧ isalpha (a : Int) = true ∧ ∀ b ∈ t, isalnum ((b : Nat) : Int) = true := by
  cases s with
  | nil => simp [is_identifier] at h
  | cons a t =>
    simp only [is_identifier, Bool.and_eq_true, List.all_eq_true] at h
    exact ⟨a, t, rfl, h.1, h.2⟩

theorem isalnum_byte_small {b : Nat} (h : isalnum (b : Int) = true) : b < 128 := by
  simp only [isalnum, isalpha, isdigit, Bool.or_eq_true, decide_eq_true_eq] at h
  omega


theorem digits_value_eq (cs : List Nat) (hcs : ∀ b ∈ cs, 48 ≤ b) :
    ∀ acc : Nat, digits_value (acc : Int) (cs.map Int.ofNat) =
      ((acc * 10 ^ cs.length + decimal_value cs : Nat) : Int) := by
  induction cs with
  | nil => intro acc; simp [digits_value, decimal_value]
  | cons c cs ih =>
    intro acc
    have hc : 48 ≤ c := hcs c (List.mem_cons_self _ _)
    have h := ih (fun b hb => hcs b (List.mem_cons_of_mem _ hb)) (10 * acc + (c - 48))
    simp only [List.map_cons, digits_value]
    have e : (10 : Int) * (acc : Int) + (Int.ofNat c - 48) = ((10 * acc + (c - 48) : Nat) : Int) := by
      simp only [Int.ofNat_eq_coe]; omega
    rw [e, h]
    congr 1
    simp only [decimal_value, List.reverse_cons, List.map_append, List.map_cons, List.map_nil,
      Nat.ofDigits_append, Nat.ofDigits_singleton, List.length_map, List.length_reverse,
      List.length_cons]
    ring

theorem takeWhile_all {α : Type} (p : α → Bool) (l r : List α) (hl : ∀ x ∈ l, p x = true)
    (hr : ∀ x, r.head? = some x → p x = false) : (l ++ r).takeWhile p = l := by
  induction l with
  | nil =>
    cases r with
    | nil => rfl
    | cons x r => simp [List.takeWhile, hr x rfl]
  | cons a l ih =>
    simp only [List.cons_append, List.takeWhile_cons, hl a (List.mem_cons_self _ _), if_true]
    rw [ih (fun x hx => hl x (List.mem_cons_of_mem _ hx))]

/-- Library `atoi` on a NUL-terminated run of digits whose value fits `int` is
the decimal value of the run. -/
theorem atoi_digits (d : List Nat) (hd : is_digit_run d = true)
    (hval : decimal_value d ≤ 2147483647) :
    atoi (d.map Int.ofNat ++ [0]) = (decimal_value d : Int) := by
  simp only [is_digit_run, Bool.and_eq_true, decide_eq_true_eq, List.all_eq_true] at hd
  obtain ⟨hne, hall⟩ := hd
  obtain ⟨a, t, rfl⟩ : ∃ a t, d = a :: t := by
    cases d with
    | nil => exact absurd rfl hne
    | cons a t => exact ⟨a, t, rfl⟩
  have hcstr : c_str ((a :: t).map Int.ofNat ++ [0]) = (a :: t).map Int.ofNat := by
    unfold c_str
    apply takeWhile_all
    · intro x hx
      obtain ⟨b, hb, rfl⟩ := List.mem_map.mp hx
      have := hall b hb
      simp only [Int.ofNat_eq_coe, ne_eq, decide_eq_true_eq]
      omega
    · intro x hx
      simp only [List.head?_cons, Option.some.injEq] at hx
      subst hx; decide
  have ha := hall a (List.mem_cons_self _ _)
  have hsp : isspace (Int.ofNat a) = false := by
    simp only [isspace, Int.ofNat_eq_coe, decide_eq_false_iff_not]; omega
  have htw : ((a :: t).map Int.ofNat).takeWhile isdigit = (a :: t).map Int.ofNat := by
    have := takeWhile_all isdigit ((a :: t).map Int.ofNat) [] (by
      intro x hx
      obtain ⟨b, hb, rfl⟩ := List.mem_map.mp hx
      have := hall b hb
      simp only [isdigit, Int.ofNat_eq_coe, decide_eq_true_eq]
      omega) (by simp)
    simpa using this
  have h45 : ¬ (Int.ofNat a = 45) := by simp only [Int.ofNat_eq_coe]; omega
  have h43 : ¬ (Int.ofNat a = 43) := by simp only [Int.ofNat_eq_coe]; omega
  have hdv := digits_value_eq (a :: t) (fun b hb => (hall b hb).1) 0
  simp only [Nat.zero_mul, Nat.zero_add, Nat.cast_zero] at hdv
  unfold atoi
  simp only [hcstr]
  simp only [List.map_cons, List.dropWhile_cons, hsp, List.head?_cons, Option.some.injEq, h45,
    h43, or_self, if_false, decide_False, Bool.false_eq_true]
  rw [← List.map_cons, htw, hdv]
  unfold to_int
  omega


/-! ## After the end of the stream has been seen -/


theorem unread_of_eof {ctx : Lexer} (hg : Good ctx) (he : ctx.input_buf.eof = true) :
    unread ctx = ((ctx.input_buf.buf.drop ctx.input_buf.pos).take
      (ctx.input_buf.len - ctx.input_buf.pos)).map to_char := by
  unfold unread
  rw [hg.eof_rest he]; simp

theorem unread_length_of_eof {ctx : Lexer} (hg : Good ctx) (he : ctx.input_buf.eof = true) :
    (unread ctx).length = ctx.input_buf.len - ctx.input_buf.pos := by
  rw [unread_of_eof hg he]
  have h1 := hg.buf_len
  have h2 := hg.len_le
  have h3 := hg.pos_le
  simp only [List.length_map, List.length_take, List.length_drop]
  omega

/-- Once the end-of-stream flag is set, a peek at any offset changes nothing and
returns the unread character at that offset, or the sentinel past the end. -/
theorem peekn_static {ctx : Lexer} (hg : Good ctx) (he : ctx.input_buf.eof = true) (i : Nat)
    (hi : i < BUF_LEN) :
    (peekn_char ctx i).2 = ctx ∧ to_char (peekn_char ctx i).1 = (unread ctx).getD i EOF_CHAR := by
  have h1 := hg.buf_len
  have h2 := hg.len_le
  have h3 := hg.pos_le
  have hmod : (ctx.input_buf.pos + i) % U32 = ctx.input_buf.pos + i := by
    apply Nat.mod_eq_of_lt
    simp only [U32, BUF_LEN] at *
    omega
  by_cases hlt : ctx.input_buf.pos + i < ctx.input_buf.len
  · have hv : peekn_char ctx i = (ctx.input_buf.buf.getD (ctx.input_buf.pos + i) 0, ctx) := by
      unfold peekn_char
      simp only [hmod, if_pos hlt]
    rw [hv]
    refine ⟨rfl, ?_⟩
    rw [unread_of_eof hg he]
    have hil : i < ctx.input_buf.len - ctx.input_buf.pos := by omega
    have hib : ctx.input_buf.pos + i < ctx.input_buf.buf.length := by omega
    simp only [List.getD_eq_getElem?_getD, List.getElem?_map, List.getElem?_take, hil, if_true,
      List.getElem?_drop, List.getElem?_eq_getElem hib, Option.map_some', Option.getD_some]
  · have hv : peekn_char ctx i = (EOF_CHAR, ctx) := by
      unfold peekn_char
      simp only [hmod, if_neg hlt, he, true_or, if_true]
    rw [hv]
    refine ⟨rfl, ?_⟩
    rw [List.getD_eq_default _ _ (by rw [unread_length_of_eof hg he]; omega)]
    rfl


theorem to_uchar_sub_eq_zero {x y : Int} (hx : -128 ≤ x ∧ x ≤ 127) (hy : -128 ≤ y ∧ y ≤ 127) :
    to_uchar x - to_uchar y = 0 ↔ x = y := by
  unfold to_uchar; omega

theorem next_char_eof_flag (ctx : Lexer) :
    (next_char ctx).2.input_buf.eof = (peekn_char ctx 0).2.input_buf.eof := by
  rw [next_char_input_buf]

theorem peekn_eof_flag {ctx : Lexer} (he : ctx.input_buf.eof = true) (i : Nat) :
    (peekn_char ctx i).2.input_buf.eof = true := by
  unfold peekn_char
  simp only [he, true_or, if_true]
  split_ifs <;> exact he

/-- Consuming a character after the end of the stream has been seen. -/
theorem next_char_static {ctx : Lexer} (hg : Good ctx) (he : ctx.input_buf.eof = true) {c : Int}
    {R : List Int} (hu : unread ctx = c :: R) :
    (next_char ctx).1 = c ∧ Good (next_char ctx).2 ∧ (next_char ctx).2.input_buf.eof = true ∧
    unread (next_char ctx).2 = R ∧
    ((next_char ctx).2.line, (next_char ctx).2.col) = advance (ctx.line, ctx.col) [c] := by
  obtain ⟨h1, h2, h3, h4⟩ := next_char_good hg hu
  exact ⟨h1, h2, by rw [next_char_eof_flag]; exact peekn_eof_flag he 0, h3, h4⟩

@[simp] theorem skipn_char_text_buf (n : Nat) : ∀ ctx : Lexer,
    (skipn_char ctx n).text_buf = ctx.text_buf := by
  induction n with
  | zero => intro ctx; rfl
  | succ n ih => intro ctx; simp only [skipn_char, ih, next_char_text_buf]

@[simp] theorem skipn_char_tok_queue (n : Nat) : ∀ ctx : Lexer,
    (skipn_char ctx n).tok_queue = ctx.tok_queue := by
  induction n with
  | zero => intro ctx; rfl
  | succ n ih => intro ctx; simp only [skipn_char, ih, next_char_tok_queue]

@[simp] theorem skipn_char_err_sink (n : Nat) : ∀ ctx : Lexer,
    (skipn_char ctx n).err_sink = ctx.err_sink := by
  induction n with
  | zero => intro ctx; rfl
  | succ n ih => intro ctx; simp only [skipn_char, ih, next_char_err_sink]

/-- Skipping the characters of a list `w` that is unread. -/
theorem skipn_char_static (w : List Int) : ∀ (ctx : Lexer) (R : List Int), Good ctx →
    ctx.input_buf.eof = true → unread ctx = w ++ R →
    Good (skipn_char ctx w.length) ∧ (skipn_char ctx w.length).input_buf.eof = true ∧
    unread (skipn_char ctx w.length) = R ∧
    ((skipn_char ctx w.length).line, (skipn_char ctx w.length).col) =
      advance (ctx.line, ctx.col) w := by
  induction w with
  | nil => intro ctx R hg he hu; exact ⟨hg, he, by simpa using hu, rfl⟩
  | cons c w ih =>
    intro ctx R hg he hu
    obtain ⟨-, n2, n3, n4, n5⟩ := next_char_static hg he (by simpa using hu)
    obtain ⟨s1, s2, s3, s4⟩ := ih _ R n2 n3 n4
    refine ⟨s1, s2, s3, ?_⟩
    simp only [List.length_cons, skipn_char] at *
    rw [s4, n5, advance_cons (ctx.line, ctx.col) c w]

/-- Function `cmp_nextn` for a three-character string, once the end of the stream
has been seen: the state is unchanged and the result is `0` exactly when the
next three unread characters are those of the string. -/
theorem cmp_nextn_static {ctx : Lexer} (hg : Good ctx) (he : ctx.input_buf.eof = true)
    (a b c : Int) (ha : a ≠ 0 ∧ -128 ≤ a ∧ a ≤ 127) (hb : b ≠ 0 ∧ -128 ≤ b ∧ b ≤ 127)
    (hc : c ≠ 0 ∧ -128 ≤ c ∧ c ≤ 127) :
    (cmp_nextn ctx 3 [a, b, c]).2 = ctx ∧
    ((cmp_nextn ctx 3 [a, b, c]).1 = 0 ↔ starts3 (unread ctx) a b c) := by
  obtain ⟨p0, v0⟩ := peekn_static hg he 0 (by decide)
  obtain ⟨p1, v1⟩ := peekn_static hg he 1 (by decide)
  obtain ⟨p2, v2⟩ := peekn_static hg he 2 (by decide)
  obtain ⟨p3, v3⟩ := peekn_static hg he 3 (by decide)
  have r0 := to_char_range (peekn_char ctx 0).1
  have r1 := to_char_range (peekn_char ctx 1).1
  have r2 := to_char_range (peekn_char ctx 2).1
  unfold starts3
  rw [← v0, ← v1, ← v2]
  unfold cmp_nextn
  simp only [cmp_nextn_loop, ha.1, hb.1, hc.1, false_or, Nat.reduceLeDiff, Nat.zero_add,
    Nat.reduceAdd, OfNat.zero_ne_ofNat, OfNat.one_ne_ofNat, Nat.reduceEqDiff, if_false, if_true]
  by_cases e0 : to_char (peekn_char ctx 0).1 = a
  · simp only [e0, ne_eq, not_true_eq_false, if_false, p0, true_and]
    by_cases e1 : to_char (peekn_char ctx 1).1 = b
    · simp only [e1, ne_eq, not_true_eq_false, if_false, p1, true_and]
      by_cases e2 : to_char (peekn_char ctx 2).1 = c
      · simp only [e2, ne_eq, not_true_eq_false, if_false, p2, p3, true_and]
      · simp only [e2, ne_eq, not_false_eq_true, if_true, p2, true_and, iff_false]
        rw [to_uchar_sub_eq_zero r2 hc.2]; exact e2
    · simp only [e1, ne_eq, not_false_eq_true, if_true, p1, true_and, false_and, iff_false]
      rw [to_uchar_sub_eq_zero r1 hb.2]; exact e1
  · simp only [e0, ne_eq, not_false_eq_true, if_true, p0, true_and, false_and, iff_false]
    rw [to_uchar_sub_eq_zero r0 ha.2]; exact e0


theorem read_punct_static_eof {ctx : Lexer} (hg : Good ctx) (he : ctx.input_buf.eof = true)
    (type : TokenType) (s : List Int) (n : Nat)
    (hh : (unread ctx).headD EOF_CHAR = EOF_CHAR) :
    read_punct ctx type s n = (EOF_TOK, ctx) := by
  obtain ⟨p0, v0⟩ := peekn_static hg he 0 (by decide)
  have v0' : to_char (peekn_char ctx 0).1 = EOF_CHAR := by
    rw [(peekn_zero_good hg).1, hh]
  simp only [read_punct, peek_char_fst, peek_char_snd, v0', p0, if_true]

theorem read_punct_static_match {ctx : Lexer} (hg : Good ctx) (he : ctx.input_buf.eof = true)
    (type : TokenType) (a b c : Int) (ha : a ≠ 0 ∧ -128 ≤ a ∧ a ≤ 127)
    (hb : b ≠ 0 ∧ -128 ≤ b ∧ b ≤ 127) (hc : c ≠ 0 ∧ -128 ≤ c ∧ c ≤ 127)
    (hh : (unread ctx).headD EOF_CHAR ≠ EOF_CHAR) (hs : starts3 (unread ctx) a b c) :
    read_punct ctx type [a, b, c] 3 = ({ type := type, i := 0, sp := 0 }, skipn_char ctx 3) := by
  obtain ⟨p0, v0⟩ := peekn_static hg he 0 (by decide)
  have v0' : to_char (peekn_char ctx 0).1 = (unread ctx).headD EOF_CHAR := (peekn_zero_good hg).1
  obtain ⟨q, hq⟩ := cmp_nextn_static hg he a b c ha hb hc
  simp only [read_punct, peek_char_fst, peek_char_snd, v0', p0, if_neg hh, hq.mpr hs, q, if_true]

theorem read_punct_static_nomatch {ctx : Lexer} (hg : Good ctx) (he : ctx.input_buf.eof = true)
    (type : TokenType) (a b c : Int) (ha : a ≠ 0 ∧ -128 ≤ a ∧ a ≤ 127)
    (hb : b ≠ 0 ∧ -128 ≤ b ∧ b ≤ 127) (hc : c ≠ 0 ∧ -128 ≤ c ∧ c ≤ 127)
    (hh : (unread ctx).headD EOF_CHAR ≠ EOF_CHAR) (hs : ¬ starts3 (unread ctx) a b c) :
    read_punct ctx type [a, b, c] 3 = (NULL_TOK, ctx) := by
  obtain ⟨p0, v0⟩ := peekn_static hg he 0 (by decide)
  have v0' : to_char (peekn_char ctx 0).1 = (unread ctx).headD EOF_CHAR := (peekn_zero_good hg).1
  obtain ⟨q, hq⟩ := cmp_nextn_static hg he a b c ha hb hc
  have hne : ¬ (cmp_nextn ctx 3 [a, b, c]).1 = 0 := fun h => hs (hq.mp h)
  simp only [read_punct, peek_char_fst, peek_char_snd, v0', p0, if_neg hh, if_neg hne, q]

theorem char125 : (125 : Int) ≠ 0 ∧ -128 ≤ (125 : Int) ∧ (125 : Int) ≤ 127 := by decide

theorem char123 : (123 : Int) ≠ 0 ∧ -128 ≤ (123 : Int) ∧ (123 : Int) ≤ 127 := by decide

/-- The body loop of `read_block`, once the end of the stream has been seen,
over a stretch `body` of the unread input that holds no character `-1` and at no
position of which the close marker starts: the stretch is consumed and appended
to the arena, at the cost of one unit of fuel per character. -/
theorem read_block_loop_scan (o b : Token) :
    ∀ (body : List Int) (ctx : Lexer) (T : List Int) (f : Nat), Good ctx →
      ctx.input_buf.eof = true → unread ctx = body ++ T → (∀ c ∈ body, c ≠ EOF_CHAR) →
      (∀ k, k < body.length → ¬ starts3 ((body ++ T).drop k) 125 125 125) →
      ∃ ctx', read_block_loop o b (body.length + f) ctx = read_block_loop o b f ctx' ∧
        Good ctx' ∧ ctx'.input_buf.eof = true ∧ unread ctx' = T ∧
        ctx'.text_buf = ctx.text_buf ++ body ∧
        (ctx'.line, ctx'.col) = advance (ctx.line, ctx.col) body ∧
        ctx'.tok_queue = ctx.tok_queue ∧ ctx'.err_sink = ctx.err_sink := by
  intro body
  induction body with
  | nil =>
    intro ctx T f hg he hu _ _
    exact ⟨ctx, by simp, hg, he, by simpa using hu, by simp, rfl, rfl, rfl⟩
  | cons c body ih =>
    intro ctx T f hg he hu hne hns
    have hu' : unread ctx = c :: (body ++ T) := by simpa using hu
    have hh : (unread ctx).headD EOF_CHAR ≠ EOF_CHAR := by
      rw [hu']; exact hne c (List.mem_cons_self _ _)
    have hs0 : ¬ starts3 (unread ctx) 125 125 125 := by
      have := hns 0 (by simp)
      rwa [List.drop_zero, ← hu] at this
    have hrp := read_punct_static_nomatch hg he TokenType.TOK_BLK_CLS 125 125 125
      char125 char125 char125 hh hs0
    obtain ⟨n1, n2, n3, n4, n5⟩ := next_char_static hg he hu'
    have hg1 : Good (add_text_buf (next_char ctx).2 (next_char ctx).1) := good_congr (by simp) n2
    obtain ⟨ctx', e1, e2, e3, e4, e5, e6, e7, e8⟩ :=
      ih (add_text_buf (next_char ctx).2 (next_char ctx).1) T f hg1 (by simpa using n3)
        (by rw [unread_congr (add_text_buf_input_buf _ _), n4])
        (fun x hx => hne x (List.mem_cons_of_mem _ hx))
        (fun k hk => by
          have := hns (k + 1) (by simpa using hk)
          simpa using this)
    refine ⟨ctx', ?_, e2, e3, e4, ?_, ?_, ?_, ?_⟩
    · rw [← e1]
      have hf : (c :: body).length + f = (body.length + f) + 1 := by
        simp only [List.length_cons]; omega
      rw [hf]
      simp only [read_block_loop, read_block_close, block_close, hrp]
      simp [NULL_TOK, TOK_TYPE]
    · rw [e5]; simp [n1]
    · rw [e6]
      simp only [add_text_buf_line, add_text_buf_col]
      rw [n5, advance_cons (ctx.line, ctx.col) c body]
    · rw [e7]; simp
    · rw [e8]; simp


@[simp] theorem PARSEERROR_input_buf (ctx : Lexer) (m : ErrMsg) :
    (PARSEERROR ctx m).input_buf = ctx.input_buf := rfl

@[simp] theorem PARSEERROR_tok_queue (ctx : Lexer) (m : ErrMsg) :
    (PARSEERROR ctx m).tok_queue = ctx.tok_queue := rfl

@[simp] theorem PARSEERROR_text_buf (ctx : Lexer) (m : ErrMsg) :
    (PARSEERROR ctx m).text_buf = ctx.text_buf := rfl

@[simp] theorem PARSEERROR_line (ctx : Lexer) (m : ErrMsg) : (PARSEERROR ctx m).line = ctx.line :=
  rfl

@[simp] theorem PARSEERROR_col (ctx : Lexer) (m : ErrMsg) : (PARSEERROR ctx m).col = ctx.col :=
  rfl

/-- The body loop of `read_block` at the end of the input (or at a byte that
reads as the sentinel): the unclosed-block error. -/
theorem read_block_loop_unclosed (o b : Token) {ctx : Lexer} (f : Nat) (hg : Good ctx)
    (he : ctx.input_buf.eof = true) (hh : (unread ctx).headD EOF_CHAR = EOF_CHAR) :
    read_block_loop o b (f + 1) ctx = some (ERR_TOK, PARSEERROR ctx ErrMsg.unclosed_block) := by
  have hrp := read_punct_static_eof hg he TokenType.TOK_BLK_CLS block_close 3 hh
  simp only [read_block_loop, read_block_close, hrp]
  simp [EOF_TOK, TOK_TYPE]

/-- The body loop of `read_block` at the close marker. -/
theorem read_block_loop_closed (o b : Token) {ctx : Lexer} (f : Nat) (R : List Int)
    (hg : Good ctx) (he : ctx.input_buf.eof = true)
    (hu : unread ctx = 125 :: 125 :: 125 :: R) :
    read_block_loop o b (f + 1) ctx =
      some (read_block_finish o b { type := TokenType.TOK_BLK_CLS, i := 0, sp := 0 }
        (skipn_char ctx 3)) := by
  have hrp := read_punct_static_match hg he TokenType.TOK_BLK_CLS 125 125 125
    char125 char125 char125 (by rw [hu]; simp [EOF_CHAR]) (by rw [hu]; exact ⟨rfl, rfl, rfl⟩)
  simp only [read_block_loop, read_block_close, block_close, hrp]
  simp

/-- A call on a lexer that is done returns EndOfInput and leaves it done, the
cursor one further. -/
theorem lexer_get_token_done {fuel : Nat} {ctx : Lexer} (hfuel : 0 < fuel) (hd : Done ctx)
    (hU : ctx.input_buf.pos + 1 < U32) :
    ∃ ctx', lexer_get_token fuel ctx = some (EOF_TOK, ctx') ∧ Done ctx' ∧
      ctx'.input_buf.pos = ctx.input_buf.pos + 1 ∧ ctx'.text_buf = ctx.text_buf ∧
      ctx'.err_sink = ctx.err_sink := by
  obtain ⟨he, hge, hq⟩ := hd
  obtain ⟨f, rfl⟩ : ∃ f, fuel = f + 1 := ⟨fuel - 1, by omega⟩
  have hpk := peekn_zero_of_eof hge (by omega) he
  have hmod : (ctx.input_buf.pos + 1) % U32 = ctx.input_buf.pos + 1 := Nat.mod_eq_of_lt hU
  refine ⟨(next_char ctx).2, ?_, ⟨?_, ?_, ?_⟩, ?_, by simp, by simp⟩
  · unfold lexer_get_token
    rw [hq]
    simp only [Bool.true_eq_false, if_false, read_while, read_while_loop, peek_char_fst,
      peek_char_snd, hpk, to_char_eof]
    simp [EOF_CHAR, ATTEMPT_READ_CHAR, hpk, to_char]
  · rw [next_char_eof_flag, hpk]; exact he
  · rw [next_char_input_buf, hpk]; simp only [hmod]; omega
  · unfold is_empty_token_queue at *
    rw [next_char_tok_queue]; exact hq
  · rw [next_char_input_buf, hpk]; simp only [hmod]

/-- Calls on a lexer that is done keep returning EndOfInput, for as long as the
32-bit cursor does not wrap. -/
theorem lex_tokens_done {fuel : Nat} (hfuel : 0 < fuel) :
    ∀ (k : Nat) (ctx : Lexer), Done ctx → ctx.input_buf.pos + k < U32 →
      ∃ ctx', lex_tokens fuel k ctx = some (List.replicate k EOF_TOK, ctx') ∧
        ctx'.text_buf = ctx.text_buf ∧ ctx'.err_sink = ctx.err_sink := by
  intro k
  induction k with
  | zero => intro ctx _ _; exact ⟨ctx, rfl, rfl, rfl⟩
  | succ k ih =>
    intro ctx hd hU
    obtain ⟨c1, e1, e2, e3, e4, e5⟩ := lexer_get_token_done hfuel hd (by omega)
    obtain ⟨c2, r1, r2, r3⟩ := ih c1 e2 (by rw [e3]; omega)
    refine ⟨c2, ?_, by rw [r2, e4], by rw [r3, e5]⟩
    simp only [lex_tokens, e1, r1, List.replicate_succ]


theorem small_peek {ctx : Lexer} (hs : Small ctx) : (peekn_char ctx 0).2.input_buf.eof = true := by
  rcases hs with he | ⟨h1, h2, h3⟩
  · exact peekn_eof_flag he 0
  · by_cases he : ctx.input_buf.eof = true
    · exact peekn_eof_flag he 0
    · rw [peekn_zero_refill h1 h2 (by simpa using he)]
      simpa using h3

theorem read_while_loop_small (p : Int → Bool) (add : Bool) :
    ∀ (fuel : Nat) (ctx r : Lexer), Small ctx → read_while_loop p add fuel ctx = some r →
      r.input_buf.eof = true := by
  intro fuel
  induction fuel with
  | zero => intro ctx r _ h; simp [read_while_loop] at h
  | succ n ih =>
    intro ctx r hs h
    have he := small_peek hs
    simp only [read_while_loop, peek_char_fst, peek_char_snd] at h
    split at h
    · simp only [Option.some.injEq] at h
      rw [← h]; exact he
    · refine ih _ r (Or.inl ?_) h
      rw [next_char_eof_flag]
      apply peekn_eof_flag
      split_ifs
      · simpa using he
      · exact he

theorem read_while_small {p : Int → Bool} {add : Bool} {fuel : Nat} {ctx r : Lexer}
    (hs : Small ctx) (h : read_while fuel ctx p add = some r) : r.input_buf.eof = true := by
  unfold read_while at h
  cases hl : read_while_loop p add fuel ctx with
  | none => simp [hl] at h
  | some x =>
    have := read_while_loop_small p add fuel ctx x hs hl
    simp only [hl, Option.map_some', Option.some.injEq] at h
    rw [← h]
    split_ifs
    · simpa using this
    · exact this

theorem small_init {input : List Nat} (h : input.length < BUF_LEN) : Small (lexer_init input) :=
  Or.inr ⟨Nat.le_refl _, by simp [lexer_init, init_input_buf, U32], by
    simpa [lexer_init, init_input_buf] using h⟩


/-! ## Line and column -/


theorem byte_to_char_eq_iff {b : Nat} (hb : b < 256) (c : Nat) (hc : c < 128) :
    byte_to_char b = (c : Int) ↔ b = c := by
  unfold byte_to_char to_char; omega

theorem takeWhile_append_of_exists {α : Type} {p : α → Bool} :
    ∀ {l₁ : List α} (l₂ : List α), (∃ y ∈ l₁, p y = false) →
      (l₁ ++ l₂).takeWhile p = l₁.takeWhile p := by
  intro l₁
  induction l₁ with
  | nil => intro l₂ h; obtain ⟨y, hy, _⟩ := h; simp at hy
  | cons x xs ih =>
    intro l₂ h
    simp only [List.cons_append, List.takeWhile_cons]
    cases hp : p x with
    | false => simp
    | true =>
      simp only [if_true]
      obtain ⟨y, hy, hny⟩ := h
      rcases List.mem_cons.mp hy with rfl | hy
      · rw [hp] at hny; exact absurd hny (by simp)
      · rw [ih l₂ ⟨y, hy, hny⟩]

theorem tail_len_cons (x : Nat) (p : List Nat) :
    tail_len (x :: p) = if 10 ∈ p then tail_len p else p.length + (if x = 10 then 0 else 1) := by
  unfold tail_len
  rw [List.reverse_cons]
  by_cases h : 10 ∈ p
  · rw [if_pos h]
    have hex : ∃ y ∈ p.reverse, (fun (b : Nat) => decide (b ≠ 10)) y = false :=
      ⟨10, by simpa using h, by simp⟩
    rw [takeWhile_append_of_exists _ hex]
  · rw [if_neg h]
    have hall : ∀ y ∈ p.reverse, (fun (b : Nat) => decide (b ≠ 10)) y = true := by
      intro y hy
      have : y ≠ 10 := fun e => h (by rw [← e]; simpa using hy)
      simpa using this
    rw [List.takeWhile_append_of_pos hall]
    by_cases hx : x = 10
    · simp [hx]
    · simp [hx]

/-- Line and column after a run of bytes: the newline count and the length of
the last line, as long as the 32-bit counters do not wrap. -/
theorem advance_bytes : ∀ (p : List Nat) (l c : Nat), (∀ b ∈ p, b < 256) →
    l + p.length < U32 → c + p.length < U32 →
    advance (l, c) (p.map byte_to_char) =
      (l + p.count 10, if 10 ∈ p then 1 + tail_len p else c + p.length) := by
  intro p
  induction p with
  | nil => intro l c _ _ _; simp [advance]
  | cons x p ih =>
    intro l c hb hl hc
    have hx : x < 256 := hb x (List.mem_cons_self _ _)
    have hb' : ∀ b ∈ p, b < 256 := fun b h => hb b (List.mem_cons_of_mem _ h)
    simp only [List.length_cons] at hl hc
    have h1U : 1 + p.length < U32 := by simp only [U32] at *; omega
    simp only [List.map_cons, advance]
    by_cases h10 : x = 10
    · subst h10
      have e : byte_to_char 10 = 10 := by decide
      simp only [e, if_true]
      rw [Nat.mod_eq_of_lt (by omega), ih (l + 1) 1 hb' (by omega) h1U, tail_len_cons]
      simp only [List.count_cons_self, List.mem_cons, true_or, if_true, List.length_cons]
      congr 1
      · omega
      · split_ifs <;> omega
    · have e : ¬ byte_to_char x = 10 := by
        intro h
        exact h10 ((byte_to_char_eq_iff hx 10 (by decide)).mp h)
      simp only [e, if_false]
      rw [Nat.mod_eq_of_lt (by omega), ih l (c + 1) hb' (by omega) (by omega), tail_len_cons]
      have hne : ¬ (10 = x) := fun h => h10 h.symm
      simp only [List.count_cons_of_ne hne, List.mem_cons, hne, false_or, h10, if_false,
        List.length_cons]
      congr 1
      split_ifs <;> omega

theorem advance_from_start (p : List Nat) (hb : ∀ b ∈ p, b < 256) (hl : 1 + p.length < U32) :
    advance (1, 1) (p.map byte_to_char) = (line_of p, col_of p) := by
  rw [advance_bytes p 1 1 hb hl hl]
  unfold line_of col_of
  congr 1
  split_ifs with h
  · rfl
  · have hall : ∀ y ∈ p.reverse, (fun (b : Nat) => decide (b ≠ 10)) y = true := by
      intro y hy
      have : y ≠ 10 := fun e => h (by rw [← e]; simpa using hy)
      simpa using this
    unfold tail_len
    rw [List.takeWhile_eq_self_iff.mpr hall]
    simp


/-! ## Blocks -/

theorem no_close_of_not_infix (body : List Nat) (hb : ∀ b ∈ body, b < 256)
    (hno : ¬ [125, 125, 125] <:+: body) :
    ∀ k, ¬ starts3 ((body.map byte_to_char).drop k) 125 125 125 := by
  intro k hs
  apply hno
  have hsplit : body = body.take k ++ body.drop k := (List.take_append_drop k body).symm
  have hmem : ∀ b ∈ body.drop k, b < 256 := fun b h => hb b (List.mem_of_mem_drop h)
  rw [← List.map_drop] at hs
  generalize body.drop k = d at hsplit hmem hs
  obtain ⟨h0, h1, h2⟩ := hs
  rcases d with _ | ⟨x, _ | ⟨y, _ | ⟨z, t⟩⟩⟩
  · simp [EOF_CHAR] at h0
  · simp [EOF_CHAR] at h1
  · simp [EOF_CHAR] at h2
  · have ex : x = 125 :=
      (byte_to_char_eq_iff (hmem x (by simp)) 125 (by decide)).mp (by simpa using h0)
    have ey : y = 125 :=
      (byte_to_char_eq_iff (hmem y (by simp)) 125 (by decide)).mp (by simpa using h1)
    have ez : z = 125 :=
      (byte_to_char_eq_iff (hmem z (by simp)) 125 (by decide)).mp (by simpa using h2)
    subst ex ey ez
    exact ⟨body.take k, t, by simpa using hsplit.symm⟩

/-- At the open marker, once the end of the stream has been seen, `read_block`
consumes the marker and enters its body loop. -/
theorem read_block_static_open {ctx : Lexer} (fuel : Nat) (R : List Int) (hg : Good ctx)
    (he : ctx.input_buf.eof = true) (hu : unread ctx = 123 :: 123 :: 123 :: R) :
    read_block fuel ctx =
      read_block_loop { type := TokenType.TOK_BLK_OPEN, i := 0, sp := 0 }
        { type := TokenType.TOK_STR, i := 0, sp := ctx.text_buf.length } fuel
        (skipn_char ctx 3) := by
  have hrp := read_punct_static_match hg he TokenType.TOK_BLK_OPEN 123 123 123
    char123 char123 char123 (by rw [hu]; simp [EOF_CHAR]) (by rw [hu]; exact ⟨rfl, rfl, rfl⟩)
  simp only [read_block, read_block_open, block_open, hrp]
  simp [get_text_buf_len]


theorem peekn_zero_in_buffer {ctx : Lexer} (hlt : ctx.input_buf.pos < ctx.input_buf.len)
    (hU : ctx.input_buf.len ≤ BUF_LEN) :
    peekn_char ctx 0 = (ctx.input_buf.buf.getD ctx.input_buf.pos 0, ctx) :=
  peekn_zero_of_lt hlt (by simp only [U32, BUF_LEN] at *; omega)

theorem next_char_in_buffer {ctx : Lexer} (hlt : ctx.input_buf.pos < ctx.input_buf.len)
    (hU : ctx.input_buf.len ≤ BUF_LEN) :
    add_text_buf (next_char ctx).2 (next_char ctx).1 =
      scan_state ctx [to_char (ctx.input_buf.buf.getD ctx.input_buf.pos 0)] := by
  have hp := peekn_zero_in_buffer hlt hU
  have hmod : (ctx.input_buf.pos + 1) % U32 = ctx.input_buf.pos + 1 := by
    apply Nat.mod_eq_of_lt
    simp only [U32, BUF_LEN] at *; omega
  unfold next_char nextn_char scan_state add_text_buf vectorChar_append
  simp only [hp, advance, List.length_singleton]
  generalize to_char (ctx.input_buf.buf.getD ctx.input_buf.pos 0) = c
  by_cases h10 : c = 10
  · simp only [h10, if_true, hmod]
  · simp only [h10, if_false, hmod]

theorem scan_state_cons (ctx : Lexer) (c : Int) (w : List Int) :
    scan_state ctx (c :: w) = scan_state (scan_state ctx [c]) w := by
  unfold scan_state
  simp only [List.length_cons, List.length_nil, List.append_assoc, List.singleton_append,
    advance_cons (ctx.line, ctx.col) c w, Nat.zero_add]
  congr 2
  omega

/-- A first character that is neither the sentinel nor the first character of
the string: `read_punct` does not apply, and has looked no further. -/
theorem read_punct_in_buffer_mismatch {ctx : Lexer}
    (hlt : ctx.input_buf.pos < ctx.input_buf.len) (hU : ctx.input_buf.len ≤ BUF_LEN)
    (type : TokenType) (a : Int) (s : List Int) (n : Nat) (hn : 0 < n)
    (h1 : to_char (ctx.input_buf.buf.getD ctx.input_buf.pos 0) ≠ EOF_CHAR)
    (h2 : to_char (ctx.input_buf.buf.getD ctx.input_buf.pos 0) ≠ a)
    (ha : -128 ≤ a ∧ a ≤ 127) :
    read_punct ctx type (a :: s) n = (NULL_TOK, ctx) := by
  have hp := peekn_zero_in_buffer hlt hU
  have hr := to_char_range (ctx.input_buf.buf.getD ctx.input_buf.pos 0)
  have hne : ¬ (to_uchar (to_char (ctx.input_buf.buf.getD ctx.input_buf.pos 0)) - to_uchar a = 0) :=
    fun h => h2 ((to_uchar_sub_eq_zero hr ha).mp h)
  have hn0 : ¬ (0 = n) := by omega
  simp only [read_punct, peek_char_fst, peek_char_snd, hp, if_neg h1, cmp_nextn, cmp_nextn_loop,
    ne_eq, h2, not_false_eq_true, or_true, if_true, if_neg hn0, if_neg hne]

/-- The body loop of `read_block` over buffered characters `w`, none of which is
the sentinel or `}`: one unit of fuel per character, and the state afterwards is
`scan_state ctx w`. -/
theorem read_block_loop_scan_buffered (o b : Token) :
    ∀ (w : List Int) (ctx : Lexer) (f : Nat),
      ctx.input_buf.pos + w.length ≤ ctx.input_buf.len → ctx.input_buf.len ≤ BUF_LEN →
      ((ctx.input_buf.buf.drop ctx.input_buf.pos).take w.length).map to_char = w →
      (∀ c ∈ w, c ≠ EOF_CHAR ∧ c ≠ 125) →
      read_block_loop o b (w.length + f) ctx = read_block_loop o b f (scan_state ctx w) := by
  intro w
  induction w with
  | nil =>
    intro ctx f _ _ _ _
    have : scan_state ctx [] = ctx := by simp [scan_state, advance]
    simp [this]
  | cons c w ih =>
    intro ctx f hpos hlen hbuf hw
    simp only [List.length_cons] at hpos
    have hlt : ctx.input_buf.pos < ctx.input_buf.len := by omega
    obtain ⟨x, xs, hd, hx, hxs⟩ : ∃ x xs, ctx.input_buf.buf.drop ctx.input_buf.pos = x :: xs ∧
        to_char x = c ∧ (xs.take w.length).map to_char = w := by
      cases hd : ctx.input_buf.buf.drop ctx.input_buf.pos with
      | nil => rw [hd] at hbuf; simp at hbuf
      | cons x xs =>
        rw [hd] at hbuf
        simp only [List.length_cons, List.take_succ_cons, List.map_cons, List.cons.injEq] at hbuf
        exact ⟨x, xs, rfl, hbuf.1, hbuf.2⟩
    have hgx : ctx.input_buf.buf.getD ctx.input_buf.pos 0 = x := by
      have := congrArg (fun l => l.head?) hd
      simp only [List.head?_drop, List.head?_cons] at this
      simp [List.getD_eq_getElem?_getD, this]
    have hdx : ctx.input_buf.buf.drop (ctx.input_buf.pos + 1) = xs := by
      have := congrArg List.tail hd
      simpa [List.tail_drop] using this
    have hc : to_char (ctx.input_buf.buf.getD ctx.input_buf.pos 0) = c := by rw [hgx, hx]
    have hcw := hw c (List.mem_cons_self _ _)
    have hrp := read_punct_in_buffer_mismatch hlt hlen TokenType.TOK_BLK_CLS 125 [125, 125] 3
      (by decide) (by rw [hc]; exact hcw.1) (by rw [hc]; exact hcw.2) (by decide)
    have hstep : add_text_buf (next_char ctx).2 (next_char ctx).1 = scan_state ctx [c] := by
      rw [next_char_in_buffer hlt hlen, hc]
    have hih := ih (scan_state ctx [c]) f
      (by simp only [scan_state, List.length_singleton]; omega)
      (by simpa [scan_state] using hlen)
      (by simpa [scan_state, hdx] using hxs)
      (fun y hy => hw y (List.mem_cons_of_mem _ hy))
    rw [scan_state_cons, ← hih]
    have hf : (c :: w).length + f = (w.length + f) + 1 := by
      simp only [List.length_cons]; omega
    rw [hf]
    simp only [read_block_loop, read_block_close, block_close, hrp, hstep]
    simp [NULL_TOK, TOK_TYPE]


/-! ## A close marker split by the refill -/


set_option maxRecDepth 100000 in
theorem split_marker_first_peek :
    to_char (peekn_char (lexer_init split_marker_input) 0).1 = 123 := by
  decide!

set_option maxRecDepth 100000 in
theorem split_marker_open :
    read_block_open (peekn_char (lexer_init split_marker_input) 0).2 =
      ({ type := TokenType.TOK_BLK_OPEN, i := 0, sp := 0 },
       skipn_char (peekn_char (lexer_init split_marker_input) 0).2 3) := by
  decide!

set_option maxRecDepth 100000 in
theorem split_marker_buffer :
    (skipn_char (peekn_char (lexer_init split_marker_input) 0).2 3).input_buf.pos + 1020 ≤
      (skipn_char (peekn_char (lexer_init split_marker_input) 0).2 3).input_buf.len ∧
    (skipn_char (peekn_char (lexer_init split_marker_input) 0).2 3).input_buf.len ≤ BUF_LEN ∧
    (((skipn_char (peekn_char (lexer_init split_marker_input) 0).2 3).input_buf.buf.drop
        (skipn_char (peekn_char (lexer_init split_marker_input) 0).2 3).input_buf.pos).take
      1020).map to_char = List.replicate 1020 97 := by
  decide!

set_option maxRecDepth 100000 in
theorem split_marker_end :
    (read_block_loop { type := TokenType.TOK_BLK_OPEN, i := 0, sp := 0 }
        { type := TokenType.TOK_STR, i := 0, sp := 0 } 4
        (scan_state (skipn_char (peekn_char (lexer_init split_marker_input) 0).2 3)
          (List.replicate 1020 97))).map
      (fun r => (r.1, r.2.err_sink, r.2.input_buf.eof, r.2.input_buf.len, r.2.input_buf.pos,
        is_empty_token_queue r.2)) =
      some (ERR_TOK, [{ line := 1, col := 1026, msg := ErrMsg.unclosed_block }], true, 2, 2,
        true) := by
  decide!

theorem skip_blanks_none {ctx : Lexer} (f : Nat)
    (hb : isblank (to_char (peekn_char ctx 0).1) = false) :
    read_while (f + 1) ctx isblank false = some (peekn_char ctx 0).2 := by
  simp only [read_while, read_while_loop, peek_char_fst, peek_char_snd, hb, or_true, if_true,
    Option.map_some', Bool.false_eq_true, if_false]

/-- On `split_marker_input` the first call reports an unclosed block at 1:1026
and returns Error, and the lexer is then done. -/
theorem split_marker_error (fuel : Nat) (hfuel : 1024 ≤ fuel) :
    ∃ c1, lexer_get_token fuel (lexer_init split_marker_input) = some (ERR_TOK, c1) ∧
      c1.err_sink = [{ line := 1, col := 1026, msg := ErrMsg.unclosed_block }] ∧
      Done c1 ∧ c1.input_buf.pos = 2 := by
  have hg0 := good_init split_marker_input
  obtain ⟨p1, p2, p3, p4⟩ := peekn_zero_good hg0
  obtain ⟨T, hu⟩ : ∃ T, unread (peekn_char (lexer_init split_marker_input) 0).2 = 123 :: T :=
    ⟨([123, 123] ++ List.replicate 1020 97 ++ [125, 125, 125]).map byte_to_char, by
      rw [p4, unread_init]; rfl⟩
  have hrw : read_while 1024 (lexer_init split_marker_input) isblank false =
      some (peekn_char (lexer_init split_marker_input) 0).2 :=
    skip_blanks_none 1023 (by rw [split_marker_first_peek]; decide)
  have hloop := read_block_loop_scan_buffered { type := TokenType.TOK_BLK_OPEN, i := 0, sp := 0 }
    { type := TokenType.TOK_STR, i := 0, sp := 0 } (List.replicate 1020 97)
    (skipn_char (peekn_char (lexer_init split_marker_input) 0).2 3) 4
    (by rw [List.length_replicate]; exact split_marker_buffer.1) split_marker_buffer.2.1
    (by rw [List.length_replicate]; exact split_marker_buffer.2.2)
    (by
      intro c hc
      rw [List.eq_of_mem_replicate hc]
      decide)
  simp only [List.length_replicate, Nat.reduceAdd] at hloop
  have hend := split_marker_end
  cases hr : read_block_loop { type := TokenType.TOK_BLK_OPEN, i := 0, sp := 0 }
      { type := TokenType.TOK_STR, i := 0, sp := 0 } 4
      (scan_state (skipn_char (peekn_char (lexer_init split_marker_input) 0).2 3)
        (List.replicate 1020 97)) with
  | none => rw [hr] at hend; simp at hend
  | some r =>
    rw [hr] at hend
    simp only [Option.map_some', Option.some.injEq, Prod.mk.injEq] at hend
    obtain ⟨h1, h2, h3, h4, h5, h6⟩ := hend
    have hget : lexer_get_token 1024 (lexer_init split_marker_input) = some r := by
      rw [lexer_get_token_dispatch (queue_init _) hrw p2 p3, hu]
      simp only [List.headD_cons]
      rw [if_neg (by decide), if_neg (by decide), if_neg (by decide), if_neg (by decide),
        read_end_null (by decide) p2 p3 (by rw [hu]; simp), attempt_read_null,
        read_symbol_null p2 p3 (by rw [hu]; simp [isalpha]), attempt_read_null,
        read_digit_null p2 p3 (by rw [hu]; simp [isdigit]), attempt_read_null]
      have hrb : read_block 1024 (peekn_char (lexer_init split_marker_input) 0).2 = some r := by
        simp only [read_block, split_marker_open]
        rw [if_neg (by decide)]
        have : get_text_buf_len (skipn_char (peekn_char (lexer_init split_marker_input) 0).2 3)
            = 0 := by
          simp only [get_text_buf_len, skipn_char_text_buf, peekn_char_text_buf]
          rfl
        rw [this, hloop, hr]
      rw [hrb, attempt_read_some _ (by rw [h1]; decide)]
    refine ⟨r.2, ?_, h2, ⟨h3, by omega, h6⟩, h5⟩
    rw [lexer_get_token_mono hfuel hget, ← h1]


/-! ## Accounting of the bytes that remain, on any buffer state -/


/-- The three ways a call of `peekn_char` can go. -/
theorem peekn_cases (ctx : Lexer) (i : Nat) (hi : i < BUF_LEN)
    (hU : ctx.input_buf.pos + i < U32) :
    (ctx.input_buf.pos + i < ctx.input_buf.len ∧
      peekn_char ctx i = (ctx.input_buf.buf.getD (ctx.input_buf.pos + i) 0, ctx)) ∨
    (¬ ctx.input_buf.pos + i < ctx.input_buf.len ∧
      (ctx.input_buf.eof = true ∨ (0 < i ∧ ctx.input_buf.len ≤ i)) ∧
      peekn_char ctx i = (EOF_CHAR, ctx)) ∨
    (¬ ctx.input_buf.pos + i < ctx.input_buf.len ∧ ctx.input_buf.eof = false ∧
      (i = 0 ∨ i < ctx.input_buf.len) ∧
      (peekn_char ctx i).2.input_buf.pos = 0 ∧
      (peekn_char ctx i).2.input_buf.len = min (BUF_LEN - i) ctx.input_buf.f.rest.length ∧
      (peekn_char ctx i).2.input_buf.f.rest.length =
        ctx.input_buf.f.rest.length - (BUF_LEN - i) ∧
      ((peekn_char ctx i).2.input_buf.len < BUF_LEN - i →
        (peekn_char ctx i).2.input_buf.eof = true) ∧
      ((peekn_char ctx i).2.input_buf.len = 0 → (peekn_char ctx i).1 = EOF_CHAR)) := by
  have hmod : (ctx.input_buf.pos + i) % U32 = ctx.input_buf.pos + i := Nat.mod_eq_of_lt hU
  by_cases hlt : ctx.input_buf.pos + i < ctx.input_buf.len
  · left
    refine ⟨hlt, ?_⟩
    unfold peekn_char
    simp only [hmod, if_pos hlt]
  · right
    by_cases he : ctx.input_buf.eof = true ∨ (0 < i ∧ ctx.input_buf.len ≤ i)
    · left
      refine ⟨hlt, he, ?_⟩
      unfold peekn_char
      simp only [hmod, if_neg hlt, if_pos he]
    · right
      have he1 : ctx.input_buf.eof = false := by
        cases h : ctx.input_buf.eof with
        | false => rfl
        | true => exact absurd (Or.inl h) he
      have he2 : i = 0 ∨ i < ctx.input_buf.len := by
        by_contra hc
        apply he
        right
        omega
      refine ⟨hlt, he1, he2, ?_⟩
      have hs : (peekn_char ctx i).2.input_buf =
          { pos := 0
            len := (ctx.input_buf.f.rest.take (BUF_LEN - i)).length
            eof := if (ctx.input_buf.f.rest.take (BUF_LEN - i)).length ≠ BUF_LEN ∧
                (ctx.input_buf.f.eof_ind ||
                  decide (ctx.input_buf.f.rest.length < BUF_LEN - i)) = true
              then true else ctx.input_buf.eof
            f := { rest := ctx.input_buf.f.rest.drop (BUF_LEN - i),
                   eof_ind := ctx.input_buf.f.eof_ind ||
                     decide (ctx.input_buf.f.rest.length < BUF_LEN - i) }
            buf := buf_write
              (if 0 < i then
                buf_write ctx.input_buf.buf 0
                  ((ctx.input_buf.buf.drop (ctx.input_buf.len - i)).take i)
               else ctx.input_buf.buf) i
              ((ctx.input_buf.f.rest.take (BUF_LEN - i)).map byte_to_char) } := by
        unfold peekn_char
        simp only [hmod, if_neg hlt, if_neg he, fread, feof]
        split <;> rfl
      have hv : (ctx.input_buf.f.rest.take (BUF_LEN - i)).length = 0 →
          (peekn_char ctx i).1 = EOF_CHAR := by
        intro h0
        have hne : (ctx.input_buf.f.rest.take (BUF_LEN - i)).length ≠ BUF_LEN := by
          rw [h0]; decide
        unfold peekn_char
        simp only [hmod, if_neg hlt, if_neg he, fread, feof]
        rw [if_pos ⟨hne, h0⟩]
      rw [hs]
      refine ⟨rfl, by simp [List.length_take], by simp [List.length_drop], ?_, ?_⟩
      · intro hlt'
        simp only [List.length_take] at hlt' ⊢
        have h2 : ctx.input_buf.f.rest.length < BUF_LEN - i := by omega
        have h3 : min (BUF_LEN - i) ctx.input_buf.f.rest.length ≠ BUF_LEN := by omega
        simp [h2, h3]
      · intro h0
        exact hv h0


/-- Effect of `peekn_char` on the byte counts, for the offsets the lexer uses:
either the state is unchanged, or the buffer was refilled and the buffered bytes
past the cursor are no longer counted. -/
theorem peekn_acc (ctx : Lexer) (i : Nat) (hi : i ≤ 3) (hl : ctx.input_buf.len ≤ BUF_LEN)
    (hU : ctx.input_buf.pos + i < U32) :
    (peekn_char ctx i).2.input_buf.len ≤ BUF_LEN ∧
    stock (peekn_char ctx i).2 ≤ stock ctx ∧ avail (peekn_char ctx i).2 ≤ avail ctx ∧
    (((peekn_char ctx i).2 = ctx ∧
        (to_char (peekn_char ctx i).1 ≠ EOF_CHAR → ctx.input_buf.pos + i < ctx.input_buf.len)) ∨
      ((peekn_char ctx i).2.input_buf.pos = 0 ∧
        ¬ ctx.input_buf.pos + i < ctx.input_buf.len ∧ (0 < i → i < ctx.input_buf.len) ∧
        avail (peekn_char ctx i).2 + (ctx.input_buf.len - ctx.input_buf.pos) ≤ avail ctx ∧
        ((peekn_char ctx i).2.input_buf.len = 0 → (peekn_char ctx i).2.input_buf.eof = true) ∧
        (to_char (peekn_char ctx i).1 ≠ EOF_CHAR → 1 ≤ (peekn_char ctx i).2.input_buf.len))) := by
  have hiB : i < BUF_LEN := by simp only [BUF_LEN]; omega
  rcases peekn_cases ctx i hiB hU with ⟨h1, h2⟩ | ⟨h1, h2, h3⟩ | ⟨h1, h2, h3, h4, h5, h6, h7, h8⟩
  · rw [h2]
    exact ⟨hl, Nat.le_refl _, Nat.le_refl _, Or.inl ⟨rfl, fun _ => h1⟩⟩
  · rw [h3]
    exact ⟨hl, Nat.le_refl _, Nat.le_refl _, Or.inl ⟨rfl, fun h => absurd to_char_eof h⟩⟩
  · have hlen : (peekn_char ctx i).2.input_buf.len ≤ BUF_LEN := by rw [h5]; omega
    refine ⟨hlen, ?_, ?_, Or.inr ⟨h4, h1, ?_, ?_, ?_, ?_⟩⟩
    · unfold stock; rw [h5, h6]; omega
    · unfold avail; rw [h4, h5, h6]; omega
    · intro h0; rcases h3 with h3 | h3
      · omega
      · exact h3
    · unfold avail; rw [h4, h5, h6]; omega
    · intro h0
      apply h7
      rw [h0]; simp only [BUF_LEN] at *; omega
    · intro hv
      by_contra hc
      have h0 : (peekn_char ctx i).2.input_buf.len = 0 := by omega
      rw [h8 h0] at hv
      exact hv to_char_eof

/-- Effect of a peek at offset 0: afterwards a further peek reads nothing. -/
theorem peek0_acc {ctx : Lexer} (hw : WFt ctx) :
    WFt (peekn_char ctx 0).2 ∧ stock (peekn_char ctx 0).2 ≤ stock ctx ∧
    avail (peekn_char ctx 0).2 ≤ avail ctx ∧ Peeked (peekn_char ctx 0).2 ∧
    (to_char (peekn_char ctx 0).1 ≠ EOF_CHAR →
      (peekn_char ctx 0).2.input_buf.pos < (peekn_char ctx 0).2.input_buf.len) := by
  obtain ⟨a1, a2, a3, a4⟩ := peekn_acc ctx 0 (by decide) hw.1 (by simpa using hw.2)
  rcases a4 with ⟨h1, h2⟩ | ⟨h1, h2, h3, h4, h5, h6⟩
  · refine ⟨by rw [h1]; exact hw, a2, a3, ?_, fun hv => by rw [h1]; simpa using h2 hv⟩
    rw [h1]
    rcases peekn_cases ctx 0 (by decide) (by simpa using hw.2) with
      ⟨c1, _⟩ | ⟨_, c2, _⟩ | ⟨_, _, _, c4, _, _, c7, _⟩
    · exact Or.inl (by simpa using c1)
    · rcases c2 with c2 | c2
      · exact Or.inr c2
      · omega
    · rw [h1] at c4 c7
      rcases Nat.eq_zero_or_pos ctx.input_buf.len with h0 | h0
      · exact Or.inr (c7 (by rw [h0]; decide))
      · exact Or.inl (by omega)
  · refine ⟨⟨a1, by rw [h1]; decide⟩, a2, a3, ?_, fun hv => by have := h6 hv; omega⟩
    rcases Nat.eq_zero_or_pos (peekn_char ctx 0).2.input_buf.len with h0 | h0
    · exact Or.inr (h5 h0)
    · exact Or.inl (by omega)

/-- A peek at offset 0 on a state where it reads nothing changes nothing. -/
theorem peek0_stable {ctx : Lexer} (hw : WFt ctx) (hp : Peeked ctx) :
    (peekn_char ctx 0).2 = ctx := by
  by_cases hlt : ctx.input_buf.pos < ctx.input_buf.len
  · rw [peekn_zero_of_lt hlt hw.2]
  · rcases hp with hp | hp
    · exact absurd hp hlt
    · rw [peekn_zero_of_eof (Nat.not_lt.mp hlt) hw.2 hp]


theorem next_char_len (ctx : Lexer) :
    (next_char ctx).2.input_buf.len = (peekn_char ctx 0).2.input_buf.len := by
  rw [next_char_input_buf]

theorem next_char_pos (ctx : Lexer) :
    (next_char ctx).2.input_buf.pos = ((peekn_char ctx 0).2.input_buf.pos + 1) % U32 := by
  rw [next_char_input_buf]

theorem next_char_rest (ctx : Lexer) :
    (next_char ctx).2.input_buf.f = (peekn_char ctx 0).2.input_buf.f := by
  rw [next_char_input_buf]

theorem next_char_wft (ctx : Lexer) (hw : WFt ctx) : WFt (next_char ctx).2 := by
  obtain ⟨a1, -⟩ := peek0_acc hw
  refine ⟨by rw [next_char_len]; exact a1.1, ?_⟩
  rw [next_char_pos]
  exact Nat.mod_lt _ (by decide)

theorem next_char_stock (ctx : Lexer) (hw : WFt ctx) : stock (next_char ctx).2 ≤ stock ctx := by
  obtain ⟨-, a2, -⟩ := peek0_acc hw
  unfold stock at *
  rw [next_char_len, next_char_rest]; exact a2

/-- Consuming a byte that is there lowers the count of available bytes. -/
theorem next_char_acc_hit {ctx : Lexer} (hw : WFt ctx)
    (hv : to_char (peekn_char ctx 0).1 ≠ EOF_CHAR) :
    avail (next_char ctx).2 + 1 ≤ avail ctx ∧
    (next_char ctx).2.input_buf.pos ≤ (next_char ctx).2.input_buf.len := by
  obtain ⟨a1, -, a3, -, a5⟩ := peek0_acc hw
  have hlt := a5 hv
  have hl := a1.1
  have hmod : ((peekn_char ctx 0).2.input_buf.pos + 1) % U32 =
      (peekn_char ctx 0).2.input_buf.pos + 1 := by
    apply Nat.mod_eq_of_lt
    simp only [U32, BUF_LEN] at *; omega
  unfold avail at *
  rw [next_char_len, next_char_rest, next_char_pos, hmod]
  omega

/-- Consuming at any state whose cursor is away from the 32-bit limit does not
raise the count of available bytes. -/
theorem next_char_acc_any {ctx : Lexer} (hw : WFt ctx) (hU : ctx.input_buf.pos + 1 < U32) :
    avail (next_char ctx).2 ≤ avail ctx ∧
    (next_char ctx).2.input_buf.pos ≤ ctx.input_buf.pos + 1 ∧
    (ctx.input_buf.pos < ctx.input_buf.len → avail (next_char ctx).2 + 1 ≤ avail ctx) := by
  obtain ⟨a1, a2, a3, a4⟩ := peekn_acc ctx 0 (by decide) hw.1 (by simpa using hw.2)
  have hp : (peekn_char ctx 0).2.input_buf.pos ≤ ctx.input_buf.pos := by
    rcases a4 with ⟨h1, -⟩ | ⟨h1, -⟩
    · rw [h1]
    · rw [h1]; exact Nat.zero_le _
  have hmod : ((peekn_char ctx 0).2.input_buf.pos + 1) % U32 =
      (peekn_char ctx 0).2.input_buf.pos + 1 := by
    apply Nat.mod_eq_of_lt; omega
  refine ⟨?_, ?_, ?_⟩
  · unfold avail at *
    rw [next_char_len, next_char_rest, next_char_pos, hmod]
    omega
  · rw [next_char_pos, hmod]; omega
  · intro hlt
    rcases a4 with ⟨h1, -⟩ | ⟨-, h2, -⟩
    · unfold avail at *
      rw [next_char_len, next_char_rest, next_char_pos, hmod, h1]
      omega
    · simp only [Nat.add_zero] at h2; exact absurd hlt h2

/-- Skipping `k` characters: the count of available bytes drops by at least the
number of them that were buffered. -/
theorem skipn_char_acc : ∀ (k : Nat) (ctx : Lexer), WFt ctx → ctx.input_buf.pos + k < U32 →
    WFt (skipn_char ctx k) ∧ stock (skipn_char ctx k) ≤ stock ctx ∧
    (skipn_char ctx k).input_buf.pos ≤ ctx.input_buf.pos + k ∧
    avail (skipn_char ctx k) + min k (ctx.input_buf.len - ctx.input_buf.pos) ≤ avail ctx := by
  intro k
  induction k with
  | zero => intro ctx hw _; exact ⟨hw, Nat.le_refl _, Nat.le_refl _, by simp [skipn_char]⟩
  | succ k ih =>
    intro ctx hw hU
    obtain ⟨n1, n2, n3⟩ := next_char_acc_any hw (by omega)
    obtain ⟨s1, s2, s3, s4⟩ := ih (next_char ctx).2 (next_char_wft ctx hw) (by omega)
    have hst := next_char_stock ctx hw
    simp only [skipn_char]
    refine ⟨s1, by omega, by omega, ?_⟩
    by_cases hlt : ctx.input_buf.pos < ctx.input_buf.len
    · have h1 := n3 hlt
      have hpk := peekn_zero_of_lt hlt hw.2
      have hlen : (next_char ctx).2.input_buf.len = ctx.input_buf.len := by
        rw [next_char_len, hpk]
      have hpos : (next_char ctx).2.input_buf.pos = ctx.input_buf.pos + 1 := by
        rw [next_char_pos, hpk]
        exact Nat.mod_eq_of_lt (by simp only; omega)
      rw [hlen, hpos] at s4
      omega
    · have : min (k + 1) (ctx.input_buf.len - ctx.input_buf.pos) = 0 := by omega
      omega


theorem peekrun_step {ctx s : Lexer} {j : Nat} (hQ : PeekRun ctx s j) (hj1 : 1 ≤ j)
    (hj : j ≤ 3) (hctx : ctx.input_buf.len ≤ BUF_LEN)
    (hlt : ctx.input_buf.pos < ctx.input_buf.len) :
    PeekEnd ctx (peekn_char s j).2 ∧
    (to_char (peekn_char s j).1 ≠ EOF_CHAR → PeekRun ctx (peekn_char s j).2 (j + 1)) ∧
    (j = 3 → avail (peekn_char s j).2 + 3 ≤
      avail ctx + min 3 ((peekn_char s j).2.input_buf.len - (peekn_char s j).2.input_buf.pos)) := by
  obtain ⟨q1, q2, q3⟩ := hQ
  have hsU : s.input_buf.pos + j < U32 := by
    rcases q3 with ⟨h, _⟩ | ⟨h, _⟩
    · rw [h]; simp only [U32, BUF_LEN] at *; omega
    · rw [h]; simp only [U32]; omega
  obtain ⟨a1, a2, a3, a4⟩ := peekn_acc s j hj q1 hsU
  rcases q3 with ⟨e, hb⟩ | ⟨h0, hacc, hone⟩
  · subst e
    rcases a4 with ⟨u1, u2⟩ | ⟨r1, r2, r3, r4, r5, r6⟩
    · rw [u1]
      refine ⟨⟨hctx, by omega, Nat.le_refl _, Nat.le_refl _, Or.inl hlt⟩, ?_, ?_⟩
      · intro hv
        exact ⟨hctx, Nat.le_refl _, Or.inl ⟨rfl, by have := u2 hv; omega⟩⟩
      · intro h3; omega
    · refine ⟨⟨a1, by rw [r1]; exact Nat.zero_le _, a2, a3, Or.inr ⟨r1, by omega⟩⟩, ?_, ?_⟩
      · intro hv
        have := r6 hv
        exact ⟨a1, a2, Or.inr ⟨r1, by omega, by omega⟩⟩
      · intro h3; omega
  · rcases a4 with ⟨u1, u2⟩ | ⟨r1, r2, r3, r4, r5, r6⟩
    · rw [u1]
      refine ⟨⟨q1, by rw [h0]; exact Nat.zero_le _, q2, by omega, Or.inr ⟨h0, hone⟩⟩, ?_, ?_⟩
      · intro hv
        have := u2 hv
        exact ⟨q1, q2, Or.inr ⟨h0, by omega, hone⟩⟩
      · intro h3
        rw [h0]; omega
    · have := r3 (by omega)
      omega

@[simp] theorem cmp_nextn_loop_tok_queue (n : Nat) : ∀ (s : List Int) (i : Nat) (ctx : Lexer),
    (cmp_nextn_loop n s i ctx).2.tok_queue = ctx.tok_queue := by
  intro s
  induction s with
  | nil => intro i ctx; simp [cmp_nextn_loop]
  | cons c s ih =>
    intro i ctx
    simp only [cmp_nextn_loop]
    split_ifs <;> first | (rw [ih]; simp) | simp

@[simp] theorem cmp_nextn_loop_text_buf (n : Nat) : ∀ (s : List Int) (i : Nat) (ctx : Lexer),
    (cmp_nextn_loop n s i ctx).2.text_buf = ctx.text_buf := by
  intro s
  induction s with
  | nil => intro i ctx; simp [cmp_nextn_loop]
  | cons c s ih =>
    intro i ctx
    simp only [cmp_nextn_loop]
    split_ifs <;> first | (rw [ih]; simp) | simp

@[simp] theorem cmp_nextn_loop_err_sink (n : Nat) : ∀ (s : List Int) (i : Nat) (ctx : Lexer),
    (cmp_nextn_loop n s i ctx).2.err_sink = ctx.err_sink := by
  intro s
  induction s with
  | nil => intro i ctx; simp [cmp_nextn_loop]
  | cons c s ih =>
    intro i ctx
    simp only [cmp_nextn_loop]
    split_ifs <;> first | (rw [ih]; simp) | simp

/-- Accounting for `cmp_nextn` with a three-character string, started where a
byte is buffered at the cursor. -/
theorem cmp_nextn_acc (ctx : Lexer) (a b c : Int)
    (ha : a ≠ 0 ∧ a ≠ EOF_CHAR ∧ -128 ≤ a ∧ a ≤ 127)
    (hb : b ≠ 0 ∧ b ≠ EOF_CHAR ∧ -128 ≤ b ∧ b ≤ 127)
    (hc : c ≠ 0 ∧ c ≠ EOF_CHAR ∧ -128 ≤ c ∧ c ≤ 127) (hl : ctx.input_buf.len ≤ BUF_LEN)
    (hlt : ctx.input_buf.pos < ctx.input_buf.len) :
    PeekEnd ctx (cmp_nextn ctx 3 [a, b, c]).2 ∧
    ((cmp_nextn ctx 3 [a, b, c]).1 = 0 →
      avail (cmp_nextn ctx 3 [a, b, c]).2 + 3 ≤
        avail ctx + min 3 ((cmp_nextn ctx 3 [a, b, c]).2.input_buf.len -
          (cmp_nextn ctx 3 [a, b, c]).2.input_buf.pos)) := by
  have hU : ctx.input_buf.pos < U32 := by simp only [U32, BUF_LEN] at *; omega
  have hp0 : peekn_char ctx 0 = (ctx.input_buf.buf.getD ctx.input_buf.pos 0, ctx) :=
    peekn_zero_of_lt hlt hU
  have hQ1 : PeekRun ctx ctx 1 := ⟨hl, Nat.le_refl _, Or.inl ⟨rfl, by omega⟩⟩
  have hE0 : PeekEnd ctx ctx := ⟨hl, by omega, Nat.le_refl _, Nat.le_refl _, Or.inl hlt⟩
  obtain ⟨e1, n1, -⟩ := peekrun_step hQ1 (by decide) (by decide) hl hlt
  unfold cmp_nextn
  simp only [cmp_nextn_loop, hp0, ha.1, hb.1, hc.1, false_or, Nat.reduceLeDiff, Nat.zero_add,
    Nat.reduceAdd, OfNat.zero_ne_ofNat, OfNat.one_ne_ofNat, Nat.reduceEqDiff, if_false, if_true]
  by_cases h0 : to_char (ctx.input_buf.buf.getD ctx.input_buf.pos 0) = a
  · simp only [h0, ne_eq, not_true_eq_false, if_false]
    by_cases h1 : to_char (peekn_char ctx 1).1 = b
    · simp only [h1, ne_eq, not_true_eq_false, if_false]
      have hQ2 := n1 (by rw [h1]; exact hb.2.1)
      obtain ⟨e2, n2, -⟩ := peekrun_step hQ2 (by decide) (by decide) hl hlt
      by_cases h2 : to_char (peekn_char (peekn_char ctx 1).2 2).1 = c
      · simp only [h2, ne_eq, not_true_eq_false, if_false]
        have hQ3 := n2 (by rw [h2]; exact hc.2.1)
        obtain ⟨e3, -, n3⟩ := peekrun_step hQ3 (by decide) (by decide) hl hlt
        exact ⟨e3, fun _ => n3 rfl⟩
      · simp only [h2, ne_eq, not_false_eq_true, if_true]
        refine ⟨e2, fun h => ?_⟩
        exact absurd ((to_uchar_sub_eq_zero (to_char_range _) hc.2.2).mp h) h2
    · simp only [h1, ne_eq, not_false_eq_true, if_true]
      refine ⟨e1, fun h => ?_⟩
      exact absurd ((to_uchar_sub_eq_zero (to_char_range _) hb.2.2).mp h) h1
  · simp only [h0, ne_eq, not_false_eq_true, if_true]
    refine ⟨hE0, fun h => ?_⟩
    exact absurd ((to_uchar_sub_eq_zero (to_char_range _) ha.2.2).mp h) h0


/-- A second peek at offset 0 returns what the first returned. -/
theorem peek0_value_stable {ctx : Lexer} (hw : WFt ctx) :
    peekn_char (peekn_char ctx 0).2 0 = ((peekn_char ctx 0).1, (peekn_char ctx 0).2) := by
  by_cases hlt : ctx.input_buf.pos < ctx.input_buf.len
  · have h := peekn_zero_of_lt hlt hw.2
    rw [h]; exact h
  · have hge : ctx.input_buf.len ≤ ctx.input_buf.pos := Nat.not_lt.mp hlt
    by_cases he : ctx.input_buf.eof = true
    · have h := peekn_zero_of_eof hge hw.2 he
      rw [h]; exact h
    · have he' : ctx.input_buf.eof = false := by simpa using he
      rw [peekn_zero_refill hge hw.2 he']
      generalize ctx.input_buf.f.rest = rest
      rcases rest with _ | ⟨x, rest⟩
      · exact peekn_zero_of_eof (Nat.le_refl _) (by simp [U32]) (by simp [BUF_LEN])
      · have hlen : 0 < ((x :: rest).take BUF_LEN).length := by
          simp [BUF_LEN]
        rw [peekn_zero_of_lt hlen (by simp [U32])]
        simp [BUF_LEN]


@[simp] theorem cmp_nextn_tok_queue (ctx : Lexer) (n : Nat) (s : List Int) :
    (cmp_nextn ctx n s).2.tok_queue = ctx.tok_queue := by
  unfold cmp_nextn; simp

/-- The three outcomes of `read_punct` with a three-character string and what
each does to the byte counts: end of stream; a match, which consumes three
bytes; no match, after which a byte is buffered at the cursor or the buffer was
refilled at a loss. -/
theorem read_punct_acc (ctx : Lexer) (type : TokenType) (a b c : Int)
    (ha : a ≠ 0 ∧ a ≠ EOF_CHAR ∧ -128 ≤ a ∧ a ≤ 127)
    (hb : b ≠ 0 ∧ b ≠ EOF_CHAR ∧ -128 ≤ b ∧ b ≤ 127)
    (hc : c ≠ 0 ∧ c ≠ EOF_CHAR ∧ -128 ≤ c ∧ c ≤ 127) (hw : WFt ctx) :
    (read_punct ctx type [a, b, c] 3).2.tok_queue = ctx.tok_queue ∧
    WFt (read_punct ctx type [a, b, c] 3).2 ∧
    stock (read_punct ctx type [a, b, c] 3).2 ≤ stock ctx ∧
    avail (read_punct ctx type [a, b, c] 3).2 ≤ avail ctx ∧
    (((read_punct ctx type [a, b, c] 3).1 = EOF_TOK ∧
        to_char (peekn_char ctx 0).1 = EOF_CHAR ∧
        (read_punct ctx type [a, b, c] 3).2 = (peekn_char ctx 0).2) ∨
      ((read_punct ctx type [a, b, c] 3).1 = { type := type, i := 0, sp := 0 } ∧
        to_char (peekn_char ctx 0).1 ≠ EOF_CHAR ∧
        avail (read_punct ctx type [a, b, c] 3).2 + 3 ≤ avail ctx) ∨
      ((read_punct ctx type [a, b, c] 3).1 = NULL_TOK ∧
        to_char (peekn_char ctx 0).1 ≠ EOF_CHAR ∧
        (read_punct ctx type [a, b, c] 3).2.input_buf.pos ≤ BUF_LEN ∧
        ((read_punct ctx type [a, b, c] 3).2.input_buf.pos <
            (read_punct ctx type [a, b, c] 3).2.input_buf.len ∨
          avail (read_punct ctx type [a, b, c] 3).2 + 1 ≤ avail ctx))) := by
  obtain ⟨p1, p2, p3, p4, p5⟩ := peek0_acc hw
  by_cases hv : to_char (peekn_char ctx 0).1 = EOF_CHAR
  · have hr : read_punct ctx type [a, b, c] 3 = (EOF_TOK, (peekn_char ctx 0).2) := by
      simp only [read_punct, peek_char_fst, peek_char_snd, hv, if_true]
    rw [hr]
    dsimp only
    exact ⟨by simp, p1, p2, p3, Or.inl ⟨rfl, hv, rfl⟩⟩
  · have hlt := p5 hv
    obtain ⟨⟨e1, e2, e3, e4, e5⟩, hz⟩ := cmp_nextn_acc (peekn_char ctx 0).2 a b c ha hb hc p1.1 hlt
    have hwc : WFt (cmp_nextn (peekn_char ctx 0).2 3 [a, b, c]).2 :=
      ⟨e1, by simp only [U32, BUF_LEN] at *; omega⟩
    by_cases hret : (cmp_nextn (peekn_char ctx 0).2 3 [a, b, c]).1 = 0
    · have hr : read_punct ctx type [a, b, c] 3 =
          ({ type := type, i := 0, sp := 0 },
            skipn_char (cmp_nextn (peekn_char ctx 0).2 3 [a, b, c]).2 3) := by
        simp only [read_punct, peek_char_fst, peek_char_snd, if_neg hv, hret, if_true]
      obtain ⟨s1, s2, s3, s4⟩ := skipn_char_acc 3 _ hwc (by simp only [U32, BUF_LEN] at *; omega)
      have := hz hret
      rw [hr]
      dsimp only
      refine ⟨by simp, s1, by omega, by omega, Or.inr (Or.inl ⟨rfl, hv, by omega⟩)⟩
    · have hr : read_punct ctx type [a, b, c] 3 =
          (NULL_TOK, (cmp_nextn (peekn_char ctx 0).2 3 [a, b, c]).2) := by
        simp only [read_punct, peek_char_fst, peek_char_snd, if_neg hv, if_neg hret]
      rw [hr]
      dsimp only
      refine ⟨by simp, hwc, by omega, by omega, Or.inr (Or.inr ⟨rfl, hv, e2, ?_⟩)⟩
      rcases e5 with h | ⟨_, h⟩
      · exact Or.inl h
      · exact Or.inr (by omega)


theorem avail_congr {ctx ctx' : Lexer} (he : ctx'.input_buf = ctx.input_buf) :
    avail ctx' = avail ctx := by
  unfold avail; rw [he]

theorem stock_congr {ctx ctx' : Lexer} (he : ctx'.input_buf = ctx.input_buf) :
    stock ctx' = stock ctx := by
  unfold stock; rw [he]

theorem wft_congr {ctx ctx' : Lexer} (he : ctx'.input_buf = ctx.input_buf) (h : WFt ctx) :
    WFt ctx' := by
  unfold WFt at *; rw [he]; exact h

theorem peekn_char_add_text_buf (ctx : Lexer) (x : Int) (i : Nat) :
    peekn_char (add_text_buf ctx x) i =
      ((peekn_char ctx i).1, add_text_buf (peekn_char ctx i).2 x) := by
  unfold peekn_char add_text_buf
  simp only
  split_ifs <;> rfl

theorem next_char_add_text_buf_input_buf (ctx : Lexer) (x : Int) :
    (next_char (add_text_buf ctx x)).2.input_buf = (next_char ctx).2.input_buf := by
  rw [next_char_input_buf, next_char_input_buf, peekn_char_add_text_buf]
  rfl

/-- The loop of `read_while` returns, given more fuel than there are available
bytes, and what it does to the byte counts. -/
theorem read_while_loop_total (p : Int → Bool) (add : Bool) :
    ∀ (fuel : Nat) (ctx : Lexer), WFt ctx → avail ctx < fuel →
      ∃ r, read_while_loop p add fuel ctx = some r ∧ WFt r ∧ Peeked r ∧
        stock r ≤ stock ctx ∧ avail r ≤ avail ctx ∧ r.tok_queue = ctx.tok_queue ∧
        ((0 ≤ to_char (peekn_char ctx 0).1 ∧ p (to_char (peekn_char ctx 0).1) = true) →
          avail r + 1 ≤ avail ctx) := by
  intro fuel
  induction fuel with
  | zero => intro ctx _ h; omega
  | succ f ih =>
    intro ctx hw hf
    obtain ⟨p1, p2, p3, p4, p5⟩ := peek0_acc hw
    simp only [read_while_loop, peek_char_fst, peek_char_snd]
    by_cases hstop : to_char (peekn_char ctx 0).1 < 0 ∨ p (to_char (peekn_char ctx 0).1) = false
    · rw [if_pos hstop]
      refine ⟨_, rfl, p1, p4, p2, p3, by simp, ?_⟩
      rintro ⟨h1, h2⟩
      rcases hstop with h | h
      · omega
      · rw [h2] at h; exact absurd h (by simp)
    · rw [if_neg hstop]
      have hv : to_char (peekn_char ctx 0).1 ≠ EOF_CHAR := by
        intro h; apply hstop; left; rw [h]; decide
      have hib : (next_char (if add = true then
          add_text_buf (peekn_char ctx 0).2 (to_char (peekn_char ctx 0).1)
          else (peekn_char ctx 0).2)).2.input_buf = (next_char (peekn_char ctx 0).2).2.input_buf := by
        split_ifs
        · exact next_char_add_text_buf_input_buf _ _
        · rfl
      have hq : (next_char (if add = true then
          add_text_buf (peekn_char ctx 0).2 (to_char (peekn_char ctx 0).1)
          else (peekn_char ctx 0).2)).2.tok_queue = ctx.tok_queue := by
        split_ifs <;> simp
      have hv1 : to_char (peekn_char (peekn_char ctx 0).2 0).1 ≠ EOF_CHAR := by
        rw [peek0_value_stable hw]; exact hv
      obtain ⟨n1, -⟩ := next_char_acc_hit p1 hv1
      have hwn := next_char_wft _ p1
      have hsn := next_char_stock _ p1
      obtain ⟨r, e1, e2, e3, e4, e5, e6, -⟩ := ih _ (wft_congr hib hwn)
        (by rw [avail_congr hib]; omega)
      rw [stock_congr hib] at e4
      rw [avail_congr hib] at e5
      exact ⟨r, e1, e2, e3, by omega, by omega, by rw [e6, hq], fun _ => by omega⟩

theorem read_while_total (p : Int → Bool) (add : Bool) (fuel : Nat) (ctx : Lexer)
    (hw : WFt ctx) (hf : avail ctx < fuel) :
    ∃ r, read_while fuel ctx p add = some r ∧ WFt r ∧ Peeked r ∧
      stock r ≤ stock ctx ∧ avail r ≤ avail ctx ∧ r.tok_queue = ctx.tok_queue ∧
      ((0 ≤ to_char (peekn_char ctx 0).1 ∧ p (to_char (peekn_char ctx 0).1) = true) →
        avail r + 1 ≤ avail ctx) := by
  obtain ⟨r, e1, e2, e3, e4, e5, e6, e7⟩ := read_while_loop_total p add fuel ctx hw hf
  unfold read_while
  rw [e1]
  cases add with
  | false => exact ⟨r, rfl, e2, e3, e4, e5, e6, e7⟩
  | true =>
    refine ⟨add_text_buf r 0, rfl, wft_congr rfl e2, peeked_congr rfl e3, ?_, ?_, e6, ?_⟩
    · rw [stock_congr (add_text_buf_input_buf r 0)]; exact e4
    · rw [avail_congr (add_text_buf_input_buf r 0)]; exact e5
    · rw [avail_congr (add_text_buf_input_buf r 0)]; exact e7

/-- The loop of `read_end` returns, given more fuel than there are available
bytes; a token other than the one passed in is End, and cost a byte. -/
theorem read_end_loop_total :
    ∀ (fuel : Nat) (tok : Token) (ctx : Lexer), WFt ctx → avail ctx < fuel →
      ∃ r, read_end_loop fuel tok ctx = some r ∧ WFt r.2 ∧ Peeked r.2 ∧
        stock r.2 ≤ stock ctx ∧ avail r.2 ≤ avail ctx ∧ r.2.tok_queue = ctx.tok_queue ∧
        (r.1 = tok ∨ (r.1 = END_TOK ∧ avail r.2 + 1 ≤ avail ctx)) := by
  intro fuel
  induction fuel with
  | zero => intro tok ctx _ h; omega
  | succ f ih =>
    intro tok ctx hw hf
    obtain ⟨p1, p2, p3, p4, p5⟩ := peek0_acc hw
    have hst := peek0_value_stable hw
    simp only [read_end_loop, peek_char_fst, peek_char_snd, hst]
    by_cases h10 : to_char (peekn_char ctx 0).1 = 10
    · simp only [h10, if_true, ne_eq, not_true_eq_false, if_false]
      have hv1 : to_char (peekn_char (peekn_char ctx 0).2 0).1 ≠ EOF_CHAR := by
        rw [hst, h10]; decide
      obtain ⟨n1, -⟩ := next_char_acc_hit p1 hv1
      have hwn := next_char_wft _ p1
      have hsn := next_char_stock _ p1
      obtain ⟨r, e1, e2, e3, e4, e5, e6, e7⟩ := ih END_TOK _ hwn (by omega)
      refine ⟨r, e1, e2, e3, by omega, by omega, by rw [e6]; simp, Or.inr ⟨?_, by omega⟩⟩
      rcases e7 with h | ⟨h, _⟩ <;> exact h
    · rw [if_neg h10]
      exact ⟨_, rfl, p1, p4, p2, p3, by simp, Or.inl rfl⟩


theorem char125' : (125 : Int) ≠ 0 ∧ (125 : Int) ≠ EOF_CHAR ∧ -128 ≤ (125 : Int) ∧
    (125 : Int) ≤ 127 := by decide

theorem char123' : (123 : Int) ≠ 0 ∧ (123 : Int) ≠ EOF_CHAR ∧ -128 ≤ (123 : Int) ∧
    (123 : Int) ≤ 127 := by decide

theorem add_token_queue_congr {c c' : Lexer} (h : c.tok_queue = c'.tok_queue) (t : Token) :
    (add_token_queue c t).tok_queue = (add_token_queue c' t).tok_queue := by
  unfold add_token_queue; simp only [h]

@[simp] theorem add_token_queue_input_buf (c : Lexer) (t : Token) :
    (add_token_queue c t).input_buf = c.input_buf := rfl

theorem read_block_finish_eq (o b cl : Token) (s : Lexer) (h : cl.type ≠ TokenType.TOK_NULL) :
    read_block_finish o b cl s =
      (o, add_token_queue (add_token_queue (add_text_buf s 0) b) cl) := by
  simp only [read_block_finish, if_pos h]

theorem read_punct_eof {ctx : Lexer} (type : TokenType) (s : List Int) (n : Nat)
    (hv : to_char (peekn_char ctx 0).1 = EOF_CHAR) :
    read_punct ctx type s n = (EOF_TOK, (peekn_char ctx 0).2) := by
  simp only [read_punct, peek_char_fst, peek_char_snd, hv, if_true]

/-- The body loop of `read_block` returns, given more fuel than there are
available bytes: either Error, the queue untouched, or the open token, the body
and close tokens queued. -/
theorem read_block_loop_total (o b : Token) :
    ∀ (fuel : Nat) (ctx : Lexer), WFt ctx → avail ctx < fuel →
      ∃ r, read_block_loop o b fuel ctx = some r ∧ WFt r.2 ∧ stock r.2 ≤ stock ctx ∧
        avail r.2 ≤ avail ctx ∧
        ((r.1 = ERR_TOK ∧ r.2.tok_queue = ctx.tok_queue) ∨
          (r.1 = o ∧ r.2.tok_queue =
            (add_token_queue (add_token_queue ctx b)
              { type := TokenType.TOK_BLK_CLS, i := 0, sp := 0 }).tok_queue)) := by
  intro fuel
  induction fuel with
  | zero => intro ctx _ h; omega
  | succ f ih =>
    intro ctx hw hf
    obtain ⟨q, w, s, a, hcase⟩ :=
      read_punct_acc ctx TokenType.TOK_BLK_CLS 125 125 125 char125' char125' char125' hw
    simp only [read_block_loop, read_block_close, block_close]
    rcases hcase with ⟨h1, -, -⟩ | ⟨h1, -, h3⟩ | ⟨h1, -, h3, h4⟩
    · rw [h1, if_pos (by decide)]
      exact ⟨_, rfl, wft_congr rfl w, by rw [stock_congr (PARSEERROR_input_buf _ _)]; exact s,
        by rw [avail_congr (PARSEERROR_input_buf _ _)]; exact a, Or.inl ⟨rfl, by simpa using q⟩⟩
    · rw [h1, if_neg (by decide), if_pos (by decide), read_block_finish_eq _ _ _ _ (by decide)]
      refine ⟨_, rfl, wft_congr rfl w, ?_, ?_, Or.inr ⟨rfl, ?_⟩⟩
      · rw [stock_congr (show (add_token_queue (add_token_queue (add_text_buf
          (read_punct ctx TokenType.TOK_BLK_CLS [125, 125, 125] 3).2 0) b) _).input_buf =
            (read_punct ctx TokenType.TOK_BLK_CLS [125, 125, 125] 3).2.input_buf from rfl)]
        exact s
      · rw [avail_congr (show (add_token_queue (add_token_queue (add_text_buf
          (read_punct ctx TokenType.TOK_BLK_CLS [125, 125, 125] 3).2 0) b) _).input_buf =
            (read_punct ctx TokenType.TOK_BLK_CLS [125, 125, 125] 3).2.input_buf from rfl)]
        exact a
      · apply add_token_queue_congr
        apply add_token_queue_congr
        simpa using q
    · rw [h1, if_neg (by decide), if_neg (by decide)]
      have hU : (read_punct ctx TokenType.TOK_BLK_CLS [125, 125, 125] 3).2.input_buf.pos + 1 <
          U32 := by simp only [U32, BUF_LEN] at *; omega
      obtain ⟨n1, n2, n3⟩ := next_char_acc_any w hU
      have hwn := next_char_wft _ w
      have hsn := next_char_stock _ w
      have hdec : avail (next_char (read_punct ctx TokenType.TOK_BLK_CLS [125, 125, 125] 3).2).2
          + 1 ≤ avail ctx := by
        rcases h4 with h | h
        · have := n3 h; omega
        · omega
      obtain ⟨r, e1, e2, e3, e4, e5⟩ := ih
        (add_text_buf (next_char (read_punct ctx TokenType.TOK_BLK_CLS [125, 125, 125] 3).2).2
          (next_char (read_punct ctx TokenType.TOK_BLK_CLS [125, 125, 125] 3).2).1)
        (wft_congr rfl hwn) (by rw [avail_congr (add_text_buf_input_buf _ _)]; omega)
      rw [stock_congr (add_text_buf_input_buf _ _)] at e3
      rw [avail_congr (add_text_buf_input_buf _ _)] at e4
      refine ⟨r, e1, e2, by omega, by omega, ?_⟩
      rcases e5 with ⟨h5, h6⟩ | ⟨h5, h6⟩
      · exact Or.inl ⟨h5, by rw [h6]; simpa using q⟩
      · refine Or.inr ⟨h5, ?_⟩
        rw [h6]
        apply add_token_queue_congr
        apply add_token_queue_congr
        simpa using q


theorem isalpha_alnum {c : Int} (h : isalpha c = true) : isalnum c = true := by
  simp [isalnum, h]

theorem not_isalpha_false {c : Int} (h : ¬ isalpha c = false) : isalpha c = true := by
  simpa using h

/-- Function `read_symbol` returns, given more fuel than there are available
bytes: no match and only a peek, or a String token that cost a byte. -/
theorem read_symbol_total (fuel : Nat) (ctx : Lexer) (hw : WFt ctx) (hf : avail ctx < fuel) :
    ∃ r, read_symbol fuel ctx = some r ∧ WFt r.2 ∧ stock r.2 ≤ stock ctx ∧
      avail r.2 ≤ avail ctx ∧ r.2.tok_queue = ctx.tok_queue ∧
      ((r.1 = NULL_TOK ∧ r.2 = (peekn_char ctx 0).2) ∨
        (r.1.type = TokenType.TOK_STR ∧ avail r.2 + 1 ≤ avail ctx)) := by
  obtain ⟨p1, p2, p3, p4, p5⟩ := peek0_acc hw
  simp only [read_symbol, peek_char_fst, peek_char_snd]
  by_cases ha : isalpha (to_char (peekn_char ctx 0).1) = false
  · rw [if_pos ha]
    exact ⟨_, rfl, p1, p2, p3, by simp, Or.inl ⟨rfl, rfl⟩⟩
  · rw [if_neg ha]
    have ha' := not_isalpha_false ha
    obtain ⟨r, e1, e2, -, e4, e5, e6, e7⟩ :=
      read_while_total isalnum true fuel (peekn_char ctx 0).2 p1 (by omega)
    rw [peek0_value_stable hw] at e7
    have := e7 ⟨isalnum_nonneg (isalpha_alnum ha'), isalpha_alnum ha'⟩
    rw [e1]
    exact ⟨_, rfl, e2, by dsimp only; omega, by dsimp only; omega, by simpa using e6,
      Or.inr ⟨rfl, by dsimp only; omega⟩⟩

/-- Function `read_digit` returns, given more fuel than there are available
bytes: no match and only a peek, or an Integer token that cost a byte. -/
theorem read_digit_total (fuel : Nat) (ctx : Lexer) (hw : WFt ctx) (hf : avail ctx < fuel) :
    ∃ r, read_digit fuel ctx = some r ∧ WFt r.2 ∧ stock r.2 ≤ stock ctx ∧
      avail r.2 ≤ avail ctx ∧ r.2.tok_queue = ctx.tok_queue ∧
      ((r.1 = NULL_TOK ∧ r.2 = (peekn_char ctx 0).2) ∨
        (r.1.type = TokenType.TOK_INT ∧ avail r.2 + 1 ≤ avail ctx)) := by
  obtain ⟨p1, p2, p3, p4, p5⟩ := peek0_acc hw
  simp only [read_digit, peek_char_fst, peek_char_snd]
  by_cases ha : isdigit (to_char (peekn_char ctx 0).1) = false
  · rw [if_pos ha]
    exact ⟨_, rfl, p1, p2, p3, by simp, Or.inl ⟨rfl, rfl⟩⟩
  · rw [if_neg ha]
    have ha' : isdigit (to_char (peekn_char ctx 0).1) = true := by simpa using ha
    obtain ⟨r, e1, e2, -, e4, e5, e6, e7⟩ :=
      read_while_total isdigit true fuel (peekn_char ctx 0).2 p1 (by omega)
    rw [peek0_value_stable hw] at e7
    have := e7 ⟨isdigit_nonneg ha', ha'⟩
    have hib : (set_text_buf_len r (get_text_buf_len (peekn_char ctx 0).2)).input_buf =
        r.input_buf := rfl
    rw [e1]
    refine ⟨_, rfl, wft_congr hib e2, ?_, ?_, by simpa [set_text_buf_len] using e6,
      Or.inr ⟨rfl, ?_⟩⟩
    · dsimp only; rw [stock_congr hib]; omega
    · dsimp only; rw [avail_congr hib]; omega
    · dsimp only; rw [avail_congr hib]; omega

/-- Function `read_block` returns, given more fuel than there are available
bytes: no match; Error; or the BlockOpen token, which cost three bytes and
queued the body and the close token. -/
theorem read_block_total (fuel : Nat) (ctx : Lexer) (hw : WFt ctx) (hf : avail ctx < fuel) :
    ∃ r, read_block fuel ctx = some r ∧ WFt r.2 ∧ stock r.2 ≤ stock ctx ∧
      avail r.2 ≤ avail ctx ∧
      ((r.1 = NULL_TOK ∧ r.2.tok_queue = ctx.tok_queue) ∨
        (r.1 = ERR_TOK ∧ r.2.tok_queue = ctx.tok_queue) ∨
        (r.1 = { type := TokenType.TOK_BLK_OPEN, i := 0, sp := 0 } ∧
          avail r.2 + 3 ≤ avail ctx ∧
          ∃ sp, r.2.tok_queue =
            (add_token_queue (add_token_queue ctx { type := TokenType.TOK_STR, i := 0, sp := sp })
              { type := TokenType.TOK_BLK_CLS, i := 0, sp := 0 }).tok_queue)) := by
  obtain ⟨q, w, s, a, hcase⟩ :=
    read_punct_acc ctx TokenType.TOK_BLK_OPEN 123 123 123 char123' char123' char123' hw
  simp only [read_block, read_block_open, block_open]
  rcases hcase with ⟨h1, h2, h3⟩ | ⟨h1, -, h3⟩ | ⟨h1, -, -⟩
  · rw [h1, if_neg (by decide)]
    obtain ⟨f, rfl⟩ : ∃ f, fuel = f + 1 := ⟨fuel - 1, by omega⟩
    have hv : to_char (peekn_char (read_punct ctx TokenType.TOK_BLK_OPEN [123, 123, 123] 3).2
        0).1 = EOF_CHAR := by
      rw [h3, peek0_value_stable hw]; exact h2
    simp only [read_block_loop, read_block_close, read_punct_eof _ _ _ hv]
    rw [if_pos (by decide)]
    refine ⟨_, rfl, ?_, ?_, ?_, Or.inr (Or.inl ⟨rfl, ?_⟩)⟩
    · exact wft_congr rfl (peek0_acc w).1
    · rw [stock_congr (PARSEERROR_input_buf _ _)]
      have := (peek0_acc w).2.1; omega
    · rw [avail_congr (PARSEERROR_input_buf _ _)]
      have := (peek0_acc w).2.2.1; omega
    · simpa using q
  · rw [h1, if_neg (by decide)]
    obtain ⟨r, e1, e2, e3, e4, e5⟩ := read_block_loop_total
      { type := TokenType.TOK_BLK_OPEN, i := 0, sp := 0 }
      { type := TokenType.TOK_STR, i := 0,
        sp := get_text_buf_len (read_punct ctx TokenType.TOK_BLK_OPEN [123, 123, 123] 3).2 }
      fuel _ w (by omega)
    refine ⟨r, e1, e2, by omega, by omega, ?_⟩
    rcases e5 with ⟨h5, h6⟩ | ⟨h5, h6⟩
    · exact Or.inr (Or.inl ⟨h5, by rw [h6, q]⟩)
    · refine Or.inr (Or.inr ⟨h5, by omega,
        get_text_buf_len (read_punct ctx TokenType.TOK_BLK_OPEN [123, 123, 123] 3).2, ?_⟩)
      rw [h6]
      apply add_token_queue_congr
      apply add_token_queue_congr
      exact q
  · rw [h1, if_pos (by decide)]
    exact ⟨_, rfl, w, s, a, Or.inl ⟨rfl, q⟩⟩


/-! ## The token queue -/


theorem queued_congr {c c' : Lexer} (h : c'.tok_queue = c.tok_queue) : queued c' = queued c := by
  unfold queued; rw [h]

theorem qinv_congr {c c' : Lexer} (h : c'.tok_queue = c.tok_queue) (hq : QInv c) : QInv c' := by
  unfold QInv at *
  rw [queued_congr h, h]; exact hq

theorem queued_of_empty {c : Lexer} (hq : QInv c) (he : is_empty_token_queue c = true) :
    queued c = 0 := by
  obtain ⟨h1, h2, -⟩ := hq
  simp only [is_empty_token_queue, decide_eq_true_eq] at he
  simp only [queued, QUEUE_LEN] at *
  omega

theorem qinv_init (input : List Nat) : QInv (lexer_init input) := by
  have h0 : queued (lexer_init input) = 0 := by simp [queued, lexer_init, QUEUE_LEN]
  refine ⟨by simp [lexer_init, QUEUE_LEN], by simp [lexer_init, QUEUE_LEN],
    by simp [lexer_init], by omega, ?_⟩
  intro j hj
  omega

/-- Dequeuing from a queue in order returns a token that is not the sentinel
and leaves a queue in order, one token shorter. -/
theorem qinv_pop {c : Lexer} (hq : QInv c) (he : is_empty_token_queue c = false) :
    (remove_token_queue c).1.type ≠ TokenType.TOK_NULL ∧ QInv (remove_token_queue c).2 ∧
    queued (remove_token_queue c).2 + 1 = queued c := by
  obtain ⟨h1, h2, h3, h4, h5⟩ := hq
  simp only [is_empty_token_queue, decide_eq_false_iff_not] at he
  have hpos : 0 < queued c := by
    simp only [queued, QUEUE_LEN] at *
    omega
  have hcnt : queued (remove_token_queue c).2 + 1 = queued c := by
    simp only [queued, remove_token_queue, QUEUE_LEN] at *
    omega
  refine ⟨?_, ⟨?_, h2, h3, by omega, ?_⟩, hcnt⟩
  · have := h5 0 hpos
    simp only [Nat.add_zero, Nat.mod_eq_of_lt h1] at this
    exact this
  · simp only [remove_token_queue]
    exact Nat.mod_lt _ (by decide)
  · intro j hj
    have := h5 (j + 1) (by omega)
    have hidx : ((c.tok_queue.front + 1) % QUEUE_LEN + j) % QUEUE_LEN =
        (c.tok_queue.front + (j + 1)) % QUEUE_LEN := by
      simp only [QUEUE_LEN]; omega
    simp only [remove_token_queue, hidx]
    exact this

/-- Enqueuing two tokens that are not the sentinel on an empty queue in order
leaves a queue in order holding two tokens. -/
theorem qinv_push2 {c c' : Lexer} (b cl : Token) (hq : QInv c)
    (he : is_empty_token_queue c = true)
    (hb : b.type ≠ TokenType.TOK_NULL) (hcl : cl.type ≠ TokenType.TOK_NULL)
    (h : c'.tok_queue = (add_token_queue (add_token_queue c b) cl).tok_queue) :
    QInv c' ∧ queued c' = 2 := by
  obtain ⟨h1, h2, h3, h4, h5⟩ := hq
  simp only [is_empty_token_queue, decide_eq_true_eq] at he
  have hcnt : queued c' = 2 := by
    simp only [queued, h, add_token_queue, QUEUE_LEN] at *
    omega
  refine ⟨⟨?_, ?_, ?_, by omega, ?_⟩, hcnt⟩
  · rw [h]; exact h1
  · rw [h]; simp only [add_token_queue]; exact Nat.mod_lt _ (by decide)
  · rw [h]; simp [add_token_queue, h3]
  · intro j hj
    rw [hcnt] at hj
    have hne : (c.tok_queue.back + 1) % QUEUE_LEN ≠ c.tok_queue.back := by
      simp only [QUEUE_LEN] at *; omega
    have hlt : (c.tok_queue.back + 1) % QUEUE_LEN < c.tok_queue.toks.length := by
      rw [h3]; exact Nat.mod_lt _ (by decide)
    rw [h]
    simp only [add_token_queue]
    rcases Nat.lt_succ_iff_lt_or_eq.mp hj with hj0 | rfl
    · have : j = 0 := by omega
      subst this
      rw [← he]
      simp only [Nat.add_zero, Nat.mod_eq_of_lt h2]
      rw [List.getD_eq_getElem?_getD, List.getElem?_set_ne hne,
        List.getElem?_set_self (by omega)]
      exact hb
    · rw [← he, List.getD_eq_getElem?_getD, List.getElem?_set_self (by simpa using hlt)]
      exact hcl


/-! ## Every call returns -/


theorem attempt_char_stable {c0 : Lexer} (hw : WFt c0) (hp : Peeked c0) (ch : Int)
    (type : Token) (k : Lexer → Option (Token × Lexer)) :
    ATTEMPT_READ_CHAR c0 ch type k =
      if to_char (peekn_char c0 0).1 = ch then some (type, (next_char c0).2) else k c0 := by
  unfold ATTEMPT_READ_CHAR
  simp only [peek_char_fst, peek_char_snd, peek0_stable hw hp]

/-- What a call returns with a token, when the queue is left as it was. -/
theorem call_result_ok {ctx : Lexer} {r : Token × Lexer} (hq : QInv ctx) (hw' : WFt r.2)
    (hq' : r.2.tok_queue = ctx.tok_queue) (hs : stock r.2 ≤ stock ctx)
    (hn : r.1.type ≠ TokenType.TOK_NULL)
    (ha : r.1.type ≠ TokenType.TOK_EOF → r.1.type ≠ TokenType.TOK_ERR →
      avail r.2 + 1 ≤ avail ctx) :
    WFt r.2 ∧ QInv r.2 ∧ stock r.2 ≤ stock ctx ∧ r.1.type ≠ TokenType.TOK_NULL ∧
    (r.1.type ≠ TokenType.TOK_EOF → r.1.type ≠ TokenType.TOK_ERR →
      avail r.2 + queued r.2 + 1 ≤ avail ctx + queued ctx) := by
  refine ⟨hw', qinv_congr hq' hq, hs, hn, fun h1 h2 => ?_⟩
  have := ha h1 h2
  rw [queued_congr hq']
  omega

/-- Every call of `lexer_get_token` on a state with indices in range and the
queue in order returns, given more fuel than there are available bytes; the
token is not the sentinel; and unless it is EndOfInput or Error, bytes available
plus tokens queued have dropped by at least one. -/
theorem lexer_get_token_total (fuel : Nat) (ctx : Lexer) (hw : WFt ctx) (hq : QInv ctx)
    (hf : avail ctx < fuel) :
    ∃ r, lexer_get_token fuel ctx = some r ∧ WFt r.2 ∧ QInv r.2 ∧ stock r.2 ≤ stock ctx ∧
      r.1.type ≠ TokenType.TOK_NULL ∧
      (r.1.type ≠ TokenType.TOK_EOF → r.1.type ≠ TokenType.TOK_ERR →
        avail r.2 + queued r.2 + 1 ≤ avail ctx + queued ctx) := by
  unfold lexer_get_token
  by_cases he : is_empty_token_queue ctx = false
  · rw [if_pos he]
    obtain ⟨p1, p2, p3⟩ := qinv_pop hq he
    refine ⟨_, rfl, wft_congr rfl hw, p2, ?_, p1, fun _ _ => ?_⟩
    · rw [stock_congr (show (remove_token_queue ctx).2.input_buf = ctx.input_buf from rfl)]
    · rw [avail_congr (show (remove_token_queue ctx).2.input_buf = ctx.input_buf from rfl)]
      omega
  · rw [if_neg he]
    have he' : is_empty_token_queue ctx = true := by simpa using he
    obtain ⟨c0, e1, w0, k0, s0, a0, q0, -⟩ := read_while_total isblank false fuel ctx hw hf
    rw [e1]
    simp only [attempt_char_stable w0 k0]
    have hn0 := next_char_wft c0 w0
    have hs0 := next_char_stock c0 w0
    have hchar : ∀ (t : Token), t.type ≠ TokenType.TOK_NULL →
        to_char (peekn_char c0 0).1 ≠ EOF_CHAR ∨ t.type = TokenType.TOK_EOF →
        WFt (t, (next_char c0).2).2 ∧ QInv (t, (next_char c0).2).2 ∧
        stock (t, (next_char c0).2).2 ≤ stock ctx ∧ (t, (next_char c0).2).1.type ≠
          TokenType.TOK_NULL ∧
        ((t, (next_char c0).2).1.type ≠ TokenType.TOK_EOF →
          (t, (next_char c0).2).1.type ≠ TokenType.TOK_ERR →
          avail (t, (next_char c0).2).2 + queued (t, (next_char c0).2).2 + 1 ≤
            avail ctx + queued ctx) := by
      intro t ht hv
      refine call_result_ok hq hn0 (by simp [q0]) (by dsimp only; omega) ht ?_
      intro h1 _
      rcases hv with hv | hv
      · have := (next_char_acc_hit w0 hv).1
        dsimp only; omega
      · exact absurd hv h1
    by_cases v1 : to_char (peekn_char c0 0).1 = EOF_CHAR
    · rw [if_pos v1]
      exact ⟨_, rfl, hchar EOF_TOK (by decide) (Or.inr rfl)⟩
    rw [if_neg v1]
    by_cases v2 : to_char (peekn_char c0 0).1 = 47
    · rw [if_pos v2]
      exact ⟨_, rfl, hchar _ (by decide) (Or.inl v1)⟩
    rw [if_neg v2]
    by_cases v3 : to_char (peekn_char c0 0).1 = 42
    · rw [if_pos v3]
      exact ⟨_, rfl, hchar _ (by decide) (Or.inl v1)⟩
    rw [if_neg v3]
    by_cases v4 : to_char (peekn_char c0 0).1 = 46
    · rw [if_pos v4]
      exact ⟨_, rfl, hchar _ (by decide) (Or.inl v1)⟩
    rw [if_neg v4]
    -- read_end
    obtain ⟨r5, e5, w5, k5, s5, a5, q5, c5⟩ := read_end_loop_total fuel NULL_TOK c0 w0 (by omega)
    rw [read_end, e5]
    rcases c5 with c5 | ⟨c5, d5⟩
    swap
    · rw [attempt_read_some _ (by rw [c5]; decide)]
      refine ⟨_, rfl, call_result_ok hq w5 (by rw [q5, q0]) (by omega) (by rw [c5]; decide)
        (fun _ _ => by omega)⟩
    obtain ⟨t5, x5⟩ := r5
    simp only at c5 w5 k5 s5 a5 q5
    subst c5
    rw [attempt_read_null]
    -- read_symbol
    obtain ⟨r6, e6, w6, s6, a6, q6, c6⟩ := read_symbol_total fuel x5 w5 (by omega)
    rw [e6]
    rcases c6 with ⟨c6, d6⟩ | ⟨c6, d6⟩
    swap
    · rw [attempt_read_some _ (by rw [c6]; decide)]
      refine ⟨_, rfl, call_result_ok hq w6 (by rw [q6, q5, q0]) (by omega) (by rw [c6]; decide)
        (fun _ _ => by omega)⟩
    obtain ⟨t6, x6⟩ := r6
    simp only at c6 d6 w6 s6 a6 q6
    subst c6
    rw [attempt_read_null]
    -- read_digit
    obtain ⟨r7, e7, w7, s7, a7, q7, c7⟩ := read_digit_total fuel x6 w6 (by omega)
    rw [e7]
    rcases c7 with ⟨c7, d7⟩ | ⟨c7, d7⟩
    swap
    · rw [attempt_read_some _ (by rw [c7]; decide)]
      refine ⟨_, rfl, call_result_ok hq w7 (by rw [q7, q6, q5, q0]) (by omega)
        (by rw [c7]; decide) (fun _ _ => by omega)⟩
    obtain ⟨t7, x7⟩ := r7
    simp only at c7 d7 w7 s7 a7 q7
    subst c7
    rw [attempt_read_null]
    -- read_block
    obtain ⟨r8, e8, w8, s8, a8, c8⟩ := read_block_total fuel x7 w7 (by omega)
    rw [e8]
    rcases c8 with ⟨c8, d8⟩ | ⟨c8, d8⟩ | ⟨c8, d8, sp, f8⟩
    · obtain ⟨t8, x8⟩ := r8
      simp only at c8 d8 w8 s8 a8
      subst c8
      rw [attempt_read_null]
      obtain ⟨p1, p2, -⟩ := peek0_acc w8
      refine ⟨_, rfl, call_result_ok hq (wft_congr rfl p1) (by simp [d8, q7, q6, q5, q0]) ?_
        (by simp [ERR_TOK, TOK_TYPE]) (fun _ h => absurd rfl h)⟩
      dsimp only
      rw [stock_congr (PARSEERROR_input_buf _ _)]
      simp only [peek_char_snd]
      omega
    · rw [attempt_read_some _ (by rw [c8]; decide)]
      refine ⟨_, rfl, call_result_ok hq w8 (by rw [d8, q7, q6, q5, q0]) (by omega)
        (by rw [c8]; decide) (fun _ h => ?_)⟩
      rw [c8] at h; exact absurd rfl h
    · rw [attempt_read_some _ (by rw [c8]; decide)]
      have hq7 : QInv x7 := qinv_congr (by rw [q7, q6, q5, q0]) hq
      have he7 : is_empty_token_queue x7 = true := by
        unfold is_empty_token_queue at *
        rw [q7, q6, q5, q0]; exact he'
      obtain ⟨g1, g2⟩ := qinv_push2 _ _ hq7 he7 (by simp) (by simp) f8
      refine ⟨_, rfl, w8, g1, by omega, by rw [c8]; decide, fun _ _ => ?_⟩
      rw [g2]
      omega


theorem avail_le_stock (ctx : Lexer) : avail ctx ≤ stock ctx := by
  unfold avail stock; omega

/-- The properties of `lexer_get_token_total`, for a result obtained with any
fuel. -/
theorem lexer_get_token_props {fuel : Nat} {ctx : Lexer} {r : Token × Lexer} (hw : WFt ctx)
    (hq : QInv ctx) (h : lexer_get_token fuel ctx = some r) :
    WFt r.2 ∧ QInv r.2 ∧ stock r.2 ≤ stock ctx ∧ r.1.type ≠ TokenType.TOK_NULL ∧
    (r.1.type ≠ TokenType.TOK_EOF → r.1.type ≠ TokenType.TOK_ERR →
      avail r.2 + queued r.2 + 1 ≤ avail ctx + queued ctx) := by
  obtain ⟨r', e, hp⟩ := lexer_get_token_total (max fuel (avail ctx + 1)) ctx hw hq
    (by omega)
  have := lexer_get_token_mono (Nat.le_max_left fuel (avail ctx + 1)) h
  rw [this] at e
  injection e with e
  rw [e]; exact hp

theorem wft_init (input : List Nat) : WFt (lexer_init input) :=
  ⟨Nat.zero_le _, by simp [lexer_init, init_input_buf, U32]⟩

theorem stock_init (input : List Nat) : stock (lexer_init input) = input.length := by
  simp [stock, lexer_init, init_input_buf]

/-- What holds in every reachable state: indices in range, the queue in order,
and no more bytes in stream and buffer than the input had. -/
theorem reachable_inv {input : List Nat} {ctx : Lexer} (h : Reachable input ctx) :
    WFt ctx ∧ QInv ctx ∧ stock ctx ≤ input.length := by
  induction h with
  | init => exact ⟨wft_init input, qinv_init input, by rw [stock_init]⟩
  | step _ hget ih =>
    obtain ⟨i1, i2, i3⟩ := ih
    obtain ⟨p1, p2, p3, -⟩ := lexer_get_token_props i1 i2 hget
    exact ⟨p1, p2, by omega⟩

/-- Repeated calls all return, and either one of the tokens is EndOfInput or
Error, or each call lowered bytes available plus tokens queued. -/
theorem lex_tokens_total {fuel : Nat} :
    ∀ (k : Nat) (ctx : Lexer), WFt ctx → QInv ctx → stock ctx < fuel →
      ∃ ts ctx', lex_tokens fuel k ctx = some (ts, ctx') ∧ ts.length = k ∧
        ((∃ t ∈ ts, t.type = TokenType.TOK_EOF ∨ t.type = TokenType.TOK_ERR) ∨
          avail ctx' + queued ctx' + k ≤ avail ctx + queued ctx) := by
  intro k
  induction k with
  | zero => intro ctx _ _ _; exact ⟨[], ctx, rfl, rfl, Or.inr (by omega)⟩
  | succ k ih =>
    intro ctx hw hq hs
    have ha := avail_le_stock ctx
    obtain ⟨r, e, p1, p2, p3, -, p5⟩ := lexer_get_token_total fuel ctx hw hq (by omega)
    obtain ⟨ts, ctx', e2, hl, hcase⟩ := ih r.2 p1 p2 (by omega)
    refine ⟨r.1 :: ts, ctx', ?_, by simp [hl], ?_⟩
    · simp only [lex_tokens, e, e2]
    · by_cases ht : r.1.type = TokenType.TOK_EOF ∨ r.1.type = TokenType.TOK_ERR
      · exact Or.inl ⟨r.1, List.mem_cons_self _ _, ht⟩
      · rcases hcase with ⟨t, ht1, ht2⟩ | hpot
        · exact Or.inl ⟨t, List.mem_cons_of_mem _ ht1, ht2⟩
        · right
          have := p5 (fun h => ht (Or.inl h)) (fun h => ht (Or.inr h))
          omega


/-! ## What a call consumes -/


theorem consumed_refl (ctx : Lexer) : Consumed ctx ctx := ⟨[], rfl, rfl⟩

theorem consumed_trans {a b c : Lexer} (h1 : Consumed a b) (h2 : Consumed b c) :
    Consumed a c := by
  obtain ⟨w1, u1, l1⟩ := h1
  obtain ⟨w2, u2, l2⟩ := h2
  exact ⟨w1 ++ w2, by rw [u1, u2, List.append_assoc], by rw [l2, l1, advance_append]⟩

theorem consumed_congr_right {a b b' : Lexer} (h : Consumed a b)
    (hi : b'.input_buf = b.input_buf) (hl : b'.line = b.line) (hc : b'.col = b.col) :
    Consumed a b' := by
  obtain ⟨w, u, l⟩ := h
  exact ⟨w, by rw [u, unread_congr hi], by rw [hl, hc, l]⟩

theorem consumed_congr_left {a a' b : Lexer} (h : Consumed a b)
    (hi : a'.input_buf = a.input_buf) (hl : a'.line = a.line) (hc : a'.col = a.col) :
    Consumed a' b := by
  obtain ⟨w, u, l⟩ := h
  exact ⟨w, by rw [unread_congr hi, u], by rw [hl, hc, l]⟩

theorem peek_consumed {ctx : Lexer} (hg : Good ctx) : Consumed ctx (peekn_char ctx 0).2 :=
  ⟨[], by rw [(peekn_zero_good hg).2.2.2]; rfl, by simp [advance]⟩

theorem unread_of_head {ctx : Lexer} (hv : (unread ctx).headD EOF_CHAR ≠ EOF_CHAR) :
    ∃ c R, unread ctx = c :: R := by
  cases h : unread ctx with
  | nil => rw [h] at hv; exact absurd rfl hv
  | cons c R => exact ⟨c, R, rfl⟩

theorem next_consumed {ctx : Lexer} (hg : Good ctx)
    (hv : (unread ctx).headD EOF_CHAR ≠ EOF_CHAR) :
    Good (next_char ctx).2 ∧ Consumed ctx (next_char ctx).2 := by
  obtain ⟨c, R, hu⟩ := unread_of_head hv
  obtain ⟨-, n2, n3, n4⟩ := next_char_good hg hu
  exact ⟨n2, [c], by rw [hu, n3]; rfl, n4⟩

theorem next_char_line (ctx : Lexer) (x : Int) :
    (next_char (add_text_buf ctx x)).2.line = (next_char ctx).2.line ∧
    (next_char (add_text_buf ctx x)).2.col = (next_char ctx).2.col := by
  have h1 := next_char_line_col (add_text_buf ctx x)
  have h2 := next_char_line_col ctx
  rw [peekn_char_add_text_buf] at h1
  simp only [add_text_buf_line, add_text_buf_col] at h1
  rw [← h2] at h1
  exact ⟨congrArg Prod.fst h1, congrArg Prod.snd h1⟩

/-- The loop of `read_while` on a consistent state, whatever it returns. -/
theorem read_while_loop_cons (p : Int → Bool) (add : Bool) :
    ∀ (fuel : Nat) (ctx r : Lexer), Good ctx → read_while_loop p add fuel ctx = some r →
      Good r ∧ Peeked r ∧ Consumed ctx r := by
  intro fuel
  induction fuel with
  | zero => intro ctx r _ h; simp [read_while_loop] at h
  | succ f ih =>
    intro ctx r hg h
    obtain ⟨p1, p2, p3, p4⟩ := peekn_zero_good hg
    simp only [read_while_loop, peek_char_fst, peek_char_snd] at h
    split at h
    · simp only [Option.some.injEq] at h
      rw [← h]
      exact ⟨p2, p3, peek_consumed hg⟩
    · rename_i hstop
      have hv : (unread (peekn_char ctx 0).2).headD EOF_CHAR ≠ EOF_CHAR := by
        rw [p4, ← p1]
        intro hc
        apply hstop
        left; rw [hc]; decide
      obtain ⟨n1, n2⟩ := next_consumed p2 hv
      have hib : (next_char (if add = true then
          add_text_buf (peekn_char ctx 0).2 (to_char (peekn_char ctx 0).1)
          else (peekn_char ctx 0).2)).2.input_buf = (next_char (peekn_char ctx 0).2).2.input_buf := by
        split_ifs
        · exact next_char_add_text_buf_input_buf _ _
        · rfl
      have hlc : (next_char (if add = true then
          add_text_buf (peekn_char ctx 0).2 (to_char (peekn_char ctx 0).1)
          else (peekn_char ctx 0).2)).2.line = (next_char (peekn_char ctx 0).2).2.line ∧
          (next_char (if add = true then
          add_text_buf (peekn_char ctx 0).2 (to_char (peekn_char ctx 0).1)
          else (peekn_char ctx 0).2)).2.col = (next_char (peekn_char ctx 0).2).2.col := by
        split_ifs
        · exact next_char_line _ _
        · exact ⟨rfl, rfl⟩
      obtain ⟨e1, e2, e3⟩ := ih _ r (good_congr hib n1) h
      refine ⟨e1, e2, consumed_trans (peek_consumed hg) (consumed_trans n2 ?_)⟩
      exact consumed_congr_left e3 hib.symm hlc.1.symm hlc.2.symm

theorem read_while_cons {p : Int → Bool} {add : Bool} {fuel : Nat} {ctx r : Lexer}
    (hg : Good ctx) (h : read_while fuel ctx p add = some r) :
    Good r ∧ Peeked r ∧ Consumed ctx r := by
  unfold read_while at h
  cases hl : read_while_loop p add fuel ctx with
  | none => simp [hl] at h
  | some x =>
    obtain ⟨e1, e2, e3⟩ := read_while_loop_cons p add fuel ctx x hg hl
    simp only [hl, Option.map_some', Option.some.injEq] at h
    rw [← h]
    split_ifs
    · exact ⟨good_congr (add_text_buf_input_buf x 0) e1, peeked_congr (add_text_buf_input_buf x 0) e2,
        consumed_congr_right e3 (add_text_buf_input_buf x 0) rfl rfl⟩
    · exact ⟨e1, e2, e3⟩

/-- The loop of `read_end` on a consistent state, whatever it returns. -/
theorem read_end_loop_cons :
    ∀ (fuel : Nat) (tok : Token) (ctx : Lexer) (r : Token × Lexer), Good ctx →
      read_end_loop fuel tok ctx = some r → Good r.2 ∧ Peeked r.2 ∧ Consumed ctx r.2 := by
  intro fuel
  induction fuel with
  | zero => intro tok ctx r _ h; simp [read_end_loop] at h
  | succ f ih =>
    intro tok ctx r hg h
    obtain ⟨p1, p2, p3, p4⟩ := peekn_zero_good hg
    have hs := peekn_zero_peeked p2 p3
    simp only [read_end_loop, peek_char_fst, peek_char_snd, hs] at h
    split at h
    · rename_i h10
      split at h
      · simp only [Option.some.injEq] at h
        rw [← h]
        exact ⟨p2, p3, peek_consumed hg⟩
      · have hv : (unread (peekn_char ctx 0).2).headD EOF_CHAR ≠ EOF_CHAR := by
          rw [p4, ← p1, h10]; decide
        obtain ⟨n1, n2⟩ := next_consumed p2 hv
        obtain ⟨e1, e2, e3⟩ := ih _ _ r n1 h
        exact ⟨e1, e2, consumed_trans (peek_consumed hg) (consumed_trans n2 e3)⟩
    · simp only [Option.some.injEq] at h
      rw [← h]
      exact ⟨p2, p3, peek_consumed hg⟩



theorem read_end_loop_eof :
    ∀ (fuel : Nat) (tok : Token) (ctx : Lexer) (r : Token × Lexer),
      ctx.input_buf.eof = true → read_end_loop fuel tok ctx = some r →
      r.2.input_buf.eof = true := by
  intro fuel
  induction fuel with
  | zero => intro tok ctx r _ h; simp [read_end_loop] at h
  | succ f ih =>
    intro tok ctx r he h
    have e1 := peekn_eof_flag he 0
    have e2 := peekn_eof_flag e1 0
    simp only [read_end_loop, peek_char_fst, peek_char_snd] at h
    split at h
    · split at h
      · simp only [Option.some.injEq] at h
        rw [← h]; exact e2
      · refine ih _ _ r ?_ h
        rw [next_char_eof_flag]
        exact peekn_eof_flag e2 0
    · simp only [Option.some.injEq] at h
      rw [← h]; exact e1

theorem next_consumed_static {ctx : Lexer} (hg : Good ctx) (he : ctx.input_buf.eof = true)
    (hv : (unread ctx).headD EOF_CHAR ≠ EOF_CHAR) :
    Good (next_char ctx).2 ∧ (next_char ctx).2.input_buf.eof = true ∧
      Consumed ctx (next_char ctx).2 := by
  obtain ⟨n1, n2⟩ := next_consumed hg hv
  refine ⟨n1, ?_, n2⟩
  rw [next_char_eof_flag]
  exact peekn_eof_flag he 0

/-- Function `read_end` on a consistent state at the end of the stream. -/
theorem read_end_cons {fuel : Nat} {ctx : Lexer} {t : Token × Lexer} (hg : Good ctx)
    (he : ctx.input_buf.eof = true) (h : read_end fuel ctx = some t) :
    Good t.2 ∧ t.2.input_buf.eof = true ∧ Consumed ctx t.2 := by
  obtain ⟨e1, -, e3⟩ := read_end_loop_cons fuel NULL_TOK ctx t hg h
  exact ⟨e1, read_end_loop_eof fuel NULL_TOK ctx t he h, e3⟩

/-- Function `read_symbol` on a consistent state at the end of the stream. -/
theorem read_symbol_cons {fuel : Nat} {ctx : Lexer} {t : Token × Lexer} (hg : Good ctx)
    (he : ctx.input_buf.eof = true) (h : read_symbol fuel ctx = some t) :
    Good t.2 ∧ t.2.input_buf.eof = true ∧ Consumed ctx t.2 := by
  obtain ⟨-, p2, -, -⟩ := peekn_zero_good hg
  have e1 := peekn_eof_flag he 0
  simp only [read_symbol, peek_char_fst, peek_char_snd] at h
  split at h
  · simp only [Option.some.injEq] at h
    rw [← h]
    exact ⟨p2, e1, peek_consumed hg⟩
  · cases hw : read_while fuel (peekn_char ctx 0).2 isalnum true with
    | none => simp [hw] at h
    | some x =>
      simp only [hw, Option.map_some', Option.some.injEq] at h
      rw [← h]
      obtain ⟨w1, -, w3⟩ := read_while_cons p2 hw
      exact ⟨w1, read_while_small (Or.inl e1) hw, consumed_trans (peek_consumed hg) w3⟩

/-- Function `read_digit` on a consistent state at the end of the stream. -/
theorem read_digit_cons {fuel : Nat} {ctx : Lexer} {t : Token × Lexer} (hg : Good ctx)
    (he : ctx.input_buf.eof = true) (h : read_digit fuel ctx = some t) :
    Good t.2 ∧ t.2.input_buf.eof = true ∧ Consumed ctx t.2 := by
  obtain ⟨-, p2, -, -⟩ := peekn_zero_good hg
  have e1 := peekn_eof_flag he 0
  simp only [read_digit, peek_char_fst, peek_char_snd] at h
  split at h
  · simp only [Option.some.injEq] at h
    rw [← h]
    exact ⟨p2, e1, peek_consumed hg⟩
  · cases hw : read_while fuel (peekn_char ctx 0).2 isdigit true with
    | none => simp [hw] at h
    | some x =>
      simp only [hw, Option.map_some', Option.some.injEq] at h
      rw [← h]
      obtain ⟨w1, -, w3⟩ := read_while_cons p2 hw
      have hib : (set_text_buf_len x (get_text_buf_len (peekn_char ctx 0).2)).input_buf =
          x.input_buf := rfl
      refine ⟨good_congr hib w1, ?_, ?_⟩
      · exact (read_while_small (Or.inl e1) hw : x.input_buf.eof = true)
      · exact consumed_congr_right (consumed_trans (peek_consumed hg) w3) hib rfl rfl

theorem starts3_cons {U : List Int} {a b c : Int} (ha : a ≠ EOF_CHAR) (hb : b ≠ EOF_CHAR)
    (hc : c ≠ EOF_CHAR) (h : starts3 U a b c) : ∃ R, U = a :: b :: c :: R := by
  obtain ⟨h0, h1, h2⟩ := h
  match U, h0, h1, h2 with
  | [], h0, _, _ => exact absurd h0.symm ha
  | [_], _, h1, _ => exact absurd h1.symm hb
  | [_, _], _, _, h2 => exact absurd h2.symm hc
  | x :: y :: z :: R, h0, h1, h2 =>
    simp only [List.getD_cons_zero, List.getD_cons_succ] at h0 h1 h2
    exact ⟨R, by rw [h0, h1, h2]⟩

theorem finish_frame (s : Lexer) (b cl : Token) :
    (add_token_queue (add_token_queue (add_text_buf s 0) b) cl).input_buf = s.input_buf ∧
    (add_token_queue (add_token_queue (add_text_buf s 0) b) cl).line = s.line ∧
    (add_token_queue (add_token_queue (add_text_buf s 0) b) cl).col = s.col :=
  ⟨rfl, rfl, rfl⟩

/-- Three characters skipped at the end of the stream. -/
theorem skip3_cons {ctx : Lexer} (hg : Good ctx) (he : ctx.input_buf.eof = true)
    {a b c : Int} {R : List Int} (hu : unread ctx = a :: b :: c :: R) :
    Good (skipn_char ctx 3) ∧ (skipn_char ctx 3).input_buf.eof = true ∧
      Consumed ctx (skipn_char ctx 3) := by
  obtain ⟨s1, s2, s3, s4⟩ := skipn_char_static [a, b, c] ctx R hg he hu
  refine ⟨s1, s2, [a, b, c], ?_, s4⟩
  show unread ctx = a :: b :: c :: unread (skipn_char ctx [a, b, c].length)
  rw [s3]; exact hu

/-- The loop of `read_block` on a consistent state at the end of the stream,
whatever it returns. -/
theorem read_block_loop_cons (o b : Token) :
    ∀ (fuel : Nat) (ctx : Lexer) (t : Token × Lexer), Good ctx → ctx.input_buf.eof = true →
      read_block_loop o b fuel ctx = some t →
      Good t.2 ∧ t.2.input_buf.eof = true ∧ Consumed ctx t.2 := by
  intro fuel
  induction fuel with
  | zero => intro ctx t _ _ h; simp [read_block_loop] at h
  | succ f ih =>
    intro ctx t hg he h
    by_cases hh : (unread ctx).headD EOF_CHAR = EOF_CHAR
    · rw [read_block_loop_unclosed o b f hg he hh] at h
      simp only [Option.some.injEq] at h
      rw [← h]
      exact ⟨good_congr (PARSEERROR_input_buf _ _) hg, he,
        consumed_congr_right (consumed_refl ctx) (PARSEERROR_input_buf _ _) rfl rfl⟩
    · by_cases hs : starts3 (unread ctx) 125 125 125
      · obtain ⟨R, hu⟩ := starts3_cons (by decide) (by decide) (by decide) hs
        rw [read_block_loop_closed o b f R hg he hu,
          read_block_finish_eq _ _ _ _ (by simp)] at h
        simp only [Option.some.injEq] at h
        rw [← h]
        obtain ⟨s1, s2, s3⟩ := skip3_cons hg he hu
        obtain ⟨q1, q2, q3⟩ := finish_frame (skipn_char ctx 3) b
          { type := TokenType.TOK_BLK_CLS, i := 0, sp := 0 }
        exact ⟨good_congr q1 s1, by rw [q1]; exact s2, consumed_congr_right s3 q1 q2 q3⟩
      · have hrp := read_punct_static_nomatch hg he TokenType.TOK_BLK_CLS 125 125 125
          char125 char125 char125 hh hs
        simp only [read_block_loop, read_block_close, block_close, hrp] at h
        simp only [NULL_TOK, TOK_TYPE, reduceCtorEq, if_false, ne_eq, not_true_eq_false] at h
        obtain ⟨n1, n2, n3⟩ := next_consumed_static hg he hh
        have hib : (add_text_buf (next_char ctx).2 (next_char ctx).1).input_buf =
            (next_char ctx).2.input_buf := rfl
        obtain ⟨e1, e2, e3⟩ := ih _ t (good_congr hib n1) n2 h
        exact ⟨e1, e2, consumed_trans n3 (consumed_congr_left e3 hib rfl rfl)⟩

/-- Function `read_block` on a consistent state at the end of the stream. -/
theorem read_block_cons {fuel : Nat} {ctx : Lexer} {t : Token × Lexer} (hg : Good ctx)
    (he : ctx.input_buf.eof = true) (h : read_block fuel ctx = some t) :
    Good t.2 ∧ t.2.input_buf.eof = true ∧ Consumed ctx t.2 := by
  by_cases hh : (unread ctx).headD EOF_CHAR = EOF_CHAR
  · have hrp := read_punct_static_eof hg he TokenType.TOK_BLK_OPEN block_open 3 hh
    simp only [read_block, read_block_open, hrp] at h
    simp only [EOF_TOK, TOK_TYPE, reduceCtorEq, if_false] at h
    exact read_block_loop_cons _ _ fuel ctx t hg he h
  · by_cases hs : starts3 (unread ctx) 123 123 123
    · obtain ⟨R, hu⟩ := starts3_cons (by decide) (by decide) (by decide) hs
      have hrp := read_punct_static_match hg he TokenType.TOK_BLK_OPEN 123 123 123
        char123 char123 char123 hh hs
      simp only [read_block, read_block_open, block_open, hrp] at h
      simp only [reduceCtorEq, if_false] at h
      obtain ⟨s1, s2, s3⟩ := skip3_cons hg he hu
      obtain ⟨e1, e2, e3⟩ := read_block_loop_cons _ _ fuel _ t s1 s2 h
      exact ⟨e1, e2, consumed_trans s3 e3⟩
    · have hrp := read_punct_static_nomatch hg he TokenType.TOK_BLK_OPEN 123 123 123
        char123 char123 char123 hh hs
      simp only [read_block, read_block_open, block_open, hrp] at h
      simp only [NULL_TOK, TOK_TYPE, if_true, Option.some.injEq] at h
      rw [← h]
      exact ⟨hg, he, consumed_refl ctx⟩



/-- What `lexer_get_token` does after the blanks, on a consistent state at the
end of the stream, when it returns neither EndOfInput nor Error. -/
theorem dispatch_cons {fuel : Nat} {ctx c0 : Lexer} {r : Token × Lexer}
    (hq : is_empty_token_queue ctx = true)
    (hw : read_while fuel ctx isblank false = some c0) (hg : Good c0) (hp : Peeked c0)
    (he : c0.input_buf.eof = true) (h : lexer_get_token fuel ctx = some r)
    (h1 : r.1.type ≠ TokenType.TOK_EOF) (h2 : r.1.type ≠ TokenType.TOK_ERR) :
    Good r.2 ∧ r.2.input_buf.eof = true ∧ Consumed c0 r.2 := by
  rw [lexer_get_token_dispatch hq hw hg hp] at h
  split_ifs at h with a1 a2 a3 a4
  · simp only [Option.some.injEq] at h
    rw [← h] at h1
    exact absurd rfl h1
  · simp only [Option.some.injEq] at h
    rw [← h]
    exact next_consumed_static hg he a1
  · simp only [Option.some.injEq] at h
    rw [← h]
    exact next_consumed_static hg he a1
  · simp only [Option.some.injEq] at h
    rw [← h]
    exact next_consumed_static hg he a1
  · cases hr1 : read_end fuel c0 with
    | none => simp [hr1, ATTEMPT_READ] at h
    | some t1 =>
      obtain ⟨g1, e1, k1⟩ := read_end_cons hg he hr1
      simp only [hr1, ATTEMPT_READ] at h
      split_ifs at h with b1
      · simp only [Option.some.injEq] at h
        rw [← h]; exact ⟨g1, e1, k1⟩
      · cases hr2 : read_symbol fuel t1.2 with
        | none => simp [hr2] at h
        | some t2 =>
          obtain ⟨g2, e2, k2⟩ := read_symbol_cons g1 e1 hr2
          simp only [hr2] at h
          split_ifs at h with b2
          · simp only [Option.some.injEq] at h
            rw [← h]; exact ⟨g2, e2, consumed_trans k1 k2⟩
          · cases hr3 : read_digit fuel t2.2 with
            | none => simp [hr3] at h
            | some t3 =>
              obtain ⟨g3, e3, k3⟩ := read_digit_cons g2 e2 hr3
              simp only [hr3] at h
              split_ifs at h with b3
              · simp only [Option.some.injEq] at h
                rw [← h]; exact ⟨g3, e3, consumed_trans k1 (consumed_trans k2 k3)⟩
              · cases hr4 : read_block fuel t3.2 with
                | none => simp [hr4] at h
                | some t4 =>
                  obtain ⟨g4, e4, k4⟩ := read_block_cons g3 e3 hr4
                  simp only [hr4] at h
                  split_ifs at h with b4
                  · simp only [Option.some.injEq] at h
                    rw [← h]
                    exact ⟨g4, e4, consumed_trans k1 (consumed_trans k2 (consumed_trans k3 k4))⟩
                  · simp only [Option.some.injEq] at h
                    rw [← h] at h2
                    exact absurd rfl h2

/-- One call of `lexer_get_token` that returns neither EndOfInput nor Error, on a
consistent state with less than a buffer-load of input left. -/
theorem lexer_get_token_cons {fuel : Nat} {ctx : Lexer} {r : Token × Lexer} (hg : Good ctx)
    (hs : Small ctx) (h : lexer_get_token fuel ctx = some r)
    (h1 : r.1.type ≠ TokenType.TOK_EOF) (h2 : r.1.type ≠ TokenType.TOK_ERR) :
    Good r.2 ∧ Small r.2 ∧ Consumed ctx r.2 := by
  by_cases hq : is_empty_token_queue ctx = true
  · cases hw : read_while fuel ctx isblank false with
    | none =>
      simp only [lexer_get_token, hq, hw] at h
      simp at h
    | some c0 =>
      obtain ⟨g0, p0, k0⟩ := read_while_cons hg hw
      have e0 := read_while_small hs hw
      obtain ⟨g, e, k⟩ := dispatch_cons hq hw g0 p0 e0 h h1 h2
      exact ⟨g, Or.inl e, consumed_trans k0 k⟩
  · have hq' : is_empty_token_queue ctx = false := by simpa using hq
    simp only [lexer_get_token, hq', if_true, Option.some.injEq] at h
    rw [← h]
    have hib : (remove_token_queue ctx).2.input_buf = ctx.input_buf := rfl
    refine ⟨good_congr hib hg, ?_, consumed_congr_right (consumed_refl ctx) hib rfl rfl⟩
    unfold Small
    rw [hib]
    exact hs

/-- Any number of calls none of which returns EndOfInput or Error. -/
theorem lex_tokens_cons {fuel : Nat} :
    ∀ (k : Nat) (ctx : Lexer) (ts : List Token) (ctx' : Lexer), Good ctx → Small ctx →
      lex_tokens fuel k ctx = some (ts, ctx') →
      (∀ t ∈ ts, t.type ≠ TokenType.TOK_EOF ∧ t.type ≠ TokenType.TOK_ERR) →
      Good ctx' ∧ Small ctx' ∧ Consumed ctx ctx' := by
  intro k
  induction k with
  | zero =>
    intro ctx ts ctx' hg hs h _
    simp only [lex_tokens, Option.some.injEq, Prod.mk.injEq] at h
    rw [← h.2]
    exact ⟨hg, hs, consumed_refl ctx⟩
  | succ k ih =>
    intro ctx ts ctx' hg hs h hok
    simp only [lex_tokens] at h
    cases hr : lexer_get_token fuel ctx with
    | none => simp [hr] at h
    | some r =>
      simp only [hr] at h
      cases hrs : lex_tokens fuel k r.2 with
      | none => simp [hrs] at h
      | some rs =>
        simp only [hrs, Option.some.injEq, Prod.mk.injEq] at h
        obtain ⟨hts, hc⟩ := h
        have hr1 := hok r.1 (by rw [← hts]; exact List.mem_cons_self _ _)
        obtain ⟨g1, s1, k1⟩ := lexer_get_token_cons hg hs hr hr1.1 hr1.2
        have hrs' : lex_tokens fuel k r.2 = some (rs.1, ctx') := by rw [hrs, ← hc]
        obtain ⟨g2, s2, k2⟩ := ih r.2 rs.1 ctx' g1 s1 hrs'
          (fun t ht => hok t (by rw [← hts]; exact List.mem_cons_of_mem _ ht))
        exact ⟨g2, s2, consumed_trans k1 k2⟩


/-! ## The block of the blank-prefixed input -/


set_option maxRecDepth 100000 in
theorem blank_split_skip :
    read_while 2 (lexer_init blank_split_input) isblank false =
      some (next_char (peekn_char (lexer_init blank_split_input) 0).2).2 := by
  decide!

set_option maxRecDepth 100000 in
theorem blank_split_open :
    read_block_open (next_char (peekn_char (lexer_init blank_split_input) 0).2).2 =
      ({ type := TokenType.TOK_BLK_OPEN, i := 0, sp := 0 },
       skipn_char (next_char (peekn_char (lexer_init blank_split_input) 0).2).2 3) := by
  decide!

set_option maxRecDepth 100000 in
theorem blank_split_buffer :
    (skipn_char (next_char (peekn_char (lexer_init blank_split_input) 0).2).2 3).input_buf.pos
        + 1020 ≤
      (skipn_char (next_char (peekn_char (lexer_init blank_split_input) 0).2).2 3).input_buf.len ∧
    (skipn_char (next_char (peekn_char (lexer_init blank_split_input) 0).2).2 3).input_buf.len
      ≤ BUF_LEN ∧
    (((skipn_char (next_char (peekn_char (lexer_init blank_split_input) 0).2).2
          3).input_buf.buf.drop
        (skipn_char (next_char (peekn_char (lexer_init blank_split_input) 0).2).2
          3).input_buf.pos).take
      1020).map to_char = List.replicate 1020 97 := by
  decide!

set_option maxRecDepth 100000 in
theorem blank_split_end :
    (read_block_loop { type := TokenType.TOK_BLK_OPEN, i := 0, sp := 0 }
        { type := TokenType.TOK_STR, i := 0, sp := 0 } 4
        (scan_state (skipn_char (next_char (peekn_char (lexer_init blank_split_input) 0).2).2 3)
          (List.replicate 1020 97))).bind
      (fun r => (lex_views 4 3 r.2).map (fun v => (r.1.type, v))) =
      some (TokenType.TOK_BLK_OPEN,
        [(TokenType.TOK_STR, some (List.replicate 1020 97)), (TokenType.TOK_BLK_CLS, none),
         (TokenType.TOK_EOF, none)]) := by
  decide!


/-- With `{` at the cursor after the blanks, `lexer_get_token` is down to
`read_block` and the final error. -/
theorem get_token_at_brace {fuel : Nat} {ctx c0 : Lexer} {T : List Int} (hf : 0 < fuel)
    (hq : is_empty_token_queue ctx = true)
    (hw : read_while fuel ctx isblank false = some c0)
    (hg : Good c0) (hp : Peeked c0) (hu : unread c0 = 123 :: T) :
    lexer_get_token fuel ctx =
      ATTEMPT_READ (read_block fuel c0) fun c8 =>
        some (ERR_TOK, PARSEERROR (peek_char c8).2 (ErrMsg.cannot_handle (peek_char c8).1)) := by
  rw [lexer_get_token_dispatch hq hw hg hp, hu]
  simp only [List.headD_cons]
  rw [if_neg (by decide), if_neg (by decide), if_neg (by decide), if_neg (by decide),
    read_end_null hf hg hp (by rw [hu]; simp), attempt_read_null,
    read_symbol_null hg hp (by rw [hu]; simp [isalpha]), attempt_read_null,
    read_digit_null hg hp (by rw [hu]; simp [isdigit]), attempt_read_null]

theorem lex_views_step {fuel k : Nat} {ctx : Lexer} {r : Token × Lexer}
    {vs : List (TokenType × Option (List Int))} (h : lexer_get_token fuel ctx = some r)
    (hv : lex_views fuel k r.2 = some vs) :
    lex_views fuel (k + 1) ctx = some ((r.1.type, token_text r.2 r.1) :: vs) := by
  simp only [lex_views, h, hv]

/-- On `blank_split_input` the block is recognised: BlockOpen, the String of
1020 `a`, BlockClose, EndOfInput. -/
theorem blank_split_views (fuel : Nat) (hfuel : 1024 ≤ fuel) :
    lex_views fuel 4 (lexer_init blank_split_input) =
      some [(TokenType.TOK_BLK_OPEN, none),
        (TokenType.TOK_STR, some (List.replicate 1020 97)), (TokenType.TOK_BLK_CLS, none),
        (TokenType.TOK_EOF, none)] := by
  refine lex_views_mono hfuel 4 _ _ ?_
  have hg0 := good_init blank_split_input
  obtain ⟨c0, e1, e2, e3, e4, -⟩ := skip_blanks_good [32] 1024 (lexer_init blank_split_input)
    (split_marker_input.map byte_to_char) hg0 (by rw [unread_init]; rfl)
    (by intro c hc; left; simpa using hc) rfl (by decide)
  have hc0 : c0 = (next_char (peekn_char (lexer_init blank_split_input) 0).2).2 := by
    have := read_while_mono (by decide : 2 ≤ 1024) blank_split_skip
    rw [e1] at this
    exact Option.some.inj this
  subst hc0
  obtain ⟨T, hu⟩ : ∃ T, unread (next_char (peekn_char (lexer_init blank_split_input) 0).2).2 =
      123 :: T :=
    ⟨([123, 123] ++ List.replicate 1020 97 ++ [125, 125, 125]).map byte_to_char, by
      rw [e4]; rfl⟩
  have hloop := read_block_loop_scan_buffered { type := TokenType.TOK_BLK_OPEN, i := 0, sp := 0 }
    { type := TokenType.TOK_STR, i := 0, sp := 0 } (List.replicate 1020 97)
    (skipn_char (next_char (peekn_char (lexer_init blank_split_input) 0).2).2 3) 4
    (by rw [List.length_replicate]; exact blank_split_buffer.1) blank_split_buffer.2.1
    (by rw [List.length_replicate]; exact blank_split_buffer.2.2)
    (by
      intro c hc
      rw [List.eq_of_mem_replicate hc]
      decide)
  simp only [List.length_replicate, Nat.reduceAdd] at hloop
  have hend := blank_split_end
  cases hr : read_block_loop { type := TokenType.TOK_BLK_OPEN, i := 0, sp := 0 }
      { type := TokenType.TOK_STR, i := 0, sp := 0 } 4
      (scan_state (skipn_char (next_char (peekn_char (lexer_init blank_split_input) 0).2).2 3)
        (List.replicate 1020 97)) with
  | none => rw [hr] at hend; simp only [Option.none_bind, reduceCtorEq] at hend
  | some r =>
    rw [hr] at hend
    simp only [Option.some_bind] at hend
    cases hv : lex_views 4 3 r.2 with
    | none => rw [hv] at hend; simp only [Option.map_none', reduceCtorEq] at hend
    | some v =>
      rw [hv] at hend
      simp only [Option.map_some', Option.some.injEq, Prod.mk.injEq] at hend
      obtain ⟨h1, h2⟩ := hend
      have hrb : read_block 1024 (next_char (peekn_char (lexer_init blank_split_input) 0).2).2 =
          some r := by
        simp only [read_block, blank_split_open]
        rw [if_neg (by decide)]
        have : get_text_buf_len
            (skipn_char (next_char (peekn_char (lexer_init blank_split_input) 0).2).2 3) = 0 := by
          simp only [get_text_buf_len, skipn_char_text_buf, next_char_text_buf,
            peekn_char_text_buf]
          rfl
        rw [this, hloop, hr]
      have hget : lexer_get_token 1024 (lexer_init blank_split_input) = some r := by
        rw [get_token_at_brace (by decide) (queue_init _) e1 e2 e3 hu, hrb,
          attempt_read_some _ (by rw [h1]; decide)]
      have hv' := lex_views_mono (by decide : 4 ≤ 1024) 3 r.2 v hv
      have htxt : token_text r.2 r.1 = none := by
        simp only [token_text, lexer_get_string, h1]
        simp
      rw [lex_views_step hget hv', htxt, h1, h2]


/-! ## How a call changes the queue -/


/-- How a call of `lexer_get_token` changes the token queue: it dequeues, or
(the queue being empty) it leaves the queue alone and returns a token other
than BlockOpen, or it returns BlockOpen and has enqueued a String token and the
BlockClose token, in this order, on the empty queue. -/
theorem lexer_get_token_queue (fuel : Nat) (ctx : Lexer) (hw : WFt ctx)
    (hf : avail ctx < fuel) :
    ∃ r, lexer_get_token fuel ctx = some r ∧
      ((is_empty_token_queue ctx = false ∧ r = remove_token_queue ctx) ∨
       (is_empty_token_queue ctx = true ∧ r.1.type ≠ TokenType.TOK_BLK_OPEN ∧
         r.2.tok_queue = ctx.tok_queue) ∨
       (is_empty_token_queue ctx = true ∧
         r.1 = { type := TokenType.TOK_BLK_OPEN, i := 0, sp := 0 } ∧
         ∃ sp, r.2.tok_queue =
           (add_token_queue (add_token_queue ctx { type := TokenType.TOK_STR, i := 0, sp := sp })
             { type := TokenType.TOK_BLK_CLS, i := 0, sp := 0 }).tok_queue)) := by
  unfold lexer_get_token
  by_cases he : is_empty_token_queue ctx = false
  · rw [if_pos he]
    exact ⟨_, rfl, Or.inl ⟨he, rfl⟩⟩
  · rw [if_neg he]
    have he' : is_empty_token_queue ctx = true := by simpa using he
    obtain ⟨c0, e1, w0, k0, s0, a0, q0, -⟩ := read_while_total isblank false fuel ctx hw hf
    rw [e1]
    simp only [attempt_char_stable w0 k0]
    have hchar : ∀ (t : Token), t.type ≠ TokenType.TOK_BLK_OPEN →
        (is_empty_token_queue ctx = true ∧ (t, (next_char c0).2).1.type ≠
          TokenType.TOK_BLK_OPEN ∧ (t, (next_char c0).2).2.tok_queue = ctx.tok_queue) :=
      fun t ht => ⟨he', ht, by simp [q0]⟩
    by_cases v1 : to_char (peekn_char c0 0).1 = EOF_CHAR
    · rw [if_pos v1]
      exact ⟨_, rfl, Or.inr (Or.inl (hchar EOF_TOK (by decide)))⟩
    rw [if_neg v1]
    by_cases v2 : to_char (peekn_char c0 0).1 = 47
    · rw [if_pos v2]
      exact ⟨_, rfl, Or.inr (Or.inl (hchar _ (by decide)))⟩
    rw [if_neg v2]
    by_cases v3 : to_char (peekn_char c0 0).1 = 42
    · rw [if_pos v3]
      exact ⟨_, rfl, Or.inr (Or.inl (hchar _ (by decide)))⟩
    rw [if_neg v3]
    by_cases v4 : to_char (peekn_char c0 0).1 = 46
    · rw [if_pos v4]
      exact ⟨_, rfl, Or.inr (Or.inl (hchar _ (by decide)))⟩
    rw [if_neg v4]
    obtain ⟨r5, e5, w5, k5, s5, a5, q5, c5⟩ := read_end_loop_total fuel NULL_TOK c0 w0 (by omega)
    rw [read_end, e5]
    rcases c5 with c5 | ⟨c5, d5⟩
    swap
    · rw [attempt_read_some _ (by rw [c5]; decide)]
      exact ⟨_, rfl, Or.inr (Or.inl ⟨he', by rw [c5]; decide, by rw [q5, q0]⟩)⟩
    obtain ⟨t5, x5⟩ := r5
    simp only at c5 w5 k5 s5 a5 q5
    subst c5
    rw [attempt_read_null]
    obtain ⟨r6, e6, w6, s6, a6, q6, c6⟩ := read_symbol_total fuel x5 w5 (by omega)
    rw [e6]
    rcases c6 with ⟨c6, d6⟩ | ⟨c6, d6⟩
    swap
    · rw [attempt_read_some _ (by rw [c6]; decide)]
      exact ⟨_, rfl, Or.inr (Or.inl ⟨he', by rw [c6]; decide, by rw [q6, q5, q0]⟩)⟩
    obtain ⟨t6, x6⟩ := r6
    simp only at c6 d6 w6 s6 a6 q6
    subst c6
    rw [attempt_read_null]
    obtain ⟨r7, e7, w7, s7, a7, q7, c7⟩ := read_digit_total fuel x6 w6 (by omega)
    rw [e7]
    rcases c7 with ⟨c7, d7⟩ | ⟨c7, d7⟩
    swap
    · rw [attempt_read_some _ (by rw [c7]; decide)]
      exact ⟨_, rfl, Or.inr (Or.inl ⟨he', by rw [c7]; decide, by rw [q7, q6, q5, q0]⟩)⟩
    obtain ⟨t7, x7⟩ := r7
    simp only at c7 d7 w7 s7 a7 q7
    subst c7
    rw [attempt_read_null]
    obtain ⟨r8, e8, w8, s8, a8, c8⟩ := read_block_total fuel x7 w7 (by omega)
    rw [e8]
    rcases c8 with ⟨c8, d8⟩ | ⟨c8, d8⟩ | ⟨c8, d8, sp, f8⟩
    · obtain ⟨t8, x8⟩ := r8
      simp only at c8 d8 w8 s8 a8
      subst c8
      rw [attempt_read_null]
      exact ⟨_, rfl, Or.inr (Or.inl ⟨he', by simp [ERR_TOK, TOK_TYPE],
        by simp [d8, q7, q6, q5, q0]⟩)⟩
    · rw [attempt_read_some _ (by rw [c8]; decide)]
      exact ⟨_, rfl, Or.inr (Or.inl ⟨he', by rw [c8]; decide, by rw [d8, q7, q6, q5, q0]⟩)⟩
    · rw [attempt_read_some _ (by rw [c8]; decide)]
      refine ⟨_, rfl, Or.inr (Or.inr ⟨he', c8, sp, ?_⟩)⟩
      rw [f8]
      have hq7 : x7.tok_queue = ctx.tok_queue := by rw [q7, q6, q5, q0]
      exact add_token_queue_congr (add_token_queue_congr hq7 _) _

/-- The queue change of `lexer_get_token_queue`, for a result obtained with any
fuel. -/
theorem lexer_get_token_queue_any {fuel : Nat} {ctx : Lexer} {r : Token × Lexer}
    (hw : WFt ctx) (h : lexer_get_token fuel ctx = some r) :
    (is_empty_token_queue ctx = false ∧ r = remove_token_queue ctx) ∨
    (is_empty_token_queue ctx = true ∧ r.1.type ≠ TokenType.TOK_BLK_OPEN ∧
      r.2.tok_queue = ctx.tok_queue) ∨
    (is_empty_token_queue ctx = true ∧
      r.1 = { type := TokenType.TOK_BLK_OPEN, i := 0, sp := 0 } ∧
      ∃ sp, r.2.tok_queue =
        (add_token_queue (add_token_queue ctx { type := TokenType.TOK_STR, i := 0, sp := sp })
          { type := TokenType.TOK_BLK_CLS, i := 0, sp := 0 }).tok_queue) := by
  obtain ⟨r', e, hp⟩ := lexer_get_token_queue (max fuel (avail ctx + 1)) ctx hw (by omega)
  have := lexer_get_token_mono (Nat.le_max_left fuel (avail ctx + 1)) h
  rw [this] at e
  injection e with e
  rw [e]; exact hp


/-! ## The queue is first in, first out -/


theorem queue_contents_congr {c c' : Lexer} (h : c'.tok_queue = c.tok_queue) :
    queue_contents c' = queue_contents c := by
  unfold queue_contents; rw [queued_congr h, h]

theorem qwf_congr {c c' : Lexer} (h : c'.tok_queue = c.tok_queue) (hq : QWF c) : QWF c' := by
  unfold QWF at *; rw [h]; exact hq

theorem qwf_of_qinv {c : Lexer} (hq : QInv c) : QWF c := ⟨hq.1, hq.2.1, hq.2.2.1⟩

theorem queue_contents_length (c : Lexer) : (queue_contents c).length = queued c := by
  simp [queue_contents]

theorem is_empty_iff_queued {c : Lexer} (hq : QWF c) :
    is_empty_token_queue c = true ↔ queued c = 0 := by
  obtain ⟨h1, h2, -⟩ := hq
  simp only [is_empty_token_queue, decide_eq_true_eq, queued, QUEUE_LEN] at *
  omega

/-- Enqueuing on a queue that holds fewer than 15 tokens appends the token to the
contents: no waiting token is overwritten, and the queue is not empty. -/
theorem queue_push {c : Lexer} (t : Token) (hq : QWF c) (hn : queued c < 15) :
    QWF (add_token_queue c t) ∧ queued (add_token_queue c t) = queued c + 1 ∧
    queue_contents (add_token_queue c t) = queue_contents c ++ [t] ∧
    is_empty_token_queue (add_token_queue c t) = false := by
  obtain ⟨h1, h2, h3⟩ := hq
  have hcnt : queued (add_token_queue c t) = queued c + 1 := by
    simp only [queued, add_token_queue, QUEUE_LEN] at *
    omega
  have hq' : QWF (add_token_queue c t) :=
    ⟨h1, Nat.mod_lt _ (by decide), by simp [add_token_queue, h3]⟩
  refine ⟨hq', hcnt, ?_, ?_⟩
  · unfold queue_contents
    rw [hcnt, List.range_succ, List.map_append, List.map_singleton]
    congr 1
    · apply List.map_congr_left
      intro j hj
      have hj' : j < queued c := List.mem_range.mp hj
      have hne : c.tok_queue.back ≠ (c.tok_queue.front + j) % QUEUE_LEN := by
        simp only [queued, QUEUE_LEN] at *
        omega
      simp only [add_token_queue, List.getD_eq_getElem?_getD, List.getElem?_set_ne hne]
    · have hidx : (c.tok_queue.front + queued c) % QUEUE_LEN = c.tok_queue.back := by
        simp only [queued, QUEUE_LEN] at *
        omega
      simp only [add_token_queue, hidx, List.getD_eq_getElem?_getD]
      rw [List.getElem?_set_self (by rw [h3]; exact h2)]
      rfl
  · have := (is_empty_iff_queued hq').not
    simp only [Bool.not_eq_true] at this
    rw [this, hcnt]
    omega

/-- Dequeuing from a queue that is not empty returns the oldest token and leaves
the others, in order. -/
theorem queue_pop {c : Lexer} (hq : QWF c) (he : is_empty_token_queue c = false) :
    QWF (remove_token_queue c).2 ∧
    queue_contents c = (remove_token_queue c).1 :: queue_contents (remove_token_queue c).2 := by
  obtain ⟨h1, h2, h3⟩ := hq
  have hpos : 0 < queued c := by
    simp only [is_empty_token_queue, decide_eq_false_iff_not, queued, QUEUE_LEN] at *
    omega
  have hcnt : queued c = queued (remove_token_queue c).2 + 1 := by
    simp only [is_empty_token_queue, decide_eq_false_iff_not, queued, remove_token_queue,
      QUEUE_LEN] at *
    omega
  refine ⟨⟨Nat.mod_lt _ (by decide), h2, h3⟩, ?_⟩
  unfold queue_contents
  rw [hcnt, List.range_succ_eq_map, List.map_cons, List.map_map]
  congr 1
  · simp only [remove_token_queue, Nat.add_zero, Nat.mod_eq_of_lt h1]
  · apply List.map_congr_left
    intro j _
    have hidx : ((c.tok_queue.front + 1) % QUEUE_LEN + j) % QUEUE_LEN =
        (c.tok_queue.front + (j + 1)) % QUEUE_LEN := by
      simp only [QUEUE_LEN]; omega
    simp only [Function.comp, remove_token_queue, hidx]



theorem get_token_dequeue {ctx : Lexer} (fuel : Nat) (he : is_empty_token_queue ctx = false) :
    lexer_get_token fuel ctx = some (remove_token_queue ctx) := by
  simp only [lexer_get_token, he, if_true]

/-- Successive calls return the contents of the queue, oldest first, and change
nothing but `front`. -/
theorem queue_drain (fuel : Nat) :
    ∀ (ts : List Token) (c : Lexer), QWF c → queue_contents c = ts →
      ∃ c', lex_tokens fuel ts.length c = some (ts, c') ∧ c'.input_buf = c.input_buf ∧
        c'.line = c.line ∧ c'.col = c.col ∧ c'.text_buf = c.text_buf ∧
        c'.err_sink = c.err_sink ∧ c'.tok_queue.back = c.tok_queue.back ∧
        c'.tok_queue.toks = c.tok_queue.toks ∧ is_empty_token_queue c' = true := by
  intro ts
  induction ts with
  | nil =>
    intro c hq hc
    have h0 : queued c = 0 := by rw [← queue_contents_length, hc]; rfl
    exact ⟨c, rfl, rfl, rfl, rfl, rfl, rfl, rfl, rfl, (is_empty_iff_queued hq).mpr h0⟩
  | cons t ts ih =>
    intro c hq hc
    have hpos : queued c ≠ 0 := by
      rw [← queue_contents_length, hc]; simp
    have he : is_empty_token_queue c = false := by
      have := (is_empty_iff_queued hq).not.mpr hpos
      simpa using this
    obtain ⟨q1, q2⟩ := queue_pop hq he
    rw [hc] at q2
    injection q2 with q3 q4
    obtain ⟨c', e1, e2, e3, e4, e5, e6, e7, e8, e9⟩ := ih (remove_token_queue c).2 q1 q4.symm
    refine ⟨c', ?_, e2, e3, e4, e5, e6, e7, e8, e9⟩
    simp only [List.length_cons, lex_tokens, get_token_dequeue fuel he, e1, q3]

/-- After a call that found the queue empty and returned BlockOpen, the queue
holds a String token and the BlockClose token, in this order. -/
theorem block_then_queue {input : List Nat} {ctx : Lexer} {fuel : Nat} {r : Token × Lexer}
    (hreach : Reachable input ctx) (he : is_empty_token_queue ctx = true)
    (h : lexer_get_token fuel ctx = some r) (ht : r.1.type = TokenType.TOK_BLK_OPEN) :
    QWF r.2 ∧ ∃ sp, queue_contents r.2 =
      [{ type := TokenType.TOK_STR, i := 0, sp := sp },
       { type := TokenType.TOK_BLK_CLS, i := 0, sp := 0 }] := by
  obtain ⟨i1, i2, -⟩ := reachable_inv hreach
  have hq := qwf_of_qinv i2
  have h0 := (is_empty_iff_queued hq).mp he
  rcases lexer_get_token_queue_any i1 h with ⟨c1, -⟩ | ⟨-, c2, -⟩ | ⟨-, -, sp, c3⟩
  · rw [he] at c1; exact absurd c1 (by decide)
  · exact absurd ht c2
  · obtain ⟨a1, a2, a3, -⟩ := queue_push { type := TokenType.TOK_STR, i := 0, sp := sp } hq
      (by omega)
    obtain ⟨b1, b2, b3, -⟩ := queue_push { type := TokenType.TOK_BLK_CLS, i := 0, sp := 0 } a1
      (by omega)
    refine ⟨qwf_congr c3 b1, sp, ?_⟩
    have hnil : queue_contents ctx = [] := by
      apply List.eq_nil_of_length_eq_zero
      rw [queue_contents_length, h0]
    rw [queue_contents_congr c3, b3, a3, hnil]
    rfl


/-! ## Peeks of the byte source -/


/-- A peek at an offset whose byte is buffered changes nothing and returns that
byte. -/
theorem peekn_buffered {ctx : Lexer} (hg : Good ctx) (i : Nat)
    (hlt : ctx.input_buf.pos + i < ctx.input_buf.len) :
    (peekn_char ctx i).2 = ctx ∧ to_char (peekn_char ctx i).1 = (unread ctx).getD i EOF_CHAR := by
  have h1 := hg.buf_len
  have h2 := hg.len_le
  have hmod : (ctx.input_buf.pos + i) % U32 = ctx.input_buf.pos + i := by
    apply Nat.mod_eq_of_lt
    simp only [U32, BUF_LEN] at *
    omega
  have hv : peekn_char ctx i = (ctx.input_buf.buf.getD (ctx.input_buf.pos + i) 0, ctx) := by
    unfold peekn_char
    simp only [hmod, if_pos hlt]
  rw [hv]
  refine ⟨rfl, ?_⟩
  have hil : i < ctx.input_buf.len - ctx.input_buf.pos := by omega
  have hib : ctx.input_buf.pos + i < ctx.input_buf.buf.length := by omega
  have hlen : i < (((ctx.input_buf.buf.drop ctx.input_buf.pos).take
      (ctx.input_buf.len - ctx.input_buf.pos)).map to_char).length := by
    simp only [List.length_map, List.length_take, List.length_drop]
    omega
  unfold unread
  simp only [List.getD_eq_getElem?_getD, List.getElem?_append_left hlen, List.getElem?_map,
    List.getElem?_take, hil, if_true, List.getElem?_drop, List.getElem?_eq_getElem hib,
    Option.map_some', Option.getD_some]

theorem headD_eq_getD_zero (l : List Int) (d : Int) : l.headD d = l.getD 0 d := by
  cases l <;> rfl

/-- The peeks that are right: at offset 0, at a buffered offset, and at any
offset once the end of the stream has been seen. -/
theorem peek_ok {ctx : Lexer} (hg : Good ctx) {i : Nat} (hi : i < BUF_LEN)
    (hc : i = 0 ∨ ctx.input_buf.pos + i < ctx.input_buf.len ∨ ctx.input_buf.eof = true) :
    to_char (peekn_char ctx i).1 = (unread ctx).getD i EOF_CHAR ∧ Good (peekn_char ctx i).2 ∧
    unread (peekn_char ctx i).2 = unread ctx := by
  rcases hc with h0 | hb | he
  · subst h0
    obtain ⟨p1, p2, -, p4⟩ := peekn_zero_good hg
    exact ⟨by rw [p1, headD_eq_getD_zero], p2, p4⟩
  · obtain ⟨q1, q2⟩ := peekn_buffered hg i hb
    rw [q1]
    exact ⟨q2, hg, rfl⟩
  · obtain ⟨q1, q2⟩ := peekn_static hg he i hi
    rw [q1]
    exact ⟨q2, hg, rfl⟩

/-- The guard of `peekn_char`: at an offset `i > 0` with at most `i` bytes
buffered, the sentinel is returned and nothing is read. -/
theorem peek_guard {ctx : Lexer} (hg : Good ctx) {i : Nat} (hi : i < BUF_LEN) (h0 : 0 < i)
    (hl : ctx.input_buf.len ≤ i) : peekn_char ctx i = (EOF_CHAR, ctx) := by
  have h3 := hg.pos_le
  have hmod : (ctx.input_buf.pos + i) % U32 = ctx.input_buf.pos + i := by
    apply Nat.mod_eq_of_lt
    simp only [U32, BUF_LEN] at *
    omega
  have hnlt : ¬ ctx.input_buf.pos + i < ctx.input_buf.len := by omega
  unfold peekn_char
  simp only [hmod, if_neg hnlt, h0, hl, and_self, or_true, if_true]

theorem peekreach_inv {input : List Nat} {c : Lexer} (h : PeekReach input c) :
    Good c ∧ ∃ w, input.map byte_to_char = w ++ unread c := by
  induction h with
  | init => exact ⟨good_init input, [], by rw [unread_init]; rfl⟩
  | peek _ ih =>
    obtain ⟨g, w, hw⟩ := ih
    obtain ⟨-, p2, -, p4⟩ := peekn_zero_good g
    exact ⟨p2, w, by rw [p4]; exact hw⟩
  | peek_at i _ hi hc ih =>
    obtain ⟨g, w, hw⟩ := ih
    obtain ⟨-, p2, p3⟩ := peek_ok g hi (Or.inr hc)
    exact ⟨p2, w, by rw [p3]; exact hw⟩
  | next _ hne ih =>
    obtain ⟨g, w, hw⟩ := ih
    rename_i c0 _
    cases hu : unread c0 with
    | nil => exact absurd hu hne
    | cons x R =>
      obtain ⟨-, n2, n3, -⟩ := next_char_good g hu
      exact ⟨n2, w ++ [x], by rw [n3, hw, hu]; simp⟩

/-- Successive `next_char` calls return the unread characters in order. -/
theorem next_chars_take : ∀ (n : Nat) (c : Lexer), Good c → n ≤ (unread c).length →
    next_chars n c = (unread c).take n := by
  intro n
  induction n with
  | zero => intro c _ _; rfl
  | succ n ih =>
    intro c g hn
    cases hu : unread c with
    | nil => rw [hu] at hn; simp at hn
    | cons x R =>
      obtain ⟨n1, n2, n3, -⟩ := next_char_good g hu
      rw [hu] at hn
      simp only [List.length_cons] at hn
      simp only [next_chars, List.take_succ_cons]
      rw [n1, ih _ n2 (by rw [n3]; omega), n3]



/-- Once the end-of-stream flag is set and the buffer is exhausted, a peek at
an offset that does not wrap the 32-bit cursor returns the sentinel and changes
nothing. -/
theorem peekn_sticky {ctx : Lexer} (he : ctx.input_buf.eof = true)
    (hge : ctx.input_buf.len ≤ ctx.input_buf.pos) (i : Nat)
    (hU : ctx.input_buf.pos + i < U32) : peekn_char ctx i = (EOF_CHAR, ctx) := by
  have hmod : (ctx.input_buf.pos + i) % U32 = ctx.input_buf.pos + i := Nat.mod_eq_of_lt hU
  have hnlt : ¬ ctx.input_buf.pos + i < ctx.input_buf.len := by omega
  unfold peekn_char
  simp only [hmod, if_neg hnlt, he, true_or, if_true]

/-! ## Consistency of the buffer, Error included -/


/-- What `lexer_get_token` does after the blanks, on a consistent state at the
end of the stream, when it does not return EndOfInput: the state stays
consistent, Error included. -/
theorem dispatch_good {fuel : Nat} {ctx c0 : Lexer} {r : Token × Lexer}
    (hq : is_empty_token_queue ctx = true)
    (hw : read_while fuel ctx isblank false = some c0) (hg : Good c0) (hp : Peeked c0)
    (he : c0.input_buf.eof = true) (h : lexer_get_token fuel ctx = some r)
    (h1 : r.1.type ≠ TokenType.TOK_EOF) :
    Good r.2 ∧ r.2.input_buf.eof = true ∧ Consumed c0 r.2 := by
  rw [lexer_get_token_dispatch hq hw hg hp] at h
  split_ifs at h with a1 a2 a3 a4
  · simp only [Option.some.injEq] at h
    rw [← h] at h1
    exact absurd rfl h1
  · simp only [Option.some.injEq] at h
    rw [← h]
    exact next_consumed_static hg he a1
  · simp only [Option.some.injEq] at h
    rw [← h]
    exact next_consumed_static hg he a1
  · simp only [Option.some.injEq] at h
    rw [← h]
    exact next_consumed_static hg he a1
  · cases hr1 : read_end fuel c0 with
    | none => simp [hr1, ATTEMPT_READ] at h
    | some t1 =>
      obtain ⟨g1, e1, k1⟩ := read_end_cons hg he hr1
      simp only [hr1, ATTEMPT_READ] at h
      split_ifs at h with b1
      · simp only [Option.some.injEq] at h
        rw [← h]; exact ⟨g1, e1, k1⟩
      · cases hr2 : read_symbol fuel t1.2 with
        | none => simp [hr2] at h
        | some t2 =>
          obtain ⟨g2, e2, k2⟩ := read_symbol_cons g1 e1 hr2
          simp only [hr2] at h
          split_ifs at h with b2
          · simp only [Option.some.injEq] at h
            rw [← h]; exact ⟨g2, e2, consumed_trans k1 k2⟩
          · cases hr3 : read_digit fuel t2.2 with
            | none => simp [hr3] at h
            | some t3 =>
              obtain ⟨g3, e3, k3⟩ := read_digit_cons g2 e2 hr3
              simp only [hr3] at h
              split_ifs at h with b3
              · simp only [Option.some.injEq] at h
                rw [← h]; exact ⟨g3, e3, consumed_trans k1 (consumed_trans k2 k3)⟩
              · cases hr4 : read_block fuel t3.2 with
                | none => simp [hr4] at h
                | some t4 =>
                  obtain ⟨g4, e4, k4⟩ := read_block_cons g3 e3 hr4
                  have k04 := consumed_trans k1 (consumed_trans k2 (consumed_trans k3 k4))
                  simp only [hr4] at h
                  split_ifs at h with b4
                  · simp only [Option.some.injEq] at h
                    rw [← h]
                    exact ⟨g4, e4, k04⟩
                  · simp only [Option.some.injEq] at h
                    rw [← h]
                    obtain ⟨-, p2, -, -⟩ := peekn_zero_good g4
                    have hib : (PARSEERROR (peek_char t4.2).2
                        (ErrMsg.cannot_handle (peek_char t4.2).1)).input_buf =
                        (peekn_char t4.2 0).2.input_buf := rfl
                    refine ⟨good_congr hib p2, ?_, ?_⟩
                    · exact peekn_eof_flag e4 0
                    · exact consumed_congr_right (consumed_trans k04 (peek_consumed g4)) hib
                        (by simp) (by simp)

/-- One call of `lexer_get_token` that does not return EndOfInput, on a
consistent state with less than a buffer-load of input left. -/
theorem lexer_get_token_good {fuel : Nat} {ctx : Lexer} {r : Token × Lexer} (hg : Good ctx)
    (hs : Small ctx) (h : lexer_get_token fuel ctx = some r)
    (h1 : r.1.type ≠ TokenType.TOK_EOF) :
    Good r.2 ∧ Small r.2 := by
  by_cases hq : is_empty_token_queue ctx = true
  · cases hw : read_while fuel ctx isblank false with
    | none =>
      simp only [lexer_get_token, hq, hw] at h
      simp at h
    | some c0 =>
      obtain ⟨g0, p0, -⟩ := read_while_cons hg hw
      have e0 := read_while_small hs hw
      obtain ⟨g, e, -⟩ := dispatch_good hq hw g0 p0 e0 h h1
      exact ⟨g, Or.inl e⟩
  · have hq' : is_empty_token_queue ctx = false := by simpa using hq
    simp only [lexer_get_token, hq', if_true, Option.some.injEq] at h
    rw [← h]
    have hib : (remove_token_queue ctx).2.input_buf = ctx.input_buf := rfl
    refine ⟨good_congr hib hg, ?_⟩
    unfold Small
    rw [hib]
    exact hs

/-- Any number of calls none of which returns EndOfInput. -/
theorem lex_tokens_good {fuel : Nat} :
    ∀ (k : Nat) (ctx : Lexer) (ts : List Token) (ctx' : Lexer), Good ctx → Small ctx →
      lex_tokens fuel k ctx = some (ts, ctx') →
      (∀ t ∈ ts, t.type ≠ TokenType.TOK_EOF) → Good ctx' ∧ Small ctx' := by
  intro k
  induction k with
  | zero =>
    intro ctx ts ctx' hg hs h _
    simp only [lex_tokens, Option.some.injEq, Prod.mk.injEq] at h
    rw [← h.2]
    exact ⟨hg, hs⟩
  | succ k ih =>
    intro ctx ts ctx' hg hs h hok
    simp only [lex_tokens] at h
    cases hr : lexer_get_token fuel ctx with
    | none => simp [hr] at h
    | some r =>
      simp only [hr] at h
      cases hrs : lex_tokens fuel k r.2 with
      | none => simp [hrs] at h
      | some rs =>
        simp only [hrs, Option.some.injEq, Prod.mk.injEq] at h
        obtain ⟨hts, hc⟩ := h
        have hr1 := hok r.1 (by rw [← hts]; exact List.mem_cons_self _ _)
        obtain ⟨g1, s1⟩ := lexer_get_token_good hg hs hr hr1
        have hrs' : lex_tokens fuel k r.2 = some (rs.1, ctx') := by rw [hrs, ← hc]
        exact ih r.2 rs.1 ctx' g1 s1 hrs'
          (fun t ht => hok t (by rw [← hts]; exact List.mem_cons_of_mem _ ht))

/-- The states at the end of runs are reachable. -/
theorem lex_tokens_reachable {input : List Nat} {fuel : Nat} :
    ∀ (k : Nat) (ctx : Lexer) (ts : List Token) (ctx' : Lexer), Reachable input ctx →
      lex_tokens fuel k ctx = some (ts, ctx') → Reachable input ctx' := by
  intro k
  induction k with
  | zero =>
    intro ctx ts ctx' hr h
    simp only [lex_tokens, Option.some.injEq, Prod.mk.injEq] at h
    rw [← h.2]; exact hr
  | succ k ih =>
    intro ctx ts ctx' hreach h
    simp only [lex_tokens] at h
    cases hr : lexer_get_token fuel ctx with
    | none => simp [hr] at h
    | some r =>
      simp only [hr] at h
      cases hrs : lex_tokens fuel k r.2 with
      | none => simp [hrs] at h
      | some rs =>
        simp only [hrs, Option.some.injEq, Prod.mk.injEq] at h
        have hrs' : lex_tokens fuel k r.2 = some (rs.1, ctx') := by rw [hrs, ← h.2]
        exact ih r.2 rs.1 ctx' (Reachable.step hreach hr) hrs'


/-! ## Blanks skipped inside the buffer -/


/-- The loop of `read_while` started before or after the peek it begins with. -/
theorem read_while_loop_peek (p : Int → Bool) (add : Bool) (fuel : Nat) {ctx : Lexer}
    (hw : WFt ctx) :
    read_while_loop p add fuel ctx = read_while_loop p add fuel (peekn_char ctx 0).2 := by
  cases fuel with
  | zero => rfl
  | succ f =>
    simp only [read_while_loop, peek_char_fst, peek_char_snd, peek0_value_stable hw]

theorem next_char_skip {ctx : Lexer} (hlt : ctx.input_buf.pos < ctx.input_buf.len)
    (hU : ctx.input_buf.len ≤ BUF_LEN) :
    (next_char ctx).2 =
      skip_state ctx [to_char (ctx.input_buf.buf.getD ctx.input_buf.pos 0)] := by
  have h := next_char_in_buffer hlt hU
  have e : (next_char ctx).2 =
      { add_text_buf (next_char ctx).2 (next_char ctx).1 with
        text_buf := (next_char ctx).2.text_buf } := rfl
  rw [e, h, next_char_text_buf]
  rfl

theorem skip_state_cons (ctx : Lexer) (c : Int) (w : List Int) :
    skip_state ctx (c :: w) = skip_state (skip_state ctx [c]) w := by
  unfold skip_state
  rw [scan_state_cons]
  rfl

/-- The loop of `read_while`, not recording, over buffered characters `w` that
all satisfy the predicate: one unit of fuel per character, and the state
afterwards is `skip_state ctx w`. -/
theorem read_while_loop_skip_buffered (p : Int → Bool) :
    ∀ (w : List Int) (ctx : Lexer) (f : Nat),
      ctx.input_buf.pos + w.length ≤ ctx.input_buf.len → ctx.input_buf.len ≤ BUF_LEN →
      ((ctx.input_buf.buf.drop ctx.input_buf.pos).take w.length).map to_char = w →
      (∀ c ∈ w, 0 ≤ c ∧ p c = true) →
      read_while_loop p false (w.length + f) ctx =
        read_while_loop p false f (skip_state ctx w) := by
  intro w
  induction w with
  | nil =>
    intro ctx f _ _ _ _
    have : skip_state ctx [] = ctx := by simp [skip_state, scan_state, advance]
    simp [this]
  | cons c w ih =>
    intro ctx f hpos hlen hbuf hw
    simp only [List.length_cons] at hpos
    have hlt : ctx.input_buf.pos < ctx.input_buf.len := by omega
    obtain ⟨x, xs, hd, hx, hxs⟩ : ∃ x xs, ctx.input_buf.buf.drop ctx.input_buf.pos = x :: xs ∧
        to_char x = c ∧ (xs.take w.length).map to_char = w := by
      cases hd : ctx.input_buf.buf.drop ctx.input_buf.pos with
      | nil => rw [hd] at hbuf; simp at hbuf
      | cons x xs =>
        rw [hd] at hbuf
        simp only [List.length_cons, List.take_succ_cons, List.map_cons, List.cons.injEq] at hbuf
        exact ⟨x, xs, rfl, hbuf.1, hbuf.2⟩
    have hgx : ctx.input_buf.buf.getD ctx.input_buf.pos 0 = x := by
      have := congrArg (fun l => l.head?) hd
      simp only [List.head?_drop, List.head?_cons] at this
      simp [List.getD_eq_getElem?_getD, this]
    have hdx : ctx.input_buf.buf.drop (ctx.input_buf.pos + 1) = xs := by
      have := congrArg List.tail hd
      simpa [List.tail_drop] using this
    have hc : to_char (ctx.input_buf.buf.getD ctx.input_buf.pos 0) = c := by rw [hgx, hx]
    have hcw := hw c (List.mem_cons_self _ _)
    have hp := peekn_zero_in_buffer hlt hlen
    have hstep : (next_char ctx).2 = skip_state ctx [c] := by
      rw [next_char_skip hlt hlen, hc]
    have hih := ih (skip_state ctx [c]) f
      (by simp only [skip_state, scan_state, List.length_singleton]; omega)
      (by simpa [skip_state, scan_state] using hlen)
      (by simpa [skip_state, scan_state, hdx] using hxs)
      (fun y hy => hw y (List.mem_cons_of_mem _ hy))
    rw [skip_state_cons, ← hih]
    have hf : (c :: w).length + f = (w.length + f) + 1 := by
      simp only [List.length_cons]; omega
    have hneg : ¬ (c < 0 ∨ p c = false) := by
      intro h
      rcases h with h | h
      · omega
      · rw [hcw.2] at h; exact absurd h (by decide)
    rw [hf]
    simp only [read_while_loop, peek_char_fst, peek_char_snd, hp, hc, if_neg hneg,
      Bool.false_eq_true, if_false, hstep]


/-! ## An unrecognised byte at the end of the buffer -/


set_option maxRecDepth 100000 in
theorem blanks_brace_buffer :
    (peekn_char (lexer_init blanks_brace_input) 0).2.input_buf.pos + 1023 ≤
      (peekn_char (lexer_init blanks_brace_input) 0).2.input_buf.len ∧
    (peekn_char (lexer_init blanks_brace_input) 0).2.input_buf.len ≤ BUF_LEN ∧
    (((peekn_char (lexer_init blanks_brace_input) 0).2.input_buf.buf.drop
        (peekn_char (lexer_init blanks_brace_input) 0).2.input_buf.pos).take
      1023).map to_char = List.replicate 1023 32 := by
  decide!

set_option maxRecDepth 100000 in
theorem blanks_brace_stop :
    read_while_loop isblank false 1
        (skip_state (peekn_char (lexer_init blanks_brace_input) 0).2
          (List.replicate 1023 32)) =
      some (skip_state (peekn_char (lexer_init blanks_brace_input) 0).2
        (List.replicate 1023 32)) := by
  decide!

set_option maxRecDepth 100000 in
theorem blanks_brace_end :
    (ATTEMPT_READ
        (read_block 1 (skip_state (peekn_char (lexer_init blanks_brace_input) 0).2
          (List.replicate 1023 32)))
        (fun c8 =>
          some (ERR_TOK,
            PARSEERROR (peek_char c8).2 (ErrMsg.cannot_handle (peek_char c8).1)))).map
      (fun r => (r.1, r.2.err_sink, r.2.input_buf.eof, r.2.input_buf.len, r.2.input_buf.pos,
        is_empty_token_queue r.2)) =
      some (ERR_TOK, [{ line := 1, col := 1024, msg := ErrMsg.cannot_handle (-1) }], true, 0, 0,
        true) := by
  decide!


/-- On `blanks_brace_input` the first call reports 'cannot handle character' at
1:1024, with the sentinel as the character, returns Error, and leaves a lexer
that is done: the `{` has been dropped by the refill. -/
theorem blanks_brace_error (fuel : Nat) (hfuel : 1024 ≤ fuel) :
    ∃ c1, lexer_get_token fuel (lexer_init blanks_brace_input) = some (ERR_TOK, c1) ∧
      c1.err_sink = [{ line := 1, col := 1024, msg := ErrMsg.cannot_handle (-1) }] ∧
      Done c1 ∧ c1.input_buf.pos = 0 := by
  have hbuf := blanks_brace_buffer
  have hall : ∀ c ∈ List.replicate 1023 (32 : Int), 0 ≤ c ∧ isblank c = true := by
    intro c hc
    rw [List.eq_of_mem_replicate hc]
    decide
  have hloop := read_while_loop_skip_buffered isblank (List.replicate 1023 32)
    (peekn_char (lexer_init blanks_brace_input) 0).2 1
    (by rw [List.length_replicate]; exact hbuf.1) hbuf.2.1
    (by rw [List.length_replicate]; exact hbuf.2.2) hall
  simp only [List.length_replicate, Nat.reduceAdd] at hloop
  have hrw : read_while 1024 (lexer_init blanks_brace_input) isblank false =
      some (skip_state (peekn_char (lexer_init blanks_brace_input) 0).2
        (List.replicate 1023 32)) := by
    unfold read_while
    rw [read_while_loop_peek isblank false 1024 (wft_init _), hloop, blanks_brace_stop]
    rfl
  have hu0 : unread (lexer_init blanks_brace_input) = List.replicate 1023 32 ++ [123] := by
    rw [unread_init, blanks_brace_input, List.map_append, List.map_replicate]
    rfl
  obtain ⟨c0, e1, e2, e3, e4, -⟩ := skip_blanks_good (List.replicate 1023 32) 1024
    (lexer_init blanks_brace_input) [123] (good_init _) hu0
    (by intro c hc; left; exact List.eq_of_mem_replicate hc) rfl
    (by rw [List.length_replicate]; decide)
  have hc0 : c0 = skip_state (peekn_char (lexer_init blanks_brace_input) 0).2
      (List.replicate 1023 32) := by
    rw [e1] at hrw
    exact Option.some.inj hrw
  subst hc0
  have hend := blanks_brace_end
  cases hr : ATTEMPT_READ
      (read_block 1 (skip_state (peekn_char (lexer_init blanks_brace_input) 0).2
        (List.replicate 1023 32)))
      (fun c8 =>
        some (ERR_TOK, PARSEERROR (peek_char c8).2 (ErrMsg.cannot_handle (peek_char c8).1))) with
  | none => rw [hr] at hend; simp only [Option.map_none', reduceCtorEq] at hend
  | some r =>
    rw [hr] at hend
    simp only [Option.map_some', Option.some.injEq, Prod.mk.injEq] at hend
    obtain ⟨h1, h2, h3, h4, h5, h6⟩ := hend
    have hr' := ATTEMPT_READ_mono
      (fun x hx => read_block_mono (by decide : 1 ≤ 1024) hx) (fun _ _ hx => hx) hr
    have hget : lexer_get_token 1024 (lexer_init blanks_brace_input) = some r := by
      rw [get_token_at_brace (by decide) (queue_init _) e1 e2 e3 e4, hr']
    refine ⟨r.2, ?_, h2, ⟨h3, by omega, h6⟩, h5⟩
    rw [lexer_get_token_mono hfuel hget, ← h1]

/-! ## The text arena only grows -/


theorem grew_refl (ctx : Lexer) : Grew ctx ctx := ⟨⟨[], by simp⟩, rfl⟩

theorem grew_trans {a b c : Lexer} (h1 : Grew a b) (h2 : Grew b c) : Grew a c := by
  obtain ⟨⟨e1, t1⟩, q1⟩ := h1
  obtain ⟨⟨e2, t2⟩, q2⟩ := h2
  exact ⟨⟨e1 ++ e2, by rw [t2, t1, List.append_assoc]⟩, by rw [q2, q1]⟩

theorem grew_of_frame {a b : Lexer} (ht : b.text_buf = a.text_buf)
    (hq : b.tok_queue = a.tok_queue) : Grew a b := ⟨⟨[], by simp [ht]⟩, hq⟩

theorem grew_peek (ctx : Lexer) (i : Nat) : Grew ctx (peekn_char ctx i).2 :=
  grew_of_frame (by simp) (by simp)

theorem grew_next (ctx : Lexer) : Grew ctx (next_char ctx).2 :=
  grew_of_frame (by simp) (by simp)

theorem terminated_append {tb : List Int} {sp : Nat} (e : List Int) (h : Terminated tb sp) :
    Terminated (tb ++ e) sp := by
  unfold Terminated at *
  have hlt : sp ≤ tb.length := by
    by_contra hc
    rw [List.drop_eq_nil_of_le (by omega)] at h
    simp at h
  rw [List.drop_append_of_le_length hlt]
  exact List.mem_append_left _ h

/-- The string at an offset where the arena holds a terminated string is not
changed when the arena grows. -/
theorem c_str_append {tb : List Int} {sp : Nat} (e : List Int) (h : Terminated tb sp) :
    c_str ((tb ++ e).drop sp) = c_str (tb.drop sp) := by
  unfold Terminated at h
  have hlt : sp ≤ tb.length := by
    by_contra hc
    rw [List.drop_eq_nil_of_le (by omega)] at h
    simp at h
  rw [List.drop_append_of_le_length hlt]
  unfold c_str
  exact takeWhile_append_of_exists e ⟨0, h, by simp⟩

/-- The loop of `read_while`: the arena grows, the queue is left alone. -/
theorem read_while_loop_grew (p : Int → Bool) (add : Bool) :
    ∀ (fuel : Nat) (ctx r : Lexer), read_while_loop p add fuel ctx = some r → Grew ctx r := by
  intro fuel
  induction fuel with
  | zero => intro ctx r h; simp [read_while_loop] at h
  | succ f ih =>
    intro ctx r h
    simp only [read_while_loop, peek_char_fst, peek_char_snd] at h
    split at h
    · simp only [Option.some.injEq] at h
      rw [← h]
      exact grew_peek ctx 0
    · have hg := ih _ r h
      refine grew_trans (grew_peek ctx 0) (grew_trans ?_ hg)
      split_ifs
      · exact ⟨⟨[to_char (peekn_char ctx 0).1], by simp⟩, by simp⟩
      · exact grew_next _

/-- Function `read_while`: the arena grows, by a string that ends with NUL when
the characters are recorded. -/
theorem read_while_grew {p : Int → Bool} {add : Bool} {fuel : Nat} {ctx r : Lexer}
    (h : read_while fuel ctx p add = some r) :
    Grew ctx r ∧ (add = true → ∃ w, r.text_buf = ctx.text_buf ++ w ++ [0]) := by
  unfold read_while at h
  cases hl : read_while_loop p add fuel ctx with
  | none => simp [hl] at h
  | some x =>
    obtain ⟨⟨e, he⟩, hq⟩ := read_while_loop_grew p add fuel ctx x hl
    simp only [hl, Option.map_some', Option.some.injEq] at h
    rw [← h]
    cases add with
    | false => exact ⟨⟨⟨e, he⟩, hq⟩, fun hc => absurd hc (by decide)⟩
    | true =>
      simp only [if_true]
      exact ⟨⟨⟨e ++ [0], by simp [he]⟩, by simp [hq]⟩, fun _ => ⟨e, by simp [he]⟩⟩

/-- The loop of `read_end` leaves arena and queue alone. -/
theorem read_end_loop_frame :
    ∀ (fuel : Nat) (tok : Token) (ctx : Lexer) (r : Token × Lexer),
      read_end_loop fuel tok ctx = some r →
      Grew ctx r.2 ∧ (r.1 = tok ∨ r.1 = END_TOK) := by
  intro fuel
  induction fuel with
  | zero => intro tok ctx r h; simp [read_end_loop] at h
  | succ f ih =>
    intro tok ctx r h
    simp only [read_end_loop, peek_char_fst, peek_char_snd] at h
    split at h
    · split at h
      · simp only [Option.some.injEq] at h
        rw [← h]
        exact ⟨grew_trans (grew_peek ctx 0) (grew_peek _ 0), Or.inl rfl⟩
      · obtain ⟨g, hc⟩ := ih _ _ r h
        refine ⟨grew_trans (grew_peek ctx 0) (grew_trans (grew_peek _ 0)
          (grew_trans (grew_next _) g)), Or.inr ?_⟩
        rcases hc with hc | hc <;> exact hc
    · simp only [Option.some.injEq] at h
      rw [← h]
      exact ⟨grew_peek ctx 0, Or.inl rfl⟩



theorem terminated_of_append (tb w : List Int) : Terminated (tb ++ w ++ [0]) tb.length := by
  unfold Terminated
  rw [List.append_assoc, List.drop_left]
  simp

/-- Function `read_symbol`: the arena grows; a String token is returned with
the offset at which the call found the arena, where a terminated string now
is. -/
theorem read_symbol_text {fuel : Nat} {ctx : Lexer} {r : Token × Lexer}
    (h : read_symbol fuel ctx = some r) :
    Grew ctx r.2 ∧
    (r.1 = NULL_TOK ∨
      (r.1 = { type := TokenType.TOK_STR, i := 0, sp := ctx.text_buf.length } ∧
        Terminated r.2.text_buf ctx.text_buf.length)) := by
  simp only [read_symbol, peek_char_fst, peek_char_snd] at h
  split at h
  · simp only [Option.some.injEq] at h
    rw [← h]
    exact ⟨grew_peek ctx 0, Or.inl rfl⟩
  · cases hw : read_while fuel (peekn_char ctx 0).2 isalnum true with
    | none => simp [hw] at h
    | some x =>
      simp only [hw, Option.map_some', Option.some.injEq] at h
      rw [← h]
      obtain ⟨g, ht⟩ := read_while_grew hw
      obtain ⟨w, hw'⟩ := ht rfl
      refine ⟨grew_trans (grew_peek ctx 0) g, Or.inr ⟨?_, ?_⟩⟩
      · simp [get_text_buf_len]
      · simp only [hw', peekn_char_text_buf]
        exact terminated_of_append _ _

/-- Function `read_digit` leaves the arena as it found it: the truncation
removes what the call itself appended, and nothing else. -/
theorem read_digit_text {fuel : Nat} {ctx : Lexer} {r : Token × Lexer}
    (h : read_digit fuel ctx = some r) :
    r.2.text_buf = ctx.text_buf ∧ r.2.tok_queue = ctx.tok_queue ∧
    (r.1 = NULL_TOK ∨ r.1.type = TokenType.TOK_INT) := by
  simp only [read_digit, peek_char_fst, peek_char_snd] at h
  split at h
  · simp only [Option.some.injEq] at h
    rw [← h]
    exact ⟨by simp, by simp, Or.inl rfl⟩
  · cases hw : read_while fuel (peekn_char ctx 0).2 isdigit true with
    | none => simp [hw] at h
    | some x =>
      simp only [hw, Option.map_some', Option.some.injEq] at h
      rw [← h]
      obtain ⟨⟨⟨e, he⟩, hq⟩, -⟩ := read_while_grew hw
      refine ⟨?_, ?_, Or.inr rfl⟩
      · simp only [set_text_buf_len, vectorChar_resize, get_text_buf_len, he,
          peekn_char_text_buf, List.take_left']
      · simp only [set_text_buf_len, hq, peekn_char_tok_queue]

/-- Function `read_punct` leaves arena and queue alone. -/
theorem read_punct_frame (ctx : Lexer) (type : TokenType) (s : List Int) (n : Nat) :
    Grew ctx (read_punct ctx type s n).2 ∧
    ((read_punct ctx type s n).1 = EOF_TOK ∨
      (read_punct ctx type s n).1 = { type := type, i := 0, sp := 0 } ∨
      (read_punct ctx type s n).1 = NULL_TOK) := by
  simp only [read_punct, peek_char_fst, peek_char_snd]
  split_ifs
  · exact ⟨grew_peek ctx 0, Or.inl rfl⟩
  · refine ⟨grew_of_frame ?_ ?_, Or.inr (Or.inl rfl)⟩
    · simp [cmp_nextn]
    · simp
  · refine ⟨grew_of_frame ?_ ?_, Or.inr (Or.inr rfl)⟩
    · simp [cmp_nextn]
    · simp



/-- The loop of `read_block`: the arena grows; when the loop ends at the close
marker the growth ends with NUL and the body token and BlockClose have been
enqueued, in this order. -/
theorem read_block_loop_text (o b : Token) :
    ∀ (fuel : Nat) (ctx : Lexer) (r : Token × Lexer),
      read_block_loop o b fuel ctx = some r →
      (∃ e, r.2.text_buf = ctx.text_buf ++ e) ∧
      ((r.1 = ERR_TOK ∧ r.2.tok_queue = ctx.tok_queue) ∨
        (r.1 = o ∧ (∃ w, r.2.text_buf = ctx.text_buf ++ w ++ [0]) ∧
          r.2.tok_queue =
            (add_token_queue (add_token_queue ctx b)
              { type := TokenType.TOK_BLK_CLS, i := 0, sp := 0 }).tok_queue)) := by
  intro fuel
  induction fuel with
  | zero => intro ctx r h; simp [read_block_loop] at h
  | succ f ih =>
    intro ctx r h
    obtain ⟨⟨⟨e0, t0⟩, q0⟩, hcase⟩ :=
      read_punct_frame ctx TokenType.TOK_BLK_CLS block_close 3
    have ht0 : (read_punct ctx TokenType.TOK_BLK_CLS block_close 3).2.text_buf =
        ctx.text_buf := by
      have := (read_punct_frame ctx TokenType.TOK_BLK_CLS block_close 3).1
      simp only [read_punct, peek_char_fst, peek_char_snd]
      split_ifs <;> simp [cmp_nextn]
    simp only [read_block_loop, read_block_close] at h
    rcases hcase with hc | hc | hc
    · rw [hc, if_pos (by decide)] at h
      simp only [Option.some.injEq] at h
      rw [← h]
      exact ⟨⟨[], by simp [ht0]⟩, Or.inl ⟨rfl, by simp [q0]⟩⟩
    · rw [hc, if_neg (by decide), if_pos (by decide),
        read_block_finish_eq _ _ _ _ (by decide)] at h
      simp only [Option.some.injEq] at h
      rw [← h]
      refine ⟨⟨[0], by simp [add_token_queue, ht0]⟩, Or.inr ⟨rfl, ⟨[], ?_⟩, ?_⟩⟩
      · simp [add_token_queue, ht0]
      · exact add_token_queue_congr (add_token_queue_congr (by simp [q0]) _) _
    · rw [hc, if_neg (by decide), if_neg (by decide)] at h
      obtain ⟨⟨e, he⟩, hc2⟩ := ih _ r h
      have hbase : (add_text_buf
          (next_char (read_punct ctx TokenType.TOK_BLK_CLS block_close 3).2).2
          (next_char (read_punct ctx TokenType.TOK_BLK_CLS block_close 3).2).1).text_buf =
          ctx.text_buf ++
            [(next_char (read_punct ctx TokenType.TOK_BLK_CLS block_close 3).2).1] := by
        simp [ht0]
      have hqb : (add_text_buf
          (next_char (read_punct ctx TokenType.TOK_BLK_CLS block_close 3).2).2
          (next_char (read_punct ctx TokenType.TOK_BLK_CLS block_close 3).2).1).tok_queue =
          ctx.tok_queue := by
        simp [q0]
      rw [hbase] at he
      refine ⟨⟨(next_char (read_punct ctx TokenType.TOK_BLK_CLS block_close 3).2).1 :: e,
        by rw [he]; simp⟩, ?_⟩
      rcases hc2 with ⟨c1, c2⟩ | ⟨c1, ⟨w, c2⟩, c3⟩
      · exact Or.inl ⟨c1, by rw [c2, hqb]⟩
      · refine Or.inr ⟨c1, ⟨(next_char (read_punct ctx TokenType.TOK_BLK_CLS block_close 3).2).1
          :: w, by rw [c2, hbase]; simp⟩, ?_⟩
        rw [c3]
        exact add_token_queue_congr (add_token_queue_congr hqb _) _

/-- Function `read_block`: the arena grows; either the queue is left alone and
the token returned is not a String, or the token returned is not a String and
a String token with the offset at which the call found the arena, where a
terminated string now is, and BlockClose have been enqueued. -/
theorem read_block_text {fuel : Nat} {ctx : Lexer} {r : Token × Lexer}
    (h : read_block fuel ctx = some r) :
    (∃ e, r.2.text_buf = ctx.text_buf ++ e) ∧ r.1.type ≠ TokenType.TOK_STR ∧
    (r.2.tok_queue = ctx.tok_queue ∨
      (Terminated r.2.text_buf ctx.text_buf.length ∧
        r.2.tok_queue =
          (add_token_queue
            (add_token_queue ctx
              { type := TokenType.TOK_STR, i := 0, sp := ctx.text_buf.length })
            { type := TokenType.TOK_BLK_CLS, i := 0, sp := 0 }).tok_queue)) := by
  obtain ⟨⟨⟨e0, t0⟩, q0⟩, hcase⟩ := read_punct_frame ctx TokenType.TOK_BLK_OPEN block_open 3
  have ht0 : (read_punct ctx TokenType.TOK_BLK_OPEN block_open 3).2.text_buf =
      ctx.text_buf := by
    simp only [read_punct, peek_char_fst, peek_char_snd]
    split_ifs <;> simp [cmp_nextn]
  simp only [read_block, read_block_open] at h
  have hloop : ∀ o : Token, o.type ≠ TokenType.TOK_STR →
      read_block_loop o
        { type := TokenType.TOK_STR, i := 0,
          sp := get_text_buf_len (read_punct ctx TokenType.TOK_BLK_OPEN block_open 3).2 } fuel
        (read_punct ctx TokenType.TOK_BLK_OPEN block_open 3).2 = some r →
      (∃ e, r.2.text_buf = ctx.text_buf ++ e) ∧ r.1.type ≠ TokenType.TOK_STR ∧
      (r.2.tok_queue = ctx.tok_queue ∨
        (Terminated r.2.text_buf ctx.text_buf.length ∧
          r.2.tok_queue =
            (add_token_queue
              (add_token_queue ctx
                { type := TokenType.TOK_STR, i := 0, sp := ctx.text_buf.length })
              { type := TokenType.TOK_BLK_CLS, i := 0, sp := 0 }).tok_queue)) := by
    intro o ho hl
    obtain ⟨⟨e, he⟩, hc⟩ := read_block_loop_text _ _ fuel _ r hl
    rw [ht0] at he
    refine ⟨⟨e, he⟩, ?_⟩
    rcases hc with ⟨c1, c2⟩ | ⟨c1, ⟨w, c2⟩, c3⟩
    · exact ⟨by rw [c1]; decide, Or.inl (by rw [c2, q0])⟩
    · refine ⟨by rw [c1]; exact ho, Or.inr ⟨?_, ?_⟩⟩
      · rw [c2, ht0]
        exact terminated_of_append _ _
      · rw [c3]
        simp only [get_text_buf_len, ht0]
        exact add_token_queue_congr (add_token_queue_congr q0 _) _
  rcases hcase with hc | hc | hc
  · rw [hc] at h
    rw [if_neg (by decide)] at h
    exact hloop _ (by decide) h
  · rw [hc] at h
    rw [if_neg (by decide)] at h
    exact hloop _ (by decide) h
  · rw [hc, if_pos (by decide)] at h
    simp only [Option.some.injEq] at h
    rw [← h]
    exact ⟨⟨[], by simp [ht0]⟩, by simp [NULL_TOK, TOK_TYPE], Or.inl q0⟩



theorem attempt_char_cases {c : Lexer} {ch : Int} {ty : Token}
    {k : Lexer → Option (Token × Lexer)} {r : Token × Lexer}
    (h : ATTEMPT_READ_CHAR c ch ty k = some r) :
    (r.1 = ty ∧ Grew c r.2) ∨ k (peekn_char c 0).2 = some r := by
  simp only [ATTEMPT_READ_CHAR, peek_char_fst, peek_char_snd] at h
  split at h
  · simp only [Option.some.injEq] at h
    rw [← h]
    exact Or.inl ⟨rfl, grew_trans (grew_peek c 0) (grew_next _)⟩
  · exact Or.inr h

theorem attempt_read_cases {res : Option (Token × Lexer)}
    {k : Lexer → Option (Token × Lexer)} {r : Token × Lexer}
    (h : ATTEMPT_READ res k = some r) :
    (res = some r ∧ r.1.type ≠ TokenType.TOK_NULL) ∨
      ∃ t, res = some t ∧ t.1.type = TokenType.TOK_NULL ∧ k t.2 = some r := by
  cases res with
  | none => simp [ATTEMPT_READ] at h
  | some t =>
    simp only [ATTEMPT_READ] at h
    split at h
    · rename_i hne
      simp only [Option.some.injEq] at h
      rw [← h]
      exact Or.inl ⟨rfl, hne⟩
    · rename_i hne
      exact Or.inr ⟨t, rfl, by simpa using hne, h⟩

theorem textstep_of_grew {ctx c : Lexer} {r : Token × Lexer} (hg : Grew ctx c)
    (h : TextStep c r) : TextStep ctx r := by
  obtain ⟨⟨e0, t0⟩, q0⟩ := hg
  obtain ⟨⟨e, te⟩, hs, hq⟩ := h
  refine ⟨⟨e0 ++ e, by rw [te, t0, List.append_assoc]⟩, hs, ?_⟩
  rcases hq with hq | ⟨sp, h1, h2⟩
  · exact Or.inl (by rw [hq, q0])
  · refine Or.inr ⟨sp, h1, ?_⟩
    rw [h2]
    exact add_token_queue_congr (add_token_queue_congr q0 _) _

theorem textstep_frame {ctx : Lexer} {r : Token × Lexer} (hg : Grew ctx r.2)
    (ht : r.1.type ≠ TokenType.TOK_STR) : TextStep ctx r :=
  ⟨hg.1, fun h => absurd h ht, Or.inl hg.2⟩

/-- A call of `lexer_get_token` that finds the queue empty. -/
theorem lexer_get_token_text {fuel : Nat} {ctx : Lexer} {r : Token × Lexer}
    (he : is_empty_token_queue ctx = true) (h : lexer_get_token fuel ctx = some r) :
    TextStep ctx r := by
  unfold lexer_get_token at h
  rw [he] at h
  simp only [Bool.true_eq_false, if_false] at h
  cases hw : read_while fuel ctx isblank false with
  | none => simp [hw] at h
  | some c0 =>
    simp only [hw] at h
    have g0 := (read_while_grew hw).1
    refine textstep_of_grew g0 ?_
    rcases attempt_char_cases h with ⟨a1, a2⟩ | h
    · exact textstep_frame a2 (by rw [a1]; decide)
    refine textstep_of_grew (grew_peek c0 0) ?_
    rcases attempt_char_cases h with ⟨a1, a2⟩ | h
    · exact textstep_frame a2 (by rw [a1]; decide)
    refine textstep_of_grew (grew_peek _ 0) ?_
    rcases attempt_char_cases h with ⟨a1, a2⟩ | h
    · exact textstep_frame a2 (by rw [a1]; decide)
    refine textstep_of_grew (grew_peek _ 0) ?_
    rcases attempt_char_cases h with ⟨a1, a2⟩ | h
    · exact textstep_frame a2 (by rw [a1]; decide)
    refine textstep_of_grew (grew_peek _ 0) ?_
    rcases attempt_read_cases h with ⟨b1, -⟩ | ⟨t5, b1, -, h⟩
    · obtain ⟨g, hc⟩ := read_end_loop_frame _ _ _ _ b1
      exact textstep_frame g (by rcases hc with hc | hc <;> rw [hc] <;> decide)
    refine textstep_of_grew (read_end_loop_frame _ _ _ _ b1).1 ?_
    rcases attempt_read_cases h with ⟨b2, n2⟩ | ⟨t6, b2, -, h⟩
    · obtain ⟨g, hc⟩ := read_symbol_text b2
      rcases hc with hc | ⟨hc, ht⟩
      · rw [hc] at n2; exact absurd rfl n2
      · exact ⟨g.1, fun _ => by rw [hc]; exact ht, Or.inl g.2⟩
    refine textstep_of_grew (read_symbol_text b2).1 ?_
    rcases attempt_read_cases h with ⟨b3, -⟩ | ⟨t7, b3, -, h⟩
    · obtain ⟨g1, g2, hc⟩ := read_digit_text b3
      exact textstep_frame (grew_of_frame g1 g2)
        (by rcases hc with hc | hc <;> rw [hc] <;> decide)
    refine textstep_of_grew
      (grew_of_frame (read_digit_text b3).1 (read_digit_text b3).2.1) ?_
    rcases attempt_read_cases h with ⟨b4, -⟩ | ⟨t8, b4, -, h⟩
    · obtain ⟨g, hn, hq⟩ := read_block_text b4
      refine ⟨g, fun hs => absurd hs hn, ?_⟩
      rcases hq with hq | ⟨h1, h2⟩
      · exact Or.inl hq
      · exact Or.inr ⟨_, h1, h2⟩
    obtain ⟨g, -, hq⟩ := read_block_text b4
    simp only [Option.some.injEq] at h
    rw [← h]
    obtain ⟨e, te⟩ := g
    refine ⟨⟨e, by simp [te]⟩, fun hs => absurd hs (by simp [ERR_TOK, TOK_TYPE]), ?_⟩
    rcases hq with hq | ⟨h1, h2⟩
    · exact Or.inl (by simp [hq])
    · exact Or.inr ⟨_, by simpa using h1, by simpa using h2⟩



theorem queue_contents_of_empty {c : Lexer} (hq : QWF c) (he : is_empty_token_queue c = true) :
    queue_contents c = [] := by
  apply List.eq_nil_of_length_eq_zero
  rw [queue_contents_length]
  exact (is_empty_iff_queued hq).mp he

theorem textinv_init (input : List Nat) : TextInv (lexer_init input) := by
  intro t ht
  rw [queue_contents_of_empty (qwf_of_qinv (qinv_init input)) (queue_init input)] at ht
  simp at ht

/-- One call: the arena grows, the String tokens that wait in the queue still
point at terminated strings, and so does a String token that is returned. -/
theorem call_text {fuel : Nat} {ctx : Lexer} {r : Token × Lexer} (hq : QWF ctx)
    (hi : TextInv ctx) (h : lexer_get_token fuel ctx = some r) :
    (∃ e, r.2.text_buf = ctx.text_buf ++ e) ∧ TextInv r.2 ∧
    (r.1.type = TokenType.TOK_STR → Terminated r.2.text_buf r.1.sp) := by
  by_cases he : is_empty_token_queue ctx = true
  · obtain ⟨g, hs, hq'⟩ := lexer_get_token_text he h
    refine ⟨g, ?_, hs⟩
    have hnil := queue_contents_of_empty hq he
    have h0 := (is_empty_iff_queued hq).mp he
    rcases hq' with hq' | ⟨sp, h1, h2⟩
    · intro t ht
      rw [queue_contents_congr hq', hnil] at ht
      simp at ht
    · obtain ⟨a1, a2, a3, -⟩ := queue_push { type := TokenType.TOK_STR, i := 0, sp := sp } hq
        (by omega)
      obtain ⟨-, -, b3, -⟩ := queue_push { type := TokenType.TOK_BLK_CLS, i := 0, sp := 0 } a1
        (by omega)
      intro t ht hty
      rw [queue_contents_congr h2, b3, a3, hnil] at ht
      simp only [List.nil_append, List.cons_append, List.mem_cons, List.mem_singleton,
        List.not_mem_nil, or_false] at ht
      rcases ht with ht | ht
      · rw [ht]; exact h1
      · rw [ht] at hty; exact absurd hty (by decide)
  · have he' : is_empty_token_queue ctx = false := by simpa using he
    rw [get_token_dequeue fuel he'] at h
    simp only [Option.some.injEq] at h
    obtain ⟨-, q2⟩ := queue_pop hq he'
    rw [← h]
    have htb : (remove_token_queue ctx).2.text_buf = ctx.text_buf := rfl
    refine ⟨⟨[], by simp [htb]⟩, ?_, ?_⟩
    · intro t ht hty
      rw [htb]
      exact hi t (by rw [q2]; exact List.mem_cons_of_mem _ ht) hty
    · intro hty
      rw [htb]
      exact hi _ (by rw [q2]; exact List.mem_cons_self _ _) hty

theorem reachable_textinv {input : List Nat} {ctx : Lexer} (h : Reachable input ctx) :
    TextInv ctx := by
  induction h with
  | init => exact textinv_init input
  | step hr hget ih =>
    exact (call_text (qwf_of_qinv (reachable_inv hr).2.1) ih hget).2.1

/-- A call of `lexer_get_token`, in any state, only appends to the arena. -/
theorem get_token_grows {fuel : Nat} {ctx : Lexer} {r : Token × Lexer}
    (h : lexer_get_token fuel ctx = some r) : ∃ e, r.2.text_buf = ctx.text_buf ++ e := by
  by_cases he : is_empty_token_queue ctx = true
  · exact (lexer_get_token_text he h).1
  · have he' : is_empty_token_queue ctx = false := by simpa using he
    rw [get_token_dequeue fuel he'] at h
    simp only [Option.some.injEq] at h
    rw [← h]
    exact ⟨[], by simp [remove_token_queue]⟩

theorem lex_tokens_grows {fuel : Nat} :
    ∀ (k : Nat) (ctx : Lexer) (ts : List Token) (ctx' : Lexer),
      lex_tokens fuel k ctx = some (ts, ctx') → ∃ e, ctx'.text_buf = ctx.text_buf ++ e := by
  intro k
  induction k with
  | zero =>
    intro ctx ts ctx' h
    simp only [lex_tokens, Option.some.injEq, Prod.mk.injEq] at h
    rw [← h.2]
    exact ⟨[], by simp⟩
  | succ k ih =>
    intro ctx ts ctx' h
    simp only [lex_tokens] at h
    cases hr : lexer_get_token fuel ctx with
    | none => simp [hr] at h
    | some r =>
      simp only [hr] at h
      cases hrs : lex_tokens fuel k r.2 with
      | none => simp [hrs] at h
      | some rs =>
        simp only [hrs, Option.some.injEq, Prod.mk.injEq] at h
        have hrs' : lex_tokens fuel k r.2 = some (rs.1, ctx') := by rw [hrs, ← h.2]
        obtain ⟨e1, t1⟩ := get_token_grows hr
        obtain ⟨e2, t2⟩ := ih r.2 rs.1 ctx' hrs'
        exact ⟨e1 ++ e2, by rw [t2, t1, List.append_assoc]⟩

/-- The text of a String token that points at a terminated string is the same
in every state whose arena extends the present one. -/
theorem token_text_stable {c c' : Lexer} {t : Token} (ht : Terminated c.text_buf t.sp)
    {e : List Int} (he : c'.text_buf = c.text_buf ++ e) : token_text c' t = token_text c t := by
  unfold token_text lexer_get_string
  split_ifs
  · rfl
  · simp only [Option.map_some', get_text_buf_at, vector_get, he, c_str_append e ht]


/-! ## The character vector -/


/-- Storing a character over the terminator and the terminator after it. -/
theorem store_two (B : List (Option Int)) (acc : List Int) (c : Int)
    (hlen : acc.length + 2 ≤ B.length) (ht : B.take acc.length = acc.map some) :
    ((B.set acc.length (some c)).set (acc.length + 1) (some 0)).take (acc ++ [c]).length =
      (acc ++ [c]).map some ∧
    ((B.set acc.length (some c)).set (acc.length + 1) (some 0))[(acc ++ [c]).length]? =
      some (some 0) := by
  constructor
  · apply List.ext_getElem?
    intro i
    have hti := congrArg (fun l => l[i]?) ht
    simp only [List.getElem?_take] at hti
    simp only [List.length_append, List.length_singleton, List.getElem?_take,
      List.getElem?_set, List.map_append, List.map_cons, List.map_nil]
    by_cases h1 : i < acc.length
    · have a1 : i < acc.length + 1 := by omega
      have a2 : ¬ acc.length + 1 = i := by omega
      have a3 : ¬ acc.length = i := by omega
      simp only [a1, a2, a3, if_true, if_false]
      rw [List.getElem?_append_left (by simpa using h1)]
      simpa [h1] using hti
    · by_cases h2 : i = acc.length
      · subst h2
        have a2 : ¬ acc.length + 1 = acc.length := by omega
        have a4 : acc.length < B.length := by omega
        simp only [Nat.lt_succ_self, a2, if_true, if_false, List.length_set, a4]
        rw [List.getElem?_append_right (by simp)]
        simp
      · have a1 : ¬ i < acc.length + 1 := by omega
        simp only [a1, if_false]
        rw [List.getElem?_eq_none (by simp; omega)]
  · simp only [List.length_append, List.length_singleton]
    rw [List.getElem?_set_self (by simp; omega)]



/-- The last three statements of `char_v_append` on a block with room for two
more cells. -/
theorem append_store_ok {cap0 : Nat} {v : CharVec} {B : List (Option Int)} {acc : List Int}
    (c : Int) (hb : v.buf = some B) (hl : B.length = v.cap) (hlen : v.len = acc.length + 1)
    (hroom : v.len + 1 ≤ v.cap) (ht : B.take acc.length = acc.map some)
    (hj : ∃ j, v.cap = cap0 * 2 ^ j) (hbound : v.cap ≤ max cap0 (2 * (acc.length + 2)))
    (h63 : v.cap < 2 ^ 63) :
    ∃ v', char_v_append_store v c = Except.ok v' ∧ VecInv cap0 v' (acc ++ [c]) ∧
      v'.cap = v.cap := by
  have hidx : (v.len + SIZE_T - 1) % SIZE_T = acc.length := by
    simp only [SIZE_T] at *
    omega
  have hlen1 : (v.len + 1) % SIZE_T = v.len + 1 := by
    simp only [SIZE_T] at *
    omega
  have h1 : acc.length < B.length := by omega
  have h2 : v.len < (B.set acc.length (some c)).length := by
    rw [List.length_set]; omega
  obtain ⟨s1, s2⟩ := store_two B acc c (by omega) ht
  have hrun : char_v_append_store v c =
      Except.ok (CharVec.mk (some ((B.set acc.length (some c)).set (acc.length + 1) (some 0)))
        (v.len + 1) v.cap) := by
    simp only [char_v_append_store, hb, store, hidx, h1, if_true, h2, hlen1]
    simp only [hlen]
  refine ⟨_, hrun, ?_, rfl⟩
  · refine ⟨_, rfl, ?_, ?_, ?_, s1, s2, hj, ?_, h63⟩
    · simp only [List.length_set]; exact hl
    · simp only [List.length_append, List.length_singleton]; omega
    · show v.len + 1 ≤ v.cap
      exact hroom
    · simp only [List.length_append, List.length_singleton]
      exact hbound

/-- One `char_v_append` on a vector that holds the characters `acc`: either
the allocator refuses the doubled block and the program aborts, or the call
returns a vector that holds `acc` and the new character, with the capacity it
had or twice that. -/
theorem vec_step (ok : Nat → Bool) (hmax : ∀ s, ok s = true → s < 2 ^ 63) {cap0 : Nat}
    {v : CharVec} {acc : List Int} (c : Int) (hi : VecInv cap0 v acc) :
    (char_v_append ok v c = Except.error Fault.abort ∧ ok (2 * v.cap) = false ∧
      2 * v.cap ≤ max cap0 (2 * (acc.length + 2))) ∨
    ∃ v', char_v_append ok v c = Except.ok v' ∧ VecInv cap0 v' (acc ++ [c]) ∧
      (v'.cap = v.cap ∨ v'.cap = 2 * v.cap) := by
  obtain ⟨b, hb, hl, hlen, hle, htake, hget, ⟨j, hj⟩, hbound, h63⟩ := hi
  have hinit : char_v_append_init ok v = Except.ok v := by
    simp only [char_v_append_init, hb]
  have hlen1 : (v.len + 1) % SIZE_T = v.len + 1 := by
    simp only [SIZE_T] at *
    omega
  have hcap2 : (v.cap * 2) % SIZE_T = 2 * v.cap := by
    simp only [SIZE_T] at *
    omega
  by_cases hg : v.cap ≤ v.len + 1
  · by_cases hok : ok (2 * v.cap) = true
    · right
      have hgrow : char_v_append_grow ok v =
          Except.ok (CharVec.mk (some (b ++ List.replicate v.cap none)) v.len (2 * v.cap)) := by
        have htk : b.take (2 * v.cap) = b := List.take_of_length_le (by omega)
        have hsub : 2 * v.cap - b.length = v.cap := by omega
        simp only [char_v_append_grow, hlen1, hg, if_true, hb, hcap2, realloc, hok, htk, hsub]
      obtain ⟨v', e1, e2, e3⟩ := @append_store_ok cap0
        (CharVec.mk (some (b ++ List.replicate v.cap none)) v.len (2 * v.cap))
        (b ++ List.replicate v.cap none) acc c
        rfl (by simp; omega) hlen (by show v.len + 1 ≤ 2 * v.cap; omega)
        (by rw [List.take_append_of_le_length (by omega)]; exact htake)
        ⟨j + 1, by show 2 * v.cap = cap0 * 2 ^ (j + 1); rw [hj, pow_succ]; ring⟩
        (by show 2 * v.cap ≤ max cap0 (2 * (acc.length + 2)); omega)
        (hmax _ hok)
      refine ⟨v', ?_, e2, Or.inr e3⟩
      simp only [char_v_append, hinit, hgrow, e1]
    · left
      have hok' : ok (2 * v.cap) = false := by simpa using hok
      refine ⟨?_, hok', by omega⟩
      simp only [char_v_append, hinit, char_v_append_grow, hlen1, hg, if_true, hb, hcap2,
        realloc, hok', Bool.false_eq_true, if_false]
  · right
    have hgrow : char_v_append_grow ok v = Except.ok v := by
      simp only [char_v_append_grow, hlen1, hg, if_false]
    obtain ⟨v', e1, e2, e3⟩ := @append_store_ok cap0 v b acc c hb hl hlen
      (by omega) htake ⟨j, hj⟩ (by omega) h63
    refine ⟨v', ?_, e2, Or.inl e3⟩
    simp only [char_v_append, hinit, hgrow, e1]



/-- The first `if` of `char_v_append` on a new vector: the allocator refuses
the block and the program aborts, or the block holds the terminator. -/
theorem vec_first (ok : Nat → Bool) (hmax : ∀ s, ok s = true → s < 2 ^ 63) {cap : Nat}
    (hcap : 1 ≤ cap) (hU : cap < SIZE_T) :
    (char_v_append_init ok (char_v_new cap) = Except.error Fault.abort ∧ ok cap = false) ∨
    ∃ v1, char_v_append_init ok (char_v_new cap) = Except.ok v1 ∧ VecInv cap v1 [] := by
  have hmod : cap % SIZE_T = cap := Nat.mod_eq_of_lt hU
  by_cases hok : ok cap = true
  · right
    have hrun : char_v_append_init ok (char_v_new cap) =
        Except.ok (CharVec.mk (some ((List.replicate cap none).set 0 (some 0))) 1 cap) := by
      have h0 : 0 < (List.replicate cap (none : Option Int)).length := by
        rw [List.length_replicate]; omega
      simp only [char_v_append_init, char_v_new, hmod, malloc, hok, if_true, store, h0]
      rfl
    refine ⟨_, hrun, _, rfl, by simp, rfl, hcap, by simp, ?_, ⟨0, by simp⟩, by simp,
      hmax _ hok⟩
    simp only [List.length_nil]
    rw [List.getElem?_set_self (by simp; omega)]
  · left
    have hok' : ok cap = false := by simpa using hok
    refine ⟨?_, hok'⟩
    simp only [char_v_append_init, char_v_new, hmod, malloc, hok', Bool.false_eq_true, if_false]

theorem vec_init_done {v : CharVec} {b : List (Option Int)} (ok : Nat → Bool)
    (hb : v.buf = some b) : char_v_append_init ok v = Except.ok v := by
  simp only [char_v_append_init, hb]

/-- Successive appends on a vector that holds the characters `acc`: the
allocator refuses a block no larger than twice the final length (or than the
initial capacity) and the program aborts, or the vector holds `acc` and the
appended characters. -/
theorem vec_run (ok : Nat → Bool) (hmax : ∀ s, ok s = true → s < 2 ^ 63) {cap0 : Nat} :
    ∀ (cs : List Int) (v : CharVec) (acc : List Int), VecInv cap0 v acc →
      (char_v_appends ok v cs = Except.error Fault.abort ∧
        ∃ s, ok s = false ∧ s ≤ max cap0 (2 * (acc.length + cs.length + 1))) ∨
      ∃ v', char_v_appends ok v cs = Except.ok v' ∧ VecInv cap0 v' (acc ++ cs) := by
  intro cs
  induction cs with
  | nil =>
    intro v acc hi
    exact Or.inr ⟨v, rfl, by simpa using hi⟩
  | cons c cs ih =>
    intro v acc hi
    rcases vec_step ok hmax c hi with ⟨e1, e2, e3⟩ | ⟨v', e1, e2, -⟩
    · left
      refine ⟨by simp only [char_v_appends, e1], 2 * v.cap, e2, ?_⟩
      simp only [List.length_cons]
      omega
    · rcases ih v' (acc ++ [c]) e2 with ⟨r1, s, r2, r3⟩ | ⟨v'', r1, r2⟩
      · left
        refine ⟨by simp only [char_v_appends, e1, r1], s, r2, ?_⟩
        simp only [List.length_append, List.length_singleton, List.length_cons,
          List.length_nil] at r3 ⊢
        omega
      · right
        exact ⟨v'', by simp only [char_v_appends, e1, r1], by simpa using r2⟩

/-- Appends on a new vector. -/
theorem vec_new_run (ok : Nat → Bool) (hmax : ∀ s, ok s = true → s < 2 ^ 63) {cap : Nat}
    (hcap : 1 ≤ cap) (hU : cap < SIZE_T) (c : Int) (cs : List Int) :
    (char_v_appends ok (char_v_new cap) (c :: cs) = Except.error Fault.abort ∧
      ∃ s, ok s = false ∧ s ≤ max cap (2 * ((c :: cs).length + 1))) ∨
    ∃ v', char_v_appends ok (char_v_new cap) (c :: cs) = Except.ok v' ∧
      VecInv cap v' (c :: cs) := by
  rcases vec_first ok hmax hcap hU with ⟨e1, e2⟩ | ⟨v1, e1, e2⟩
  · left
    refine ⟨by simp only [char_v_appends, char_v_append, e1], cap, e2, by omega⟩
  · obtain ⟨b, hb⟩ : ∃ b, v1.buf = some b := by
      obtain ⟨b, hb, -⟩ := e2
      exact ⟨b, hb⟩
    have hsame : char_v_append ok (char_v_new cap) c = char_v_append ok v1 c := by
      simp only [char_v_append, e1, vec_init_done ok hb]
    have hrun : char_v_appends ok (char_v_new cap) (c :: cs) =
        char_v_appends ok v1 (c :: cs) := by
      simp only [char_v_appends, hsame]
    rw [hrun]
    have := vec_run ok hmax (c :: cs) v1 [] e2
    simpa using this


/-! ## C1: the round trip `name{{{echo hi}}}` -/

/-- C1: tokenizing `name{{{echo hi}}}` with a fresh lexer yields, in this order,
String "name", BlockOpen, String "echo hi", BlockClose, EndOfInput, whatever
fuel above the input length the loops are given. -/
theorem C1_roundtrip (fuel : Nat) (hfuel : 17 < fuel) :
    lex_views fuel 5 (lexer_init (bytes "name\x7b\x7b\x7becho hi\x7d\x7d\x7d")) =
      some [(TokenType.TOK_STR, some (chars "name")),
            (TokenType.TOK_BLK_OPEN, none),
            (TokenType.TOK_STR, some (chars "echo hi")),
            (TokenType.TOK_BLK_CLS, none),
            (TokenType.TOK_EOF, none)] :=
  lex_views_mono (Nat.succ_le_of_lt hfuel) 5 _ _ (by decide)

/-- Witness of C1 at fuel 18. -/
theorem C1_roundtrip_witness :
    17 < 18 ∧
    lex_views 18 5 (lexer_init (bytes "name\x7b\x7b\x7becho hi\x7d\x7d\x7d")) =
      some [(TokenType.TOK_STR, some (chars "name")),
            (TokenType.TOK_BLK_OPEN, none),
            (TokenType.TOK_STR, some (chars "echo hi")),
            (TokenType.TOK_BLK_CLS, none),
            (TokenType.TOK_EOF, none)] :=
  ⟨by decide, C1_roundtrip 18 (by decide)⟩

/-- C4: for every n ≥ 1, on an input of exactly n newline bytes the first call
returns one End token, having consumed all n newlines (nothing is left unread,
however many refills that takes), and the second call returns EndOfInput. -/
theorem C4_blank_lines (n fuel : Nat) (hn : 1 ≤ n) (hfuel : n < fuel) :
    ∃ c1 c2, lexer_get_token fuel (lexer_init (List.replicate n 10)) = some (END_TOK, c1) ∧
      unread c1 = [] ∧ lexer_get_token fuel c1 = some (EOF_TOK, c2) := by
  have hu0 : unread (lexer_init (List.replicate n 10)) = [] ++ List.replicate n 10 := by
    rw [unread_init, List.map_replicate]; rfl
  have hhead : (List.replicate n (10 : Int)).headD EOF_CHAR = 10 := by
    obtain ⟨m, rfl⟩ : ∃ m, n = m + 1 := ⟨n - 1, by omega⟩
    rfl
  obtain ⟨c0, e1, e2, e3, e4, -, -, e7, -⟩ :=
    skip_blanks_good [] fuel _ _ (good_init _) hu0 (by simp) (by rw [hhead]; decide)
      (by simp only [List.length_nil]; omega)
  obtain ⟨c1, r1, r2, r3, r4, -, -, r7, -⟩ :=
    read_end_loop_good n fuel NULL_TOK c0 [] e2 (by simpa using e4) (by decide) hfuel
  have hq1 : is_empty_token_queue c1 = true := by
    have := queue_init (List.replicate n 10)
    unfold is_empty_token_queue at *
    rw [r7, e7]; exact this
  have hf : 0 < fuel := by omega
  obtain ⟨c2, hc2⟩ := lexer_get_token_at_end hf hq1 r2 r4
  refine ⟨c1, c2, ?_, r4, hc2⟩
  rw [lexer_get_token_dispatch (queue_init _) e1 e2 e3, e4, hhead]
  have hn0 : ¬ n = 0 := by omega
  rw [if_neg hn0] at r1
  simp only [read_end, r1, ATTEMPT_READ]
  rw [if_neg (by decide), if_neg (by decide), if_neg (by decide), if_neg (by decide),
    if_pos (by decide)]

/-- Witness of C4: three newlines, fuel 4. -/
theorem C4_blank_lines_witness :
    1 ≤ 3 ∧ 3 < 4 ∧
    ∃ c1 c2, lexer_get_token 4 (lexer_init (List.replicate 3 10)) = some (END_TOK, c1) ∧
      unread c1 = [] ∧ lexer_get_token 4 c1 = some (EOF_TOK, c2) :=
  ⟨by decide, by decide, C4_blank_lines 3 4 (by decide) (by decide)⟩


/-- C5: on an input that is one identifier `[A-Za-z][A-Za-z0-9]*` of at most
1024 bytes, the first call returns a String token whose offset is the arena
length before the call, the arena from that offset on is the bytes of the
identifier followed by NUL, and the next call returns EndOfInput. -/
theorem C5_identifier (s : List Nat) (fuel : Nat) (hid : is_identifier s = true)
    (hlen : s.length ≤ BUF_LEN) (hfuel : s.length < fuel) :
    ∃ c1 c2,
      lexer_get_token fuel (lexer_init s) =
        some ({ type := TokenType.TOK_STR, i := 0, sp := get_text_buf_len (lexer_init s) },
              c1) ∧
      lexer_get_string c1
          { type := TokenType.TOK_STR, i := 0, sp := get_text_buf_len (lexer_init s) } =
        some (s.map Int.ofNat ++ [0]) ∧
      lexer_get_token fuel c1 = some (EOF_TOK, c2) := by
  obtain ⟨a, t, rfl, ha, ht⟩ := is_identifier_cases hid
  have ha' : isalnum (a : Int) = true := by simp [isalnum, ha]
  have hsmall : ∀ b ∈ a :: t, b < 128 := by
    intro b hb
    rcases List.mem_cons.mp hb with rfl | hb
    · exact isalnum_byte_small ha'
    · exact isalnum_byte_small (ht b hb)
  have hu0 : unread (lexer_init (a :: t)) = [] ++ ((a : Int) :: t.map Int.ofNat) := by
    rw [unread_init, map_byte_to_char_small hsmall]; rfl
  have hblank : isblank ((a : Int)) = false := by
    simp only [isalpha, decide_eq_true_eq] at ha
    simp only [isblank, decide_eq_false_iff_not]
    omega
  have hf : 0 < fuel := by omega
  obtain ⟨c0, e1, e2, e3, e4, e5, -, e7, -⟩ :=
    skip_blanks_good [] fuel _ _ (good_init _) hu0 (by simp) (by simpa using hblank)
      (by simp only [List.length_nil]; omega)
  obtain ⟨c1, r1, r2, r3, r4, r5, -, r7, -⟩ :=
    read_symbol_good (a : Int) (t.map Int.ofNat) [] e2 (by simpa using e4) ha
      (by
        intro c hc
        obtain ⟨b, hb, rfl⟩ := List.mem_map.mp hc
        exact ht b hb)
      (Or.inl (by decide)) (by simpa using hfuel)
  have hq1 : is_empty_token_queue c1 = true := by
    have := queue_init (a :: t)
    unfold is_empty_token_queue at *
    rw [r7, e7]; exact this
  obtain ⟨c2, hc2⟩ := lexer_get_token_at_end hf hq1 r2 r4
  have ht0 : c0.text_buf = [] := by rw [e5]; rfl
  refine ⟨c1, c2, ?_, ?_, hc2⟩
  · rw [lexer_get_token_dispatch (queue_init _) e1 e2 e3, e4]
    simp only [isalpha, decide_eq_true_eq] at ha
    have h1 : ¬ ((a : Int) = EOF_CHAR) := by unfold EOF_CHAR; omega
    have h2 : ¬ ((a : Int) = 47) := by omega
    have h3 : ¬ ((a : Int) = 42) := by omega
    have h4 : ¬ ((a : Int) = 46) := by omega
    have h5 : ¬ ((a : Int) = 10) := by omega
    simp only [List.headD_cons, if_neg h1, if_neg h2, if_neg h3, if_neg h4]
    rw [read_end_null hf e2 e3 (by rw [e4]; simpa using h5), attempt_read_null, r1,
      attempt_read_some _ (by simp)]
    simp [ht0, get_text_buf_len, lexer_init]
  · simp [lexer_get_string, get_text_buf_at, vector_get, get_text_buf_len, lexer_init, r5, ht0]

/-- Witness of C5: the identifier `ab1`. -/
theorem C5_identifier_witness :
    is_identifier [97, 98, 49] = true ∧ [97, 98, 49].length ≤ BUF_LEN ∧
    [97, 98, 49].length < 4 ∧
    ∃ c1 c2,
      lexer_get_token 4 (lexer_init [97, 98, 49]) =
        some ({ type := TokenType.TOK_STR, i := 0,
                sp := get_text_buf_len (lexer_init [97, 98, 49]) }, c1) ∧
      lexer_get_string c1
          { type := TokenType.TOK_STR, i := 0,
            sp := get_text_buf_len (lexer_init [97, 98, 49]) } =
        some ([97, 98, 49].map Int.ofNat ++ [0]) ∧
      lexer_get_token 4 c1 = some (EOF_TOK, c2) :=
  ⟨by decide, by decide, by decide,
   C5_identifier [97, 98, 49] 4 (by decide) (by decide) (by decide)⟩


/-- C6: in any consistent state with an empty queue whose unread input starts
with a non-empty run `d` of ASCII digits (followed by a non-digit or by the end
of the input) whose decimal value fits `int`, `lexer_get_token` returns the
Integer token for that value, consumes exactly the bytes of `d`, and leaves the
arena as it was (in particular with the same length). -/
theorem C6_integer (ctx : Lexer) (d r : List Nat) (fuel : Nat) (hg : Good ctx)
    (hq : is_empty_token_queue ctx = true) (hu : unread ctx = (d ++ r).map byte_to_char)
    (hd : is_digit_run d = true)
    (hr : ∀ b, r.head? = some b → isdigit (byte_to_char b) = false)
    (hval : decimal_value d ≤ 2147483647) (hfuel : d.length < fuel) :
    ∃ c1, lexer_get_token fuel ctx =
        some ({ type := TokenType.TOK_INT, i := (decimal_value d : Int), sp := 0 }, c1) ∧
      unread c1 = r.map byte_to_char ∧ c1.text_buf = ctx.text_buf ∧
      get_text_buf_len c1 = get_text_buf_len ctx := by
  have hatoi := atoi_digits d hd hval
  simp only [is_digit_run, Bool.and_eq_true, decide_eq_true_eq, List.all_eq_true] at hd
  obtain ⟨hne, hall⟩ := hd
  obtain ⟨a, t, rfl⟩ : ∃ a t, d = a :: t := by
    cases d with
    | nil => exact absurd rfl hne
    | cons a t => exact ⟨a, t, rfl⟩
  have hsmall : ∀ b ∈ a :: t, b < 128 := fun b hb => by have := hall b hb; omega
  have ha := hall a (List.mem_cons_self _ _)
  have hu0 : unread ctx = [] ++ (((a : Int) :: t.map Int.ofNat) ++ r.map byte_to_char) := by
    rw [hu, List.map_append, map_byte_to_char_small hsmall]; rfl
  have hblank : isblank ((a : Int)) = false := by
    simp only [isblank, decide_eq_false_iff_not]
    omega
  have hf : 0 < fuel := by omega
  obtain ⟨c0, e1, e2, e3, e4, e5, -, e7, -⟩ :=
    skip_blanks_good [] fuel _ _ hg hu0 (by simp) (by simpa using hblank)
      (by simp only [List.length_nil]; omega)
  have hstop : (r.map byte_to_char).headD EOF_CHAR < 0 ∨
      isdigit ((r.map byte_to_char).headD EOF_CHAR) = false := by
    cases r with
    | nil => left; decide
    | cons b r => right; simpa using hr b rfl
  obtain ⟨c1, r1, r2, r3, r4, r5, -, r7, -⟩ :=
    read_digit_good (a : Int) (t.map Int.ofNat) (r.map byte_to_char) e2 e4
      (by
        intro c hc
        have hc' : c ∈ (a :: t).map Int.ofNat := by simpa using hc
        obtain ⟨b, hb, rfl⟩ := List.mem_map.mp hc'
        have := hall b hb
        simp only [isdigit, Int.ofNat_eq_coe, decide_eq_true_eq]
        omega)
      hstop (by simpa using hfuel)
  refine ⟨c1, ?_, r4, by rw [r5, e5], by simp only [get_text_buf_len, r5, e5]⟩
  rw [lexer_get_token_dispatch hq e1 e2 e3, e4]
  have h1 : ¬ ((a : Int) = EOF_CHAR) := by unfold EOF_CHAR; omega
  have h2 : ¬ ((a : Int) = 47) := by omega
  have h3 : ¬ ((a : Int) = 42) := by omega
  have h4 : ¬ ((a : Int) = 46) := by omega
  have h5 : ¬ ((a : Int) = 10) := by omega
  have h6 : isalpha (a : Int) = false := by
    simp only [isalpha, decide_eq_false_iff_not]; omega
  simp only [List.cons_append, List.headD_cons, if_neg h1, if_neg h2, if_neg h3, if_neg h4]
  rw [read_end_null hf e2 e3 (by rw [e4]; simpa using h5), attempt_read_null,
    read_symbol_null e2 e3 (by rw [e4]; simpa using h6), attempt_read_null, r1,
    attempt_read_some _ (by simp)]
  have hatoi' : atoi ((a : Int) :: (t.map Int.ofNat ++ [0])) = (decimal_value (a :: t) : Int) := by
    simpa using hatoi
  simp only [List.cons_append, hatoi']

/-- Witness of C6: the input `042x` on a fresh lexer. -/
theorem C6_integer_witness :
    Good (lexer_init [48, 52, 50, 120]) ∧
    is_empty_token_queue (lexer_init [48, 52, 50, 120]) = true ∧
    unread (lexer_init [48, 52, 50, 120]) = ([48, 52, 50] ++ [120]).map byte_to_char ∧
    is_digit_run [48, 52, 50] = true ∧
    (∀ b, [120].head? = some b → isdigit (byte_to_char b) = false) ∧
    decimal_value [48, 52, 50] ≤ 2147483647 ∧ [48, 52, 50].length < 4 ∧
    ∃ c1, lexer_get_token 4 (lexer_init [48, 52, 50, 120]) =
        some ({ type := TokenType.TOK_INT, i := (decimal_value [48, 52, 50] : Int), sp := 0 },
              c1) ∧
      unread c1 = [120].map byte_to_char ∧
      c1.text_buf = (lexer_init [48, 52, 50, 120]).text_buf ∧
      get_text_buf_len c1 = get_text_buf_len (lexer_init [48, 52, 50, 120]) :=
  ⟨good_init _, queue_init _, unread_init _, by decide,
   by intro b hb; simp only [List.head?_cons, Option.some.injEq] at hb; subst hb; decide,
   by decide, by decide,
   C6_integer (lexer_init [48, 52, 50, 120]) [48, 52, 50] [120] 4 (good_init _) (queue_init _)
     (unread_init _) (by decide)
     (by intro b hb; simp only [List.head?_cons, Option.some.injEq] at hb; subst hb; decide)
     (by decide) (by decide)⟩


/-- C3 as stated fails: on `{{{abc` the first token is Error, not BlockOpen; the
first two tokens are Error, EndOfInput. -/
theorem C3_counterexample :
    (lex_tokens 7 2 (lexer_init (bytes "\x7b\x7b\x7babc"))).map
        (fun r => r.1.map (fun t => t.type)) =
      some [TokenType.TOK_ERR, TokenType.TOK_EOF] ∧
    (lex_tokens 7 2 (lexer_init (bytes "\x7b\x7b\x7babc"))).map
        (fun r => r.1.map (fun t => t.type)) ≠
      some [TokenType.TOK_BLK_OPEN, TokenType.TOK_ERR] := by
  decide

/-- C3, amended: for every input `{{{` ++ body shorter than the input buffer,
where body holds no `}}}` and no byte 0xFF, the first call returns Error (no
BlockOpen comes before it); the only report is 'unclosed block', at the line and
column that follow the last byte of the stream; and every later call returns
EndOfInput (for as many calls as the 32-bit cursor can count), so that no
BlockOpen, BlockClose or String token is returned at all. -/
theorem C3_unclosed_block (body : List Nat) (fuel : Nat)
    (hlen : ([123, 123, 123] ++ body).length < BUF_LEN)
    (hbytes : ∀ b ∈ body, b < 255)
    (hno : ¬ [125, 125, 125] <:+: body)
    (hfuel : ([123, 123, 123] ++ body).length < fuel) :
    ∃ c1, lexer_get_token fuel (lexer_init ([123, 123, 123] ++ body)) = some (ERR_TOK, c1) ∧
      c1.err_sink =
        [{ line := line_of ([123, 123, 123] ++ body), col := col_of ([123, 123, 123] ++ body),
           msg := ErrMsg.unclosed_block }] ∧
      ∀ k, k + BUF_LEN < U32 →
        ∃ c2, lex_tokens fuel k c1 = some (List.replicate k EOF_TOK, c2) ∧
          c2.err_sink = c1.err_sink := by
  have hb256 : ∀ b ∈ body, b < 256 := fun b h => Nat.lt_succ_of_lt (hbytes b h)
  have hin256 : ∀ b ∈ [123, 123, 123] ++ body, b < 256 := by
    intro b h
    rcases List.mem_append.mp h with h | h
    · simp at h; omega
    · exact hb256 b h
  simp only [List.length_append, List.length_cons, List.length_nil] at hlen hfuel
  have hf : 0 < fuel := by omega
  have hu0 : unread (lexer_init ([123, 123, 123] ++ body)) =
      [] ++ (123 :: 123 :: 123 :: body.map byte_to_char) := by
    rw [unread_init, List.map_append]; rfl
  obtain ⟨c0, e1, e2, e3, e4, e5, e6, e7, e8⟩ :=
    skip_blanks_good [] fuel _ _ (good_init _) hu0 (by simp) (by simp [isblank])
      (by simp only [List.length_nil]; omega)
  have e9 : c0.input_buf.eof = true :=
    read_while_small (small_init (by
      simp only [List.length_append, List.length_cons, List.length_nil]; omega)) e1
  obtain ⟨s1, s2, s3, s4⟩ :=
    skipn_char_static [123, 123, 123] c0 (body.map byte_to_char) e2 e9 (by simpa using e4)
  simp only [List.length_cons, List.length_nil, Nat.zero_add, Nat.reduceAdd] at s1 s2 s3 s4
  obtain ⟨f, hfe⟩ : ∃ f, fuel = (body.map byte_to_char).length + (f + 1) :=
    ⟨fuel - body.length - 1, by simp only [List.length_map]; omega⟩
  obtain ⟨c', b1, b2, b3, b4, b5, b6, b7, b8⟩ :=
    read_block_loop_scan { type := TokenType.TOK_BLK_OPEN, i := 0, sp := 0 }
      { type := TokenType.TOK_STR, i := 0, sp := c0.text_buf.length }
      (body.map byte_to_char) (skipn_char c0 3) [] (f + 1) s1 s2 (by simpa using s3)
      (by
        intro c hc
        obtain ⟨b, hb, rfl⟩ := List.mem_map.mp hc
        have := hbytes b hb
        unfold byte_to_char to_char EOF_CHAR
        omega)
      (fun k _ => by
        simpa using no_close_of_not_infix body hb256 hno k)
  have hq' : is_empty_token_queue (PARSEERROR c' ErrMsg.unclosed_block) = true := by
    have := queue_init ([123, 123, 123] ++ body)
    unfold is_empty_token_queue at *
    rw [PARSEERROR_tok_queue, b7, skipn_char_tok_queue, e7]; exact this
  have hlp : c'.input_buf.len ≤ c'.input_buf.pos := by
    have := unread_length_of_eof b2 b3
    rw [b4] at this
    simp only [List.length_nil] at this
    omega
  have hdone : Done (PARSEERROR c' ErrMsg.unclosed_block) := ⟨b3, hlp, hq'⟩
  have hpos : (c'.line, c'.col) =
      (line_of ([123, 123, 123] ++ body), col_of ([123, 123, 123] ++ body)) := by
    rw [b6, s4, e6]
    have : advance (1, 1) ([] : List Int) = (1, 1) := rfl
    change advance (advance (advance (1, 1) []) [123, 123, 123]) (body.map byte_to_char) = _
    rw [this, ← advance_append, ← advance_from_start _ hin256
      (by simp only [List.length_append, List.length_cons, List.length_nil, U32, BUF_LEN] at *
          omega), List.map_append]
    rfl
  refine ⟨PARSEERROR c' ErrMsg.unclosed_block, ?_, ?_, ?_⟩
  · rw [lexer_get_token_dispatch (queue_init _) e1 e2 e3, e4]
    simp only [List.headD_cons]
    rw [if_neg (by decide), if_neg (by decide), if_neg (by decide), if_neg (by decide),
      read_end_null hf e2 e3 (by rw [e4]; simp), attempt_read_null,
      read_symbol_null e2 e3 (by rw [e4]; simp [isalpha]), attempt_read_null,
      read_digit_null e2 e3 (by rw [e4]; simp [isdigit]), attempt_read_null,
      read_block_static_open fuel _ e2 e9 e4, hfe, b1,
      read_block_loop_unclosed _ _ f b2 b3 (by rw [b4]; rfl),
      attempt_read_some _ (by simp [ERR_TOK, TOK_TYPE])]
  · have hl : c'.line = line_of ([123, 123, 123] ++ body) := congrArg Prod.fst hpos
    have hc : c'.col = col_of ([123, 123, 123] ++ body) := congrArg Prod.snd hpos
    simp only [PARSEERROR, b8, skipn_char_err_sink, e8, hl, hc]
    rfl
  · intro k hk
    have hp : c'.input_buf.pos ≤ BUF_LEN := Nat.le_trans b2.pos_le b2.len_le
    obtain ⟨c2, d1, -, d3⟩ :=
      lex_tokens_done hf k _ hdone (by simp only [PARSEERROR_input_buf]; omega)
    exact ⟨c2, d1, d3⟩

/-- Witness of C3, amended: `{{{abc`, reported at 1:7. -/
theorem C3_unclosed_block_witness :
    ([123, 123, 123] ++ [97, 98, 99]).length < BUF_LEN ∧
    (∀ b ∈ [97, 98, 99], b < 255) ∧
    ¬ [125, 125, 125] <:+: [97, 98, 99] ∧
    ([123, 123, 123] ++ [97, 98, 99]).length < 7 ∧
    line_of ([123, 123, 123] ++ [97, 98, 99]) = 1 ∧
    col_of ([123, 123, 123] ++ [97, 98, 99]) = 7 ∧
    ∃ c1, lexer_get_token 7 (lexer_init ([123, 123, 123] ++ [97, 98, 99])) =
        some (ERR_TOK, c1) ∧
      c1.err_sink =
        [{ line := line_of ([123, 123, 123] ++ [97, 98, 99]),
           col := col_of ([123, 123, 123] ++ [97, 98, 99]),
           msg := ErrMsg.unclosed_block }] ∧
      ∀ k, k + BUF_LEN < U32 →
        ∃ c2, lex_tokens 7 k c1 = some (List.replicate k EOF_TOK, c2) ∧
          c2.err_sink = c1.err_sink :=
  ⟨by decide, by decide, by decide, by decide, by decide, by decide,
   C3_unclosed_block [97, 98, 99] 7 (by decide) (by decide) (by decide) (by decide)⟩


/-- C2 (failing input): on `{{{`, 1020 times `a`, `}}}` (1026 bytes, the close
marker split between the first and the second `fread`) the first call reports an
unclosed block at 1:1026 and returns Error, and the three calls after it return
EndOfInput: no BlockOpen, String or BlockClose token is produced. -/
theorem C2_split_marker_fails :
    ∃ c1 c2, lexer_get_token 1030 (lexer_init split_marker_input) = some (ERR_TOK, c1) ∧
      c1.err_sink = [{ line := 1, col := 1026, msg := ErrMsg.unclosed_block }] ∧
      lex_tokens 1030 3 c1 = some ([EOF_TOK, EOF_TOK, EOF_TOK], c2) := by
  obtain ⟨c1, h1, h2, h3, h4⟩ := split_marker_error 1030 (by decide)
  obtain ⟨c2, h5, -, -⟩ := lex_tokens_done (by decide : 0 < 1030) 3 c1 h3
    (by rw [h4]; decide)
  exact ⟨c1, c2, h1, h2, h5⟩

/-- C10 (failing input): on the two bytes 0xFF, `a` the first call returns
EndOfInput although the byte `a` is still unread (the peek at offset 0 returned
the sentinel for the byte 0xFF that is present), and the next call goes on to
return the String "a". -/
theorem C10_eof_before_end :
    (peekn_char (lexer_init [255, 97]) 0).1 = EOF_CHAR ∧
    (lexer_get_token 3 (lexer_init [255, 97])).map (fun r => (r.1, unread r.2)) =
      some (EOF_TOK, [97]) ∧
    lex_views 3 3 (lexer_init [255, 97]) =
      some [(TokenType.TOK_EOF, none), (TokenType.TOK_STR, some [97]),
            (TokenType.TOK_EOF, none)] := by
  decide


/-- C8: in every state reachable from `lexer_init` by `lexer_get_token` calls, on
any input, the token a call returns is never of type `TOK_NULL`, whatever the
fuel; and with more fuel than the input has bytes the call does return. -/
theorem C8_never_null (input : List Nat) (ctx : Lexer) (hreach : Reachable input ctx) :
    (∀ (fuel : Nat) (r : Token × Lexer), lexer_get_token fuel ctx = some r →
      r.1.type ≠ TokenType.TOK_NULL) ∧
    (∀ fuel, input.length < fuel →
      ∃ r, lexer_get_token fuel ctx = some r ∧ r.1.type ≠ TokenType.TOK_NULL) := by
  obtain ⟨i1, i2, i3⟩ := reachable_inv hreach
  refine ⟨fun fuel r h => (lexer_get_token_props i1 i2 h).2.2.2.1, fun fuel hf => ?_⟩
  have := avail_le_stock ctx
  obtain ⟨r, e, -, -, -, p4, -⟩ := lexer_get_token_total fuel ctx i1 i2 (by omega)
  exact ⟨r, e, p4⟩

/-- Witness of C8: the fresh lexer on the input `a`. -/
theorem C8_never_null_witness :
    Reachable [97] (lexer_init [97]) ∧
    (∀ (fuel : Nat) (r : Token × Lexer), lexer_get_token fuel (lexer_init [97]) = some r →
      r.1.type ≠ TokenType.TOK_NULL) ∧
    (∀ fuel, [97].length < fuel →
      ∃ r, lexer_get_token fuel (lexer_init [97]) = some r ∧
        r.1.type ≠ TokenType.TOK_NULL) :=
  ⟨Reachable.init, C8_never_null [97] (lexer_init [97]) Reachable.init⟩

/-- C9: for every input of L bytes and any fuel above L, every call of
`lexer_get_token` in a reachable state returns, and the first L + 1 calls on a
fresh lexer all return, one of their tokens being EndOfInput or Error. -/
theorem C9_terminates (input : List Nat) (fuel : Nat) (hfuel : input.length < fuel) :
    (∀ ctx, Reachable input ctx → ∃ r, lexer_get_token fuel ctx = some r) ∧
    ∃ ts ctx', lex_tokens fuel (input.length + 1) (lexer_init input) = some (ts, ctx') ∧
      ts.length = input.length + 1 ∧
      ∃ t ∈ ts, t.type = TokenType.TOK_EOF ∨ t.type = TokenType.TOK_ERR := by
  constructor
  · intro ctx hreach
    obtain ⟨i1, i2, i3⟩ := reachable_inv hreach
    have := avail_le_stock ctx
    obtain ⟨r, e, -⟩ := lexer_get_token_total fuel ctx i1 i2 (by omega)
    exact ⟨r, e⟩
  · obtain ⟨ts, ctx', e, hl, hcase⟩ := lex_tokens_total (input.length + 1) (lexer_init input)
      (wft_init input) (qinv_init input) (by rw [stock_init]; exact hfuel)
    refine ⟨ts, ctx', e, hl, ?_⟩
    rcases hcase with h | h
    · exact h
    · exfalso
      have h1 := avail_le_stock (lexer_init input)
      have h2 := stock_init input
      have h3 := queued_of_empty (qinv_init input) (queue_init input)
      omega

/-- Witness of C9: the input `a`, fuel 2. -/
theorem C9_terminates_witness :
    [97].length < 2 ∧
    (∀ ctx, Reachable [97] ctx → ∃ r, lexer_get_token 2 ctx = some r) ∧
    ∃ ts ctx', lex_tokens 2 ([97].length + 1) (lexer_init [97]) = some (ts, ctx') ∧
      ts.length = [97].length + 1 ∧
      ∃ t ∈ ts, t.type = TokenType.TOK_EOF ∨ t.type = TokenType.TOK_ERR :=
  ⟨by decide, C9_terminates [97] 2 (by decide)⟩


/-! ## C7: position tracking -/


/-- C7: position tracking. On every input shorter than the input buffer, and for
any fuel above its length, any number `k` of successive `lexer_get_token` calls
on a fresh lexer return; and if none of the tokens returned is EndOfInput or
Error, the input splits as `p ++ q` with `q` the bytes still unread, and the
lexer's line is 1 + the number of newline bytes in `p`, its column 1 + the
number of bytes of `p` after its last newline. -/
theorem C7_position (input : List Nat) (k fuel : Nat) (hlen : input.length < BUF_LEN)
    (hbytes : ∀ b ∈ input, b < 256) (hfuel : input.length < fuel) :
    ∃ ts ctx, lex_tokens fuel k (lexer_init input) = some (ts, ctx) ∧
      ((∀ t ∈ ts, t.type ≠ TokenType.TOK_EOF ∧ t.type ≠ TokenType.TOK_ERR) →
        ∃ p q, input = p ++ q ∧ unread ctx = q.map byte_to_char ∧
          ctx.line = 1 + p.count 10 ∧
          ctx.col = 1 + (p.reverse.takeWhile (fun (b : Nat) => decide (b ≠ 10))).length) := by
  obtain ⟨ts, ctx, hrun, -, -⟩ := lex_tokens_total k (lexer_init input)
    (wft_init input) (qinv_init input) (by rw [stock_init]; exact hfuel)
  refine ⟨ts, ctx, hrun, fun hok => ?_⟩
  obtain ⟨-, -, w, hu, hlc⟩ :=
    lex_tokens_cons k (lexer_init input) ts ctx (good_init input) (small_init hlen) hrun hok
  rw [unread_init] at hu
  obtain ⟨p, q, hpq, hp, hq⟩ := List.map_eq_append_iff.mp hu
  have hpl : p.length ≤ input.length := by
    rw [hpq, List.length_append]; omega
  have hadv := advance_from_start p
    (fun b hb => hbytes b (by rw [hpq]; exact List.mem_append_left _ hb))
    (by simp only [U32, BUF_LEN] at *; omega)
  have hlc' : (ctx.line, ctx.col) = (line_of p, col_of p) := by
    rw [hlc, ← hp]; exact hadv
  simp only [Prod.mk.injEq] at hlc'
  exact ⟨p, q, hpq, hq.symm, hlc'.1, hlc'.2⟩

/-- Witness of C7: on `ab\ncd`, after the String token for `ab` and the End
token, line = 2 and col = 1. -/
theorem C7_position_witness :
    ∃ ts ctx, lex_tokens 6 2 (lexer_init (bytes "ab\ncd")) = some (ts, ctx) ∧
      ts.map Token.type = [TokenType.TOK_STR, TokenType.TOK_END] ∧
      ctx.line = 2 ∧ ctx.col = 1 ∧
      ∃ p q, bytes "ab\ncd" = p ++ q ∧ unread ctx = q.map byte_to_char ∧
        ctx.line = 1 + p.count 10 ∧
        ctx.col = 1 + (p.reverse.takeWhile (fun (b : Nat) => decide (b ≠ 10))).length := by
  obtain ⟨ts, ctx, hrun, himp⟩ :=
    C7_position (bytes "ab\ncd") 2 6 (by decide) (by decide) (by decide)
  have hev : (lex_tokens 6 2 (lexer_init (bytes "ab\ncd"))).map
      (fun r => (r.1.map Token.type, r.2.line, r.2.col)) =
      some ([TokenType.TOK_STR, TokenType.TOK_END], 2, 1) := by decide
  rw [hrun] at hev
  simp only [Option.map_some', Option.some.injEq, Prod.mk.injEq] at hev
  obtain ⟨ht, hl, hc⟩ := hev
  refine ⟨ts, ctx, hrun, ht, hl, hc, himp ?_⟩
  intro t hmem
  have hm : t.type ∈ ts.map Token.type := List.mem_map_of_mem _ hmem
  rw [ht] at hm
  simp only [List.mem_cons, List.mem_singleton, List.not_mem_nil, or_false] at hm
  rcases hm with h | h <;> rw [h] <;> exact ⟨by decide, by decide⟩


/-! ## C11: the Error token -/


/-- C11 (failing input): on `{{{`, the byte 0xFF, `}}}` the input at the cursor
starts with `{{{` and a `}}}` follows before the end of the stream, so neither
(a) nor (b) of the characterisation holds; yet the first call returns Error and
reports 'unclosed block' (the byte 0xFF is read as the end of the stream), with
the three bytes `}}}` still unread.  On the single byte 0xFF, where (a) holds,
the call returns EndOfInput and reports nothing. -/
theorem C11_error_on_closed_block :
    (lexer_get_token 8 (lexer_init [123, 123, 123, 255, 125, 125, 125])).map
        (fun r => (r.1, r.2.err_sink, unread r.2)) =
      some (ERR_TOK, [{ line := 1, col := 4, msg := ErrMsg.unclosed_block }],
        [-1, 125, 125, 125]) ∧
    (lexer_get_token 2 (lexer_init [255])).map (fun r => (r.1, r.2.err_sink)) =
      some (EOF_TOK, []) := by
  decide


/-! ## C12: blanks -/


/-- C12 (failing input): with `s` the 1026 bytes `{{{`, 1020 times `a`, `}}}`
and `w` a single space, tokenizing `s` gives Error, then EndOfInput, while
tokenizing `w ++ s` gives BlockOpen, the String of 1020 `a`, BlockClose,
EndOfInput: the blank changes the token sequence. -/
theorem C12_blank_changes_tokens :
    lex_views 1030 2 (lexer_init split_marker_input) =
      some [(TokenType.TOK_ERR, none), (TokenType.TOK_EOF, none)] ∧
    lex_views 1030 4 (lexer_init ([32] ++ split_marker_input)) =
      some [(TokenType.TOK_BLK_OPEN, none),
        (TokenType.TOK_STR, some (List.replicate 1020 97)), (TokenType.TOK_BLK_CLS, none),
        (TokenType.TOK_EOF, none)] := by
  refine ⟨?_, blank_split_views 1030 (by decide)⟩
  obtain ⟨c1, h1, -, h3, h4⟩ := split_marker_error 1030 (by decide)
  obtain ⟨c2, h5, -⟩ := lexer_get_token_done (by decide : 0 < 1030) h3 (by rw [h4]; decide)
  have hv0 : lex_views 1030 0 (EOF_TOK, c2).2 = some [] := rfl
  have hv1 := lex_views_step h5 hv0
  have hv2 := lex_views_step h1 hv1
  rw [hv2]
  rfl


/-! ## C13, C14: the token queue -/


/-- C13: with a non-empty queue `lexer_get_token` returns the token in slot
`front` and changes nothing but `front`, which advances by one modulo 16; the
queue is first in, first out (an enqueue appends to the waiting tokens, and
successive calls return the waiting tokens oldest first, leaving input buffer,
position, arena and `back` alone); and after a call that recognised a block the
next two calls return the body String token and then BlockClose, with the input
buffer untouched. -/
theorem C13_queue_fifo :
    (∀ (ctx : Lexer) (fuel : Nat), is_empty_token_queue ctx = false →
      lexer_get_token fuel ctx =
        some (ctx.tok_queue.toks.getD ctx.tok_queue.front NULL_TOK,
          { ctx with tok_queue :=
              { ctx.tok_queue with front := (ctx.tok_queue.front + 1) % 16 } })) ∧
    (∀ (ctx : Lexer) (t : Token), QWF ctx → queued ctx < 15 →
      queue_contents (add_token_queue ctx t) = queue_contents ctx ++ [t]) ∧
    (∀ (ctx : Lexer) (fuel : Nat), QWF ctx →
      ∃ c', lex_tokens fuel (queue_contents ctx).length ctx = some (queue_contents ctx, c') ∧
        c'.input_buf = ctx.input_buf ∧ c'.line = ctx.line ∧ c'.col = ctx.col ∧
        c'.text_buf = ctx.text_buf ∧ c'.tok_queue.back = ctx.tok_queue.back) ∧
    (∀ (input : List Nat) (ctx : Lexer) (fuel : Nat) (r : Token × Lexer),
      Reachable input ctx → is_empty_token_queue ctx = true →
      lexer_get_token fuel ctx = some r → r.1.type = TokenType.TOK_BLK_OPEN →
      ∃ sp c2, lex_tokens fuel 2 r.2 =
          some ([{ type := TokenType.TOK_STR, i := 0, sp := sp },
                 { type := TokenType.TOK_BLK_CLS, i := 0, sp := 0 }], c2) ∧
        c2.input_buf = r.2.input_buf ∧ c2.line = r.2.line ∧ c2.col = r.2.col ∧
        c2.text_buf = r.2.text_buf ∧ is_empty_token_queue c2 = true) := by
  refine ⟨fun ctx fuel he => get_token_dequeue fuel he,
    fun ctx t hq hn => (queue_push t hq hn).2.2.1, fun ctx fuel hq => ?_,
    fun input ctx fuel r hreach he h ht => ?_⟩
  · obtain ⟨c', e1, e2, e3, e4, e5, -, e7, -⟩ := queue_drain fuel (queue_contents ctx) ctx hq rfl
    exact ⟨c', e1, e2, e3, e4, e5, e7⟩
  · obtain ⟨hq, sp, hc⟩ := block_then_queue hreach he h ht
    obtain ⟨c2, e1, e2, e3, e4, e5, -, -, -, e9⟩ := queue_drain fuel _ r.2 hq hc
    exact ⟨sp, c2, e1, e2, e3, e4, e5, e9⟩

/-- Witness of C13: on `{{{a}}}` the first call returns BlockOpen and leaves a
queue that is not empty; the next call is a dequeue, and the next two calls
return the body String token and BlockClose without touching the input
buffer. -/
theorem C13_queue_fifo_witness :
    ∃ r sp c2, lexer_get_token 8 (lexer_init [123, 123, 123, 97, 125, 125, 125]) = some r ∧
      r.1.type = TokenType.TOK_BLK_OPEN ∧ is_empty_token_queue r.2 = false ∧
      lexer_get_token 8 r.2 =
        some (r.2.tok_queue.toks.getD r.2.tok_queue.front NULL_TOK,
          { r.2 with tok_queue :=
              { r.2.tok_queue with front := (r.2.tok_queue.front + 1) % 16 } }) ∧
      lex_tokens 8 2 r.2 =
          some ([{ type := TokenType.TOK_STR, i := 0, sp := sp },
                 { type := TokenType.TOK_BLK_CLS, i := 0, sp := 0 }], c2) ∧
      c2.input_buf = r.2.input_buf := by
  have hev : (lexer_get_token 8 (lexer_init [123, 123, 123, 97, 125, 125, 125])).map
      (fun r => (r.1.type, is_empty_token_queue r.2)) =
      some (TokenType.TOK_BLK_OPEN, false) := by decide
  cases h : lexer_get_token 8 (lexer_init [123, 123, 123, 97, 125, 125, 125]) with
  | none => rw [h] at hev; exact absurd hev (by simp)
  | some r =>
    rw [h] at hev
    simp only [Option.map_some', Option.some.injEq, Prod.mk.injEq] at hev
    obtain ⟨sp, c2, e1, e2, -⟩ := C13_queue_fifo.2.2.2 [123, 123, 123, 97, 125, 125, 125]
      (lexer_init [123, 123, 123, 97, 125, 125, 125]) 8 r Reachable.init (queue_init _) h hev.1
    exact ⟨r, sp, c2, rfl, hev.1, hev.2, C13_queue_fifo.1 r.2 8 hev.2, e1, e2⟩

/-- C14: in every reachable state `front` and `back` are below 16 and at most 2
tokens are queued; a call either dequeues, or leaves the queue alone, or finds
it empty and enqueues two tokens, the first on the empty queue and the second
on a queue of one; and an enqueue on a queue of fewer than 15 tokens (as every
reachable one is) appends to the waiting tokens and leaves a queue that is not
empty. -/
theorem C14_queue_invariant (input : List Nat) (ctx : Lexer) (hreach : Reachable input ctx) :
    ctx.tok_queue.front < 16 ∧ ctx.tok_queue.back < 16 ∧ queued ctx ≤ 2 ∧
    (∀ (fuel : Nat) (r : Token × Lexer), lexer_get_token fuel ctx = some r →
      (is_empty_token_queue ctx = false ∧ r = remove_token_queue ctx) ∨
      r.2.tok_queue = ctx.tok_queue ∨
      (queued ctx = 0 ∧ ∃ b cl, queued (add_token_queue ctx b) = 1 ∧
        r.2.tok_queue = (add_token_queue (add_token_queue ctx b) cl).tok_queue ∧
        queue_contents r.2 = [b, cl])) ∧
    (∀ t : Token, queued ctx < 15 ∧
      queue_contents (add_token_queue ctx t) = queue_contents ctx ++ [t] ∧
      is_empty_token_queue (add_token_queue ctx t) = false) := by
  obtain ⟨i1, i2, -⟩ := reachable_inv hreach
  have hq := qwf_of_qinv i2
  have h2 : queued ctx ≤ 2 := i2.2.2.2.1
  refine ⟨hq.1, hq.2.1, h2, fun fuel r h => ?_, fun t => ?_⟩
  · rcases lexer_get_token_queue_any i1 h with c1 | ⟨-, -, c2⟩ | ⟨he, -, sp, c3⟩
    · exact Or.inl c1
    · exact Or.inr (Or.inl c2)
    · have h0 := (is_empty_iff_queued hq).mp he
      obtain ⟨a1, a2, a3, -⟩ := queue_push { type := TokenType.TOK_STR, i := 0, sp := sp } hq
        (by omega)
      obtain ⟨-, -, b3, -⟩ := queue_push { type := TokenType.TOK_BLK_CLS, i := 0, sp := 0 } a1
        (by omega)
      have hnil : queue_contents ctx = [] := by
        apply List.eq_nil_of_length_eq_zero
        rw [queue_contents_length, h0]
      refine Or.inr (Or.inr ⟨h0, _, _, by omega, c3, ?_⟩)
      rw [queue_contents_congr c3, b3, a3, hnil]
      rfl
  · obtain ⟨-, -, p3, p4⟩ := queue_push t hq (by omega)
    exact ⟨by omega, p3, p4⟩

/-- Witness of C14: the state after the first call on `{{{a}}}`, which holds two
queued tokens. -/
theorem C14_queue_invariant_witness :
    ∃ r, lexer_get_token 8 (lexer_init [123, 123, 123, 97, 125, 125, 125]) = some r ∧
      Reachable [123, 123, 123, 97, 125, 125, 125] r.2 ∧ queued r.2 = 2 ∧
      r.2.tok_queue.front < 16 ∧ r.2.tok_queue.back < 16 ∧ queued r.2 ≤ 2 := by
  have hev : (lexer_get_token 8 (lexer_init [123, 123, 123, 97, 125, 125, 125])).map
      (fun r => queued r.2) = some 2 := by decide
  cases h : lexer_get_token 8 (lexer_init [123, 123, 123, 97, 125, 125, 125]) with
  | none => rw [h] at hev; exact absurd hev (by simp)
  | some r =>
    rw [h] at hev
    simp only [Option.map_some', Option.some.injEq] at hev
    have hreach : Reachable [123, 123, 123, 97, 125, 125, 125] r.2 :=
      Reachable.step Reachable.init h
    obtain ⟨a1, a2, a3, -⟩ := C14_queue_invariant [123, 123, 123, 97, 125, 125, 125] r.2 hreach
    exact ⟨r, rfl, hreach, hev, a1, a2, a3⟩


/-! ## C15: peeks -/


/-- C15 as stated fails: on the stream `ab`, in the state `init_input_buf`
leaves, two bytes are unconsumed, yet `peekn_char(ctx, 1)` returns the sentinel
and not `b`. -/
theorem C15_counterexample :
    1 < (unread (lexer_init [97, 98])).length ∧
    (peekn_char (lexer_init [97, 98]) 1).1 = EOF_CHAR ∧
    (peekn_char (lexer_init [97, 98]) 1).1 ≠ 98 := by
  decide

/-- C15, amended: in every state reached from `init_input_buf` by peeks at
offset 0, peeks at a buffered offset or after the end of the stream was seen,
and `next_char` calls on an unread byte, the unread characters are those of a
suffix `q` of the input; for `i < 1024` with more than `i` bytes unread,
`peekn_char(i)` returns the byte `q[i]` (as a `char`) whenever `i = 0`, or the
byte is buffered, or the end-of-stream flag is set, and then the unread
characters, and so the characters the next `next_char` calls return, are as if
the peek had not been made; and for `i > 0` with at most `i` bytes buffered the
peek returns the sentinel and changes nothing. -/
theorem C15_peek (input : List Nat) (c : Lexer) (i : Nat) (hreach : PeekReach input c)
    (hi : i < BUF_LEN) (hmore : i < (unread c).length) :
    (∃ p q, input = p ++ q ∧ unread c = q.map byte_to_char ∧
      ((i = 0 ∨ c.input_buf.pos + i < c.input_buf.len ∨ c.input_buf.eof = true) →
        ∃ b, q[i]? = some b ∧ to_char (peekn_char c i).1 = byte_to_char b)) ∧
    ((i = 0 ∨ c.input_buf.pos + i < c.input_buf.len ∨ c.input_buf.eof = true) →
      unread (peekn_char c i).2 = unread c ∧
      ∀ n, n ≤ (unread c).length →
        next_chars n (peekn_char c i).2 = (unread c).take n ∧
        next_chars n c = (unread c).take n) ∧
    (0 < i → c.input_buf.len ≤ i → peekn_char c i = (EOF_CHAR, c)) := by
  obtain ⟨g, w, hw⟩ := peekreach_inv hreach
  obtain ⟨p, q, hpq, -, hq⟩ := List.map_eq_append_iff.mp hw
  refine ⟨⟨p, q, hpq, hq.symm, fun hc => ?_⟩, fun hc => ?_, fun h0 hl => peek_guard g hi h0 hl⟩
  · obtain ⟨p1, -, -⟩ := peek_ok g hi hc
    have hiq : i < q.length := by
      rw [← hq, List.length_map] at hmore; exact hmore
    refine ⟨q[i], List.getElem?_eq_getElem hiq, ?_⟩
    rw [p1, ← hq, List.getD_eq_getElem?_getD, List.getElem?_map, List.getElem?_eq_getElem hiq]
    rfl
  · obtain ⟨-, p2, p3⟩ := peek_ok g hi hc
    refine ⟨p3, fun n hn => ⟨?_, next_chars_take n c g hn⟩⟩
    rw [next_chars_take n _ p2 (by rw [p3]; exact hn), p3]

/-- Witness of C15: the stream `abc` after a first peek at offset 0, and a peek
at offset 2, which returns `c`. -/
theorem C15_peek_witness :
    PeekReach [97, 98, 99] (peekn_char (lexer_init [97, 98, 99]) 0).2 ∧
    2 < (unread (peekn_char (lexer_init [97, 98, 99]) 0).2).length ∧
    (peekn_char (peekn_char (lexer_init [97, 98, 99]) 0).2 2).1 = 99 ∧
    ∃ p q, [97, 98, 99] = p ++ q ∧
      unread (peekn_char (lexer_init [97, 98, 99]) 0).2 = q.map byte_to_char ∧
      ((2 = 0 ∨ (peekn_char (lexer_init [97, 98, 99]) 0).2.input_buf.pos + 2 <
          (peekn_char (lexer_init [97, 98, 99]) 0).2.input_buf.len ∨
          (peekn_char (lexer_init [97, 98, 99]) 0).2.input_buf.eof = true) →
        ∃ b, q[2]? = some b ∧
          to_char (peekn_char (peekn_char (lexer_init [97, 98, 99]) 0).2 2).1 =
            byte_to_char b) :=
  ⟨PeekReach.peek PeekReach.init, by decide, by decide,
    (C15_peek [97, 98, 99] (peekn_char (lexer_init [97, 98, 99]) 0).2 2
      (PeekReach.peek PeekReach.init) (by decide) (by decide)).1⟩


/-! ## C16: the byte-source invariant -/


/-- C16 as stated fails: on the empty input the state after the first call,
which returns EndOfInput, has `pos = 1` and `len = 0`. -/
theorem C16_counterexample :
    ∃ r, lexer_get_token 1 (lexer_init []) = some r ∧ Reachable [] r.2 ∧
      r.1 = EOF_TOK ∧ r.2.input_buf.pos = 1 ∧ r.2.input_buf.len = 0 ∧
      ¬ r.2.input_buf.pos ≤ r.2.input_buf.len := by
  have hev : (lexer_get_token 1 (lexer_init [])).map
      (fun r => (r.1, r.2.input_buf.pos, r.2.input_buf.len)) = some (EOF_TOK, 1, 0) := by
    decide
  cases h : lexer_get_token 1 (lexer_init []) with
  | none => rw [h] at hev; exact absurd hev (by simp)
  | some r =>
    rw [h] at hev
    simp only [Option.map_some', Option.some.injEq, Prod.mk.injEq] at hev
    obtain ⟨h1, h2, h3⟩ := hev
    exact ⟨r, rfl, Reachable.step Reachable.init h, h1, h2, h3, by rw [h2, h3]; decide⟩

/-- C16, amended: on any input and for any fuel above its length, any number of
calls on a fresh lexer return, and in the state they lead to `len ≤ 1024`; if
the input is shorter than the input buffer and none of the calls returned
EndOfInput (Error may have been returned), then `pos ≤ len` as well; and a call
made with the end-of-stream flag set, the buffer exhausted and the queue empty
returns EndOfInput and moves `pos` one further. -/
theorem C16_buffer_invariant (input : List Nat) (k fuel : Nat) (hfuel : input.length < fuel) :
    (∃ ts ctx, lex_tokens fuel k (lexer_init input) = some (ts, ctx) ∧
      Reachable input ctx ∧ ctx.input_buf.len ≤ 1024 ∧
      (input.length < BUF_LEN → (∀ t ∈ ts, t.type ≠ TokenType.TOK_EOF) →
        ctx.input_buf.pos ≤ ctx.input_buf.len)) ∧
    (∀ c : Lexer, Done c → c.input_buf.pos + 1 < U32 →
      ∃ c', lexer_get_token fuel c = some (EOF_TOK, c') ∧
        c'.input_buf.pos = c.input_buf.pos + 1) := by
  constructor
  · obtain ⟨ts, ctx, hrun, -, -⟩ := lex_tokens_total k (lexer_init input)
      (wft_init input) (qinv_init input) (by rw [stock_init]; exact hfuel)
    have hreach := lex_tokens_reachable k _ ts ctx Reachable.init hrun
    obtain ⟨hw, -, -⟩ := reachable_inv hreach
    refine ⟨ts, ctx, hrun, hreach, hw.1, fun hlen hok => ?_⟩
    exact (lex_tokens_good k _ ts ctx (good_init input) (small_init hlen) hrun hok).1.pos_le
  · intro c hd hU
    obtain ⟨c', e1, -, e3, -⟩ := lexer_get_token_done (by omega : 0 < fuel) hd hU
    exact ⟨c', e1, e3⟩

/-- Witness of C16: on `a?`, two calls return the String `a` and Error, and the
state has `pos ≤ len ≤ 1024`. -/
theorem C16_buffer_invariant_witness :
    ∃ ts ctx, lex_tokens 3 2 (lexer_init [97, 63]) = some (ts, ctx) ∧
      ts.map Token.type = [TokenType.TOK_STR, TokenType.TOK_ERR] ∧
      ctx.input_buf.len ≤ 1024 ∧ ctx.input_buf.pos ≤ ctx.input_buf.len := by
  obtain ⟨ts, ctx, hrun, -, hlen, himp⟩ := (C16_buffer_invariant [97, 63] 2 3 (by decide)).1
  have hev : (lex_tokens 3 2 (lexer_init [97, 63])).map (fun r => r.1.map Token.type) =
      some [TokenType.TOK_STR, TokenType.TOK_ERR] := by decide
  rw [hrun] at hev
  simp only [Option.map_some', Option.some.injEq] at hev
  refine ⟨ts, ctx, hrun, hev, hlen, himp (by decide) ?_⟩
  intro t hmem
  have hm : t.type ∈ ts.map Token.type := List.mem_map_of_mem _ hmem
  rw [hev] at hm
  simp only [List.mem_cons, List.mem_singleton, List.not_mem_nil, or_false] at hm
  rcases hm with h | h <;> rw [h] <;> decide


/-! ## C17: end of stream -/

/-- C17 (failing input): on the two bytes 0xFF, `/` the first call returns
EndOfInput, with the end-of-stream flag set and `/` still unread, and the second
call returns Slash: a call made after EndOfInput was returned does not return
EndOfInput. -/
theorem C17_eof_not_sticky :
    (lexer_get_token 3 (lexer_init [255, 47])).map
        (fun r => (r.1, r.2.input_buf.eof, unread r.2)) =
      some (EOF_TOK, true, [47]) ∧
    (lex_tokens 3 3 (lexer_init [255, 47])).map (fun r => r.1.map Token.type) =
      some [TokenType.TOK_EOF, TokenType.TOK_SLASH, TokenType.TOK_EOF] := by
  decide

/-! ## C18: String tokens and the arena -/


/-- C18: a String token returned by a call in a reachable state points at a
NUL-terminated string of the arena, and after any number of later calls the
text at its offset is what it was when the token was returned; `read_digit`
leaves the arena exactly as it found it, so that its truncation removes only
what that same call appended. -/
theorem C18_string_stable (input : List Nat) (ctx : Lexer) (fuel : Nat) (r : Token × Lexer)
    (hreach : Reachable input ctx) (h : lexer_get_token fuel ctx = some r)
    (ht : r.1.type = TokenType.TOK_STR) :
    (0 : Int) ∈ r.2.text_buf.drop r.1.sp ∧
    (∀ (fuel' k : Nat) (ts : List Token) (c' : Lexer),
      lex_tokens fuel' k r.2 = some (ts, c') → token_text c' r.1 = token_text r.2 r.1) ∧
    (∀ (f : Nat) (c : Lexer) (x : Token × Lexer),
      read_digit f c = some x → x.2.text_buf = c.text_buf) := by
  obtain ⟨-, hterm, hs⟩ := call_text (qwf_of_qinv (reachable_inv hreach).2.1)
    (reachable_textinv hreach) h
  refine ⟨hs ht, fun fuel' k ts c' hrun => ?_, fun f c x hx => (read_digit_text hx).1⟩
  obtain ⟨e, he⟩ := lex_tokens_grows k r.2 ts c' hrun
  exact token_text_stable (hs ht) he

/-- Witness of C18: on `ab 12 c` the first call returns the String `ab`, and
after the next three calls (the Integer 12, whose digits were appended to the
arena and removed again, the String `c`, EndOfInput) its text is still `ab`. -/
theorem C18_string_stable_witness :
    ∃ r ts c', lexer_get_token 8 (lexer_init (bytes "ab 12 c")) = some r ∧
      r.1.type = TokenType.TOK_STR ∧ token_text r.2 r.1 = some (chars "ab") ∧
      lex_tokens 8 3 r.2 = some (ts, c') ∧
      ts.map Token.type = [TokenType.TOK_INT, TokenType.TOK_STR, TokenType.TOK_EOF] ∧
      token_text c' r.1 = some (chars "ab") := by
  have hev : (lexer_get_token 8 (lexer_init (bytes "ab 12 c"))).bind
      (fun r => (lex_tokens 8 3 r.2).map
        (fun x => (r.1.type, token_text r.2 r.1, x.1.map Token.type))) =
      some (TokenType.TOK_STR, some (chars "ab"),
        [TokenType.TOK_INT, TokenType.TOK_STR, TokenType.TOK_EOF]) := by decide
  cases h : lexer_get_token 8 (lexer_init (bytes "ab 12 c")) with
  | none => rw [h] at hev; exact absurd hev (by simp)
  | some r =>
    rw [h] at hev
    simp only [Option.some_bind] at hev
    cases hx : lex_tokens 8 3 r.2 with
    | none => rw [hx] at hev; exact absurd hev (by simp)
    | some x =>
      rw [hx] at hev
      simp only [Option.map_some', Option.some.injEq, Prod.mk.injEq] at hev
      obtain ⟨h1, h2, h3⟩ := hev
      have hst := (C18_string_stable (bytes "ab 12 c") (lexer_init (bytes "ab 12 c")) 8 r
        Reachable.init h h1).2.1 8 3 x.1 x.2 hx
      exact ⟨r, x.1, x.2, rfl, h1, h2, hx, h3, by rw [hst, h2]⟩


/-! ## C19: after the Error for an unrecognised byte -/

/-- C19 (failing input): on 1023 spaces followed by `{` (1024 bytes) the first
call returns Error for an unrecognised byte (the report is 'cannot handle
character' at 1:1024, naming the sentinel and not `{`), and the second call
returns EndOfInput: the offending `{` is no longer the next unconsumed byte,
Error is not returned again, and EndOfInput follows the Error. -/
theorem C19_error_then_eof :
    ∃ c1 c2, lexer_get_token 1030 (lexer_init blanks_brace_input) = some (ERR_TOK, c1) ∧
      c1.err_sink = [{ line := 1, col := 1024, msg := ErrMsg.cannot_handle (-1) }] ∧
      lexer_get_token 1030 c1 = some (EOF_TOK, c2) ∧ c2.err_sink = c1.err_sink := by
  obtain ⟨c1, h1, h2, h3, h4⟩ := blanks_brace_error 1030 (by decide)
  obtain ⟨c2, h5, -, -, -, h6⟩ := lexer_get_token_done (by decide : 0 < 1030) h3
    (by rw [h4]; decide)
  exact ⟨c1, c2, h1, h2, h5, h6⟩

/-! ## C20: the character vector -/


/-- C20: for a vector created by `char_v_new(cap)` with `cap ≥ 1` and `n ≥ 1`
characters appended with `char_v_append`, with an allocator that grants no block
of 2^63 bytes or more: no store falls outside the block, whose size is the
capacity in force (the run ends in `abort()` after a refused allocation, or
returns); when it returns, `len = n + 1 ≤ cap`, the block holds the characters in
order followed by NUL, and the capacity is the initial one doubled some number
of times; and it does return when the allocator grants every block up to the
larger of `cap` and `2 * (n + 1)` bytes. -/
theorem C20_char_v_append (ok : Nat → Bool) (cap : Nat) (cs : List Int)
    (hmax : ∀ s, ok s = true → s < 2 ^ 63) (hcap : 1 ≤ cap) (hU : cap < SIZE_T)
    (hn : cs ≠ []) :
    (char_v_appends ok (char_v_new cap) cs = Except.error Fault.abort ∨
      ∃ v b j, char_v_appends ok (char_v_new cap) cs = Except.ok v ∧ v.buf = some b ∧
        b.length = v.cap ∧ v.len = cs.length + 1 ∧ v.len ≤ v.cap ∧
        b.take cs.length = cs.map some ∧ b[cs.length]? = some (some 0) ∧
        v.cap = cap * 2 ^ j) ∧
    ((∀ s, s ≤ max cap (2 * (cs.length + 1)) → ok s = true) →
      ∃ v, char_v_appends ok (char_v_new cap) cs = Except.ok v) := by
  obtain ⟨c, cs', rfl⟩ : ∃ c cs', cs = c :: cs' := by
    cases cs with
    | nil => exact absurd rfl hn
    | cons c cs' => exact ⟨c, cs', rfl⟩
  rcases vec_new_run ok hmax hcap hU c cs' with ⟨e1, s, e2, e3⟩ | ⟨v, e1, e2⟩
  · refine ⟨Or.inl e1, fun hok => ?_⟩
    rw [hok s e3] at e2
    exact absurd e2 (by decide)
  · obtain ⟨b, h1, h2, h3, h4, h5, h6, ⟨j, h7⟩, -, -⟩ := e2
    exact ⟨Or.inr ⟨v, b, j, e1, h1, h2, h3, h4, h5, h6, h7⟩, fun _ => ⟨v, e1⟩⟩

/-- Witness of C20: `char_v_new(1)` and the two characters `h`, `i`, with an
allocator that grants every block below 2^63 bytes: the capacity is doubled
twice, and the block holds `h`, `i`, NUL. -/
theorem C20_char_v_append_witness :
    (char_v_appends (fun s => decide (s < 2 ^ 63)) (char_v_new 1) [104, 105]).toOption.map
        (fun v => (v.buf, v.len, v.cap)) =
      some (some [some 104, some 105, some 0, none], 3, 4) ∧
    ((char_v_appends (fun s => decide (s < 2 ^ 63)) (char_v_new 1) [104, 105] =
        Except.error Fault.abort ∨
      ∃ v b j, char_v_appends (fun s => decide (s < 2 ^ 63)) (char_v_new 1) [104, 105] =
          Except.ok v ∧ v.buf = some b ∧
        b.length = v.cap ∧ v.len = [(104 : Int), 105].length + 1 ∧ v.len ≤ v.cap ∧
        b.take [(104 : Int), 105].length = [(104 : Int), 105].map some ∧
        b[[(104 : Int), 105].length]? = some (some 0) ∧ v.cap = 1 * 2 ^ j) ∧
    ((∀ s, s ≤ max 1 (2 * ([(104 : Int), 105].length + 1)) →
        (fun s => decide (s < 2 ^ 63)) s = true) →
      ∃ v, char_v_appends (fun s => decide (s < 2 ^ 63)) (char_v_new 1) [104, 105] =
        Except.ok v)) :=
  ⟨by decide,
    C20_char_v_append (fun s => decide (s < 2 ^ 63)) 1 [104, 105]
      (fun s hs => by simpa using hs) (by decide) (by decide) (by decide)⟩


end Ctpv
